import Mathlib

/-!
Verification development for the protoc-gen-openapi generator
(package `generator`: `openapi-v3.go`, `utils.go`, `enum.go`, `validate.go`).

The Go sources are shallowly embedded: each Go function becomes an
executable Lean definition with the same name (namespaced where the
repository carries several revisions of the same function).  Go slices
become `List`, Go strings become `String` (ASCII identification: the Go
code indexes bytes, the model indexes characters; all inputs of interest
are ASCII), pointer-mutation of the document and of the generator state
(`requiredSchemas` / `generatedSchemas`) becomes explicit state passing,
and `nil`-able results become `Option`.
-/

/- ### Small utilities (utils.go / part_000) -/

/-- `contains` from utils.go: returns true if a string slice contains a
specified string. -/
def contains : List String → String → Bool
  | [], _ => false
  | a :: rest, e => if a = e then true else contains rest e

theorem contains_iff_mem (s : List String) (e : String) :
    contains s e = true ↔ e ∈ s := by
  induction s with
  | nil => simp [contains]
  | cons a rest ih =>
      by_cases h : a = e <;> simp [contains, h, ih]
      exact fun h' => (h (h'.symm)).elim

/-- `appendUnique` from utils.go: appends a string to a slice if not
already present. -/
def appendUnique (s : List String) (e : String) : List String :=
  if contains s e then s else s ++ [e]

/- Character-level re-implementations of the Go `strings` functions the
generator calls (`HasSuffix`, `Split`, `TrimSpace`, `ToUpper`,
`ToLower`, newline removal).  The Go code works on bytes and Unicode;
on the ASCII inputs of interest the two agree. -/

/-- `strings.HasSuffix`. -/
def strEndsWith (s suffix : String) : Bool :=
  suffix.toList.isSuffixOf s.toList

/-- `strings.ToUpper` (ASCII). -/
def strToUpper (s : String) : String :=
  String.mk (s.toList.map Char.toUpper)

/-- `strings.ToLower` (ASCII). -/
def strToLower (s : String) : String :=
  String.mk (s.toList.map Char.toLower)

/-- `strings.Split` with a one-character separator, on character
lists: `split "" → [""]`, separators at the ends produce empty parts. -/
def splitOnChar (sep : Char) : List Char → List (List Char)
  | [] => [[]]
  | c :: rest =>
      let r := splitOnChar sep rest
      if c = sep then [] :: r
      else
        match r with
        | h :: t => (c :: h) :: t
        | [] => [[c]]

/-- `strings.Split(s, sep)` for a one-character separator. -/
def strSplitOn (s : String) (sep : Char) : List String :=
  (splitOnChar sep s.toList).map String.mk

/-- `strings.TrimSpace` (ASCII whitespace). -/
def trimAscii (s : String) : String :=
  String.mk (((s.toList.dropWhile Char.isWhitespace).reverse.dropWhile Char.isWhitespace).reverse)

/-- `strings.Replace(s, c, "", -1)` for a one-character pattern:
removes every occurrence. -/
def removeChar (s : String) (c : Char) : String :=
  String.mk (s.toList.filter (fun x => x ≠ c))

/-- `singular` from utils.go: fixed suffix heuristic
(`ves` → `f`, `ies` → `y`, trailing `s` dropped). -/
def singular (plural : String) : String :=
  if strEndsWith plural "ves" then plural.dropRight 3 ++ "f"
  else if strEndsWith plural "ies" then plural.dropRight 3 ++ "y"
  else if strEndsWith plural "s" then plural.dropRight 1
  else plural

/- ### Character-list helpers used to embed the Go `strings` / `regexp`
calls appearing in openapi-v3.go.  The two regular expressions of the
generator (`pathPattern = {([^=}]+)}` and `namedPathPattern = {(.+)=(.+)}`)
are embedded as direct scanning functions with Go's leftmost-first,
greedy-with-backtracking semantics for exactly these two patterns. -/

/-- The `{` character, kept as a named constant. -/
def lbrace : Char := Char.ofNat 123

/-- The `}` character, kept as a named constant. -/
def rbrace : Char := Char.ofNat 125

/-- First index (if any) at which `pat` occurs as a contiguous sublist of
`l`.  Mirrors the search underlying `strings.Replace(s, old, new, 1)`. -/
def firstIdxOfSeq (pat : List Char) : List Char → Option Nat
  | [] => if pat = [] then some 0 else none
  | c :: rest =>
      if pat.isPrefixOf (c :: rest) then some 0
      else (firstIdxOfSeq pat rest).map (· + 1)

/-- `strings.Replace(s, old, new, 1)`: replace the first occurrence of
`old` (Go inserts `new` at the front when `old` is empty). -/
def replaceFirstList (l old new : List Char) : List Char :=
  match firstIdxOfSeq old l with
  | none => l
  | some i => l.take i ++ new ++ l.drop (i + old.length)

/-- String wrapper for `strings.Replace(s, old, new, 1)`. -/
def replaceFirst (s old new : String) : String :=
  String.mk (replaceFirstList s.toList old.toList new.toList)

/-- All start indices at which `pat` occurs in `l` (ascending). -/
def allIdxOfSeq (pat l : List Char) : List Nat :=
  (List.range (l.length + 1)).filter (fun i => pat.isPrefixOf (l.drop i))

/-- Last start index at which `pat` occurs in `l`. -/
def lastIdxOfSeq (pat l : List Char) : Option Nat :=
  (allIdxOfSeq pat l).getLast?

/-- One match attempt of the pattern `{([^=}]+)}` starting right after a
`{`: the capture is the maximal run of characters other than `=` and `}`;
the attempt succeeds when the run is nonempty and terminated by `}`.
Returns the capture and the tail after the closing brace. -/
def simpleMatchAt (rest : List Char) : Option (List Char × List Char) :=
  let run := rest.takeWhile (fun c => c ≠ '=' ∧ c ≠ rbrace)
  match rest.drop run.length with
  | c :: tail => if c = rbrace ∧ run ≠ [] then some (run, tail) else none
  | [] => none

/-- `pathPattern.FindAllStringSubmatch(path, -1)` for the regexp
`{([^=}]+)}`: all leftmost-first non-overlapping matches; each returned
element is the first (and only) capture group.  Fuel-indexed structural
recursion; `fuel = length of the input` always suffices because every
step consumes at least one character. -/
def findSimpleAux : Nat → List Char → List (List Char)
  | 0, _ => []
  | _ + 1, [] => []
  | fuel + 1, c :: rest =>
      if c = lbrace then
        match simpleMatchAt rest with
        | some (run, tail) => run :: findSimpleAux fuel tail
        | none => findSimpleAux fuel rest
      else findSimpleAux fuel rest

/-- The capture groups of all `{field}` tokens of a path template. -/
def findSimpleParams (path : String) : List String :=
  (findSimpleAux path.toList.length path.toList).map String.mk

/-- One match attempt of `{(.+)=(.+)}` starting right after a `{`
(Go semantics: both groups greedy, so the `=` chosen is the last one
that still leaves room for `(.+)}`, and the `}` chosen is the last one).
Returns (whole match without the leading `{`, group 1, group 2). -/
def namedMatchAt (rest : List Char) : Option (List Char × List Char × List Char) :=
  match lastIdxOfSeq [rbrace] rest with
  | none => none
  | some m =>
      let ks := (allIdxOfSeq ['='] rest).filter (fun k => 1 ≤ k ∧ k + 2 ≤ m)
      match ks.getLast? with
      | none => none
      | some k => some (rest.take (m + 1), rest.take k, (rest.drop (k + 1)).take (m - k - 1))

/-- `namedPathPattern.FindStringSubmatch(path)` for `{(.+)=(.+)}`:
the leftmost match; returns (full match, group 1, group 2). -/
def findNamedAux : List Char → Option (String × String × String)
  | [] => none
  | c :: rest =>
      if c = lbrace then
        match namedMatchAt rest with
        | some (whole, g1, g2) =>
            some (String.mk (lbrace :: whole), String.mk g1, String.mk g2)
        | none => findNamedAux rest
      else findNamedAux rest

/-- Finds the (leftmost) `{name=starred/path}` template of a path. -/
def findNamed (path : String) : Option (String × String × String) :=
  findNamedAux path.toList

/- ### Comment filtering (openapi-v3.go lines 153-178).
`linterRulePattern = \(-- .* --\)`: a match runs from a literal `(-- ` to
the last ` --)` on the same line (Go's `.` does not match a newline). -/

/-- One attempt of the linter-rule pattern starting at a `(`: requires
`-- ` immediately after, and matches up to the last ` --)` of the current
line.  Returns the tail after the match. -/
def linterMatchAt (rest : List Char) : Option (List Char) :=
  if ['-', '-', ' '].isPrefixOf rest then
    let afterMarker := rest.drop 3
    let line := afterMarker.takeWhile (· ≠ '\n')
    match lastIdxOfSeq [' ', '-', '-', ')'] line with
    | some k => if k + 4 ≤ line.length then some (afterMarker.drop (k + 4)) else none
    | none => none
  else none

/-- `linterRulePattern.ReplaceAllString(comment, "")`: removes every
leftmost-first match of `\(-- .* --\)`.  Fuel-indexed; the input length
is always enough fuel. -/
def removeLinterRulesAux : Nat → List Char → List Char
  | 0, l => l
  | _ + 1, [] => []
  | fuel + 1, c :: rest =>
      if c = '(' then
        match linterMatchAt rest with
        | some tail => removeLinterRulesAux fuel tail
        | none => c :: removeLinterRulesAux fuel rest
      else c :: removeLinterRulesAux fuel rest

def removeLinterRules (s : String) : String :=
  String.mk (removeLinterRulesAux s.toList.length s.toList)

/-- `filterCommentString` (openapi-v3.go lines 153-165): keep the part
after the first `|` when one is present, optionally strip newlines,
remove linter rules, trim.  (Go `strings.TrimSpace` trims Unicode
whitespace; `String.trim` trims ASCII whitespace, which agrees on the
ASCII inputs of interest.) -/
def filterCommentString (c : String) (removeNewLines : Bool) : String :=
  let split := strSplitOn c '|'
  let comment := if split.length ≥ 2 then String.intercalate "|" split.tail else c
  let comment := if removeNewLines then removeChar comment '\n' else comment
  trimAscii (removeLinterRules comment)

/-- `filterCommentStringForSummary` (openapi-v3.go lines 167-178): keep
the part before the first `|` when one is present, else fall back to the
method name; remove linter rules, trim. -/
def filterCommentStringForSummary (c : String) (goName : String) : String :=
  let split := strSplitOn c '|'
  let comment := if split.length ≥ 2 then split.headI else goName
  trimAscii (removeLinterRules comment)

/- ### OpenAPI v3 document model (the subset of gnostic's `openapiv3`
types populated by this generator; unused proto fields are omitted,
Go zero values are the Lean defaults). -/

/-- The scalar payload of a `v3.Schema`.  `minimum`/`maximum` are
`float64` in gnostic but are only ever assigned exact integer values
(`float64(rules.GetGte())`), so they are modelled as `Int`. -/
structure SchemaCore where
  type : String := ""
  format : String := ""
  description : String := ""
  nullable : Bool := false
  readOnly : Bool := false
  writeOnly : Bool := false
  enum : List String := []
  required : List String := []
  pattern : String := ""
  minLength : Int := 0
  maxLength : Int := 0
  minItems : Int := 0
  maxItems : Int := 0
  minimum : Int := 0
  maximum : Int := 0
deriving DecidableEq, Repr

/- `v3.SchemaOrReference`: either a `$ref` (`v3.Reference.XRef`) or an
inline schema.  `items` models `Schema.Items.SchemaOrReference`
(`SoRList.nil` when Items is nil), `addProps` models
`Schema.AdditionalProperties.SchemaOrReference` (nil-able), `props`
models `Schema.Properties.AdditionalProperties` (name/value pairs).
The family is a mutual inductive (rather than `List SoR` /
`Option SoR` nested occurrences) so that recursion over it is
structural. -/
mutual
/-- `v3.SchemaOrReference`. -/
inductive SoR where
  | ref (xref : String)
  | schema (core : SchemaCore) (items : SoRList) (addProps : OptSoR)
      (props : PropList)
deriving Repr

/-- A nil-able schema-or-reference (`*v3.SchemaOrReference`). -/
inductive OptSoR where
  | none
  | some (s : SoR)
deriving Repr

/-- `[]*v3.SchemaOrReference`. -/
inductive SoRList where
  | nil
  | cons (head : SoR) (tail : SoRList)
deriving Repr

/-- `[]*v3.NamedSchemaOrReference`. -/
inductive PropList where
  | nil
  | cons (name : String) (value : SoR) (tail : PropList)
deriving Repr
end

/-- An inline schema with only scalar payload (the common case). -/
def SoR.scalar (core : SchemaCore) : SoR := .schema core .nil .none .nil

def SoR.core? : SoR → Option SchemaCore
  | .ref _ => Option.none
  | .schema c _ _ _ => Option.some c

def SoR.xref? : SoR → Option String
  | .ref x => Option.some x
  | .schema _ _ _ _ => Option.none

/-- Embed a Lean option into the nil-able schema type. -/
def OptSoR.ofOption : Option SoR → OptSoR
  | Option.none => .none
  | Option.some s => .some s

/-- Build the property list from a Lean list of name/value pairs. -/
def PropList.ofList : List (String × SoR) → PropList
  | [] => .nil
  | (n, v) :: rest => .cons n v (PropList.ofList rest)

/-- View of the property list as a Lean list of name/value pairs. -/
def PropList.toList : PropList → List (String × SoR)
  | .nil => []
  | .cons n v rest => (n, v) :: PropList.toList rest

/-- View of a schema list as a Lean list. -/
def SoRList.toList : SoRList → List SoR
  | .nil => []
  | .cons h t => h :: SoRList.toList t

/-- `v3.Parameter` (no references to parameters are ever produced). -/
structure Parameter where
  name : String := ""
  location : String := ""  -- the proto field `in`
  description : String := ""
  required : Bool := false
  schema : Option SoR := none
deriving Repr

/-- `v3.NamedMediaType`: a media-type name with an optional schema. -/
structure NamedMediaType where
  name : String := ""
  schema : Option SoR := none
deriving Repr

/-- `v3.RequestBody`. -/
structure RequestBody where
  required : Bool := false
  content : List NamedMediaType := []
deriving Repr

/-- `v3.Response` (the generator only sets description and content). -/
structure Response where
  description : String := ""
  content : List NamedMediaType := []
deriving Repr

/-- `v3.Operation`. -/
structure Operation where
  tags : List String := []
  description : String := ""
  summary : String := ""
  operationId : String := ""
  parameters : List Parameter := []
  responses : List (String × Response) := []
  requestBody : Option RequestBody := none
deriving Repr

/-- `v3.PathItem`: at most one operation per supported verb. -/
structure PathItem where
  get : Option Operation := none
  post : Option Operation := none
  put : Option Operation := none
  delete : Option Operation := none
  patch : Option Operation := none
deriving Repr

/-- `v3.Tag`. -/
structure Tag where
  name : String := ""
  description : String := ""
deriving DecidableEq, Repr, Inhabited

/-- `v3.Info`. -/
structure Info where
  title : String := ""
  description : String := ""
  version : String := ""
deriving DecidableEq, Repr

/-- `v3.Document`: `paths` models `Paths.Path` (named path items, in
insertion order before the final sort), `schemas` models
`Components.Schemas.AdditionalProperties`. -/
structure Document where
  openapi : String := ""
  info : Info := {}
  tags : List Tag := []
  paths : List (String × PathItem) := []
  schemas : List (String × SoR) := []
deriving Repr

/- ### Protobuf descriptor model (the input contract of §6: the facets of
`protogen` / `protoreflect` descriptors the generator reads). -/

/-- `protoreflect.Kind`, with the payload each kind exposes to the
generator: enum kinds carry their value names in declaration order
(`field.Enum().Values()`), message kinds carry the full type name that
`fullMessageTypeName(field.Message())` computes for the referenced
message. -/
inductive FieldKind where
  | stringK | boolK | bytesK
  | int32K | sint32K | uint32K | int64K | sint64K | uint64K
  | sfixed32K | fixed32K | sfixed64K | fixed64K
  | floatK | doubleK
  | enumK (valueNames : List String)
  | messageK (typeName : String)
deriving DecidableEq, Repr

/-- `protoreflect.Kind.String()` for the kinds whose name the generator
uses as a schema `format`. -/
def FieldKind.kindName : FieldKind → String
  | .stringK => "string" | .boolK => "bool" | .bytesK => "bytes"
  | .int32K => "int32" | .sint32K => "sint32" | .uint32K => "uint32"
  | .int64K => "int64" | .sint64K => "sint64" | .uint64K => "uint64"
  | .sfixed32K => "sfixed32" | .fixed32K => "fixed32"
  | .sfixed64K => "sfixed64" | .fixed64K => "fixed64"
  | .floatK => "float" | .doubleK => "double"
  | .enumK _ => "enum" | .messageK _ => "message"

/-- `annotations.FieldBehavior` values the generator inspects. -/
inductive FieldBehavior where
  | required | outputOnly | inputOnly | other
deriving DecidableEq, Repr

/-- protoc-gen-validate `validate.StringRules` (subset read). -/
structure StringRules where
  email : Bool := false
  hostname : Bool := false
  ip : Bool := false
  ipv4 : Bool := false
  ipv6 : Bool := false
  uri : Bool := false
  uriRef : Bool := false
  uuid : Bool := false
  minLen : Nat := 0
  maxLen : Nat := 0
  pattern : String := ""
deriving DecidableEq, Repr

/-- `validate.Int32Rules` / `validate.Int64Rules` (subset read): the
getter values, 0 when unset. -/
structure IntRules where
  gte : Int := 0
  lte : Int := 0
deriving DecidableEq, Repr

/-- `validate.EnumRules` (subset read): `Const`/`NotIn` pointers. -/
structure EnumRulesV where
  const : Option Int := none
  notIn : List Int := []
deriving DecidableEq, Repr

mutual
/-- `validate.FieldRules` (subset read); `none` components model nil
sub-rule pointers. -/
inductive FieldRules where
  | mk (string_ : Option StringRules) (int32 : Option IntRules)
       (int64 : Option IntRules) (enum : Option EnumRulesV)
       (repeated : Option RepeatedRules)

/-- `validate.RepeatedRules` (subset read). -/
inductive RepeatedRules where
  | mk (minItems : Option Nat) (maxItems : Option Nat) (items : Option FieldRules)
end

def FieldRules.getString_ : FieldRules → Option StringRules
  | .mk s _ _ _ _ => s

def FieldRules.getInt32 : FieldRules → Option IntRules
  | .mk _ i _ _ _ => i

def FieldRules.getInt64 : FieldRules → Option IntRules
  | .mk _ _ i _ _ => i

def FieldRules.getEnum : FieldRules → Option EnumRulesV
  | .mk _ _ _ e _ => e

def FieldRules.getRepeated : FieldRules → Option RepeatedRules
  | .mk _ _ _ _ r => r

def RepeatedRules.minItems : RepeatedRules → Option Nat
  | .mk m _ _ => m

def RepeatedRules.maxItems : RepeatedRules → Option Nat
  | .mk _ m _ => m

def RepeatedRules.items : RepeatedRules → Option FieldRules
  | .mk _ _ i => i

/-- One field of a message (`protogen.Field` together with the
`protoreflect.FieldDescriptor` facets the generator reads).  For a map
field (`IsMap`), `mapValueKind` is the kind of `field.MapValue()` (map
values are never lists or maps themselves). -/
structure FieldDesc where
  name : String
  jsonName : String := ""
  comment : String := ""
  behaviors : List FieldBehavior := []
  rules : Option FieldRules := none
  isList : Bool := false
  isMap : Bool := false
  kind : FieldKind
  mapValueKind : Option FieldKind := none

/- `protogen.Message`: name, immediate parent message name (when
nested), package of the parent file, leading comment, the
`annotations.ResourceDescriptor.Pattern` list when the resource
annotation is present, fields, and nested messages.  A mutual
inductive with its own list type (`[]*protogen.Message`) so that the
Go recursion over nested messages is structural. -/
mutual
/-- `protogen.Message`. -/
inductive MessageDesc where
  | mk (name : String) (parentName : Option String) (packageName : String)
       (comment : String) (resource : Option (List String))
       (fields : List FieldDesc) (nested : MessageList)

/-- `[]*protogen.Message`. -/
inductive MessageList where
  | nil
  | cons (head : MessageDesc) (tail : MessageList)
end

def MessageDesc.name : MessageDesc → String
  | .mk n _ _ _ _ _ _ => n

def MessageDesc.parentName : MessageDesc → Option String
  | .mk _ p _ _ _ _ _ => p

def MessageDesc.packageName : MessageDesc → String
  | .mk _ _ p _ _ _ _ => p

def MessageDesc.comment : MessageDesc → String
  | .mk _ _ _ c _ _ _ => c

def MessageDesc.resource : MessageDesc → Option (List String)
  | .mk _ _ _ _ r _ _ => r

def MessageDesc.fields : MessageDesc → List FieldDesc
  | .mk _ _ _ _ _ f _ => f

def MessageDesc.nested : MessageDesc → MessageList
  | .mk _ _ _ _ _ _ n => n

/-- Build a message list from a Lean list. -/
def MessageList.ofList : List MessageDesc → MessageList
  | [] => .nil
  | m :: rest => .cons m (MessageList.ofList rest)

/-- View of a message list as a Lean list. -/
def MessageList.toList : MessageList → List MessageDesc
  | .nil => []
  | .cons h t => h :: MessageList.toList t

/-- The HTTP binding pattern of `annotations.HttpRule`. -/
inductive HttpPattern where
  | get (path : String)
  | post (path : String)
  | put (path : String)
  | delete (path : String)
  | patch (path : String)
  | custom
  | unknown
deriving DecidableEq, Repr

/-- `annotations.HttpRule` (pattern and body selector). -/
structure HttpRule where
  pattern : HttpPattern
  body : String := ""
deriving DecidableEq, Repr

/-- `protogen.Method`: `httpRule = none` models an absent
`annotations.E_Http` extension. -/
structure MethodDesc where
  goName : String
  comment : String := ""
  input : MessageDesc
  output : MessageDesc
  httpRule : Option HttpRule := none

/-- `protogen.Service`. -/
structure ServiceDesc where
  goName : String
  comment : String := ""
  methods : List MethodDesc := []

/-- `protogen.File`: `generate` models `file.Generate`. -/
structure FileDesc where
  generate : Bool := true
  services : List ServiceDesc := []
  messages : MessageList := .nil

/-- The generator `Configuration` (all pointers are non-nil by the §6
input contract, so the fields are plain values). -/
structure Configuration where
  version : String := ""
  title : String := ""
  description : String := ""
  naming : String := ""
  validate : Bool := false
deriving Repr

/-- The mutable generator state (`requiredSchemas`, `generatedSchemas`)
together with the document being built, threaded explicitly. -/
structure GenState where
  required : List String := []
  generated : List String := []
  doc : Document := {}
deriving Repr

/- ### Naming (openapi-v3.go lines 237-295).
Go indexes bytes (`name[0:1]`); on the ASCII identifiers of interest this
is the first character.  `strings.ToUpper`/`ToLower` restricted to one
ASCII character are `Char.toUpper`/`Char.toLower`. -/

/-- `formatMessageRef` (openapi-v3.go lines 237-251). -/
def formatMessageRef (conf : Configuration) (name : String) : String :=
  if conf.naming = "proto" then name
  else if name.length > 1 then strToUpper (name.take 1) ++ name.drop 1
  else if name.length = 1 then strToLower name
  else name

/-- `getMessageName` (openapi-v3.go lines 253-263): prefix the immediate
parent message name (one level only), joined by `_`. -/
def getMessageName (m : MessageDesc) : String :=
  (match m.parentName with
   | some p => p ++ "_"
   | none => "") ++ m.name

/-- `formatMessageName` (openapi-v3.go lines 265-277). -/
def formatMessageName (conf : Configuration) (m : MessageDesc) : String :=
  let name := getMessageName m
  if conf.naming = "proto" then name
  else if name.length > 0 then strToUpper (name.take 1) ++ name.drop 1
  else name

/-- `formatFieldName` (openapi-v3.go lines 279-285). -/
def formatFieldName (conf : Configuration) (field : FieldDesc) : String :=
  if conf.naming = "proto" then field.name else field.jsonName

/-- `findAndFormatFieldName` (openapi-v3.go lines 287-295). -/
def findAndFormatFieldName (conf : Configuration) (name : String) (inMessage : MessageDesc) : String :=
  match inMessage.fields.find? (fun f => f.name = name) with
  | some field => formatFieldName conf field
  | none => name

/-- `fullMessageTypeName` (openapi-v3.go lines 562-566). -/
def fullMessageTypeName (m : MessageDesc) : String :=
  "." ++ m.packageName ++ "." ++ getMessageName m

/-- `schemaReferenceForTypeName` (openapi-v3.go lines 552-560): appends
the type name to `requiredSchemas` when absent and returns the `$ref`
string built from the last dot-separated component. -/
def schemaReferenceForTypeName (conf : Configuration) (required : List String)
    (typeName : String) : String × List String :=
  let required' := if ¬ contains required typeName then required ++ [typeName] else required
  let parts := strSplitOn typeName '.'
  let lastPart := parts.getLastD ""
  ("#/components/schemas/" ++ formatMessageRef conf lastPart, required')

/- ### Enum schemas.  The repository carries two revisions:
`part_003` defines the generator method `enumKindSchema` invoked as
`g.enumKindSchema(field)` by openapi-v3.go (no `format` field);
`part_002` defines a plain-function revision that also sets
`format: "enum"` and factors the name list through `enumToStringSlice`. -/

/-- `enumKindSchema` (part_003 lines 10-37, the revision wired into
openapi-v3.go): value names in declaration order, skipping names with
the suffix `_UNSPECIFIED`; no `format` is set. -/
def enumKindSchema (valueNames : List String) : SoR :=
  SoR.scalar
    { type := "string"
      enum := valueNames.filter (fun n => ¬ strEndsWith n "_UNSPECIFIED") }

namespace EnumRev2

/-- `enumToStringSlice` (part_002): specialised to the empty
`enumValues` varargs with which `enumKindSchema` invokes it, so
`removeUnspecified` is true and every declared value is considered. -/
def enumToStringSlice (valueNames : List String) : List String :=
  valueNames.filter (fun n => ¬ strEndsWith n "_UNSPECIFIED")

/-- `enumsToV3Any` (part_002): wraps each name in `v3.Any{Yaml: name}`
(the model keeps the plain name). -/
def enumsToV3Any (valueNames : List String) : List String :=
  enumToStringSlice valueNames

/-- `enumKindSchema` (part_002 lines 10-24): same filtered list, with
`format: "enum"` additionally set. -/
def enumKindSchema (valueNames : List String) : SoR :=
  SoR.scalar
    { type := "string"
      format := "enum"
      enum := enumsToV3Any valueNames }

end EnumRev2

/- ### Field/type to schema translation (openapi-v3.go lines 607-744). -/

/-- `schemaOrReferenceForType` (openapi-v3.go lines 607-671): the
well-known-type table; `none` models the nil returned for
`.google.protobuf.Empty`; the default branch produces a `$ref` and
registers the type name as required. -/
def schemaOrReferenceForType (conf : Configuration) (required : List String)
    (typeName : String) : Option SoR × List String :=
  if typeName = ".google.protobuf.Timestamp" then
    (some (SoR.scalar { type := "string", format := "date-time" }), required)
  else if typeName = ".google.type.Date" then
    (some (SoR.scalar { type := "string", format := "date" }), required)
  else if typeName = ".google.type.DateTime" then
    (some (SoR.scalar { type := "string", format := "date-time" }), required)
  else if typeName = ".google.protobuf.Struct" then
    (some (SoR.scalar { type := "object" }), required)
  else if typeName = ".google.protobuf.Empty" then
    (none, required)
  else if typeName = ".google.protobuf.BoolValue" then
    (some (SoR.scalar { type := "boolean", nullable := true }), required)
  else if typeName = ".google.protobuf.BytesValue" then
    (some (SoR.scalar { type := "string", format := "bytes", nullable := true }), required)
  else if typeName = ".google.protobuf.DoubleValue" ∨ typeName = ".google.protobuf.FloatValue" then
    (some (SoR.scalar { type := "number", nullable := true, format := "float" }), required)
  else if typeName = ".google.protobuf.Int64Value" ∨ typeName = ".google.protobuf.UInt64Value" ∨
          typeName = ".google.protobuf.Int32Value" ∨ typeName = ".google.protobuf.UInt32Value" then
    (some (SoR.scalar { type := "integer", nullable := true }), required)
  else if typeName = ".google.protobuf.StringValue" then
    (some (SoR.scalar { type := "string", nullable := true }), required)
  else
    let (ref, required') := schemaReferenceForTypeName conf required typeName
    (some (SoR.ref ref), required')

/-- The kind dispatch of `schemaOrReferenceForField` (openapi-v3.go
lines 685-730), shared by the map-value recursion (a map value is never
itself a list or a map).  The Go `default` arm covers only
`protoreflect.GroupKind`, which the descriptor model does not include. -/
def schemaOrReferenceForKind (conf : Configuration) (required : List String) :
    FieldKind → Option SoR × List String
  | .messageK typeName => schemaOrReferenceForType conf required typeName
  | .stringK => (some (SoR.scalar { type := "string" }), required)
  | .int32K => (some (SoR.scalar { type := "integer", format := "int32" }), required)
  | .sint32K => (some (SoR.scalar { type := "integer", format := "sint32" }), required)
  | .uint32K => (some (SoR.scalar { type := "integer", format := "uint32" }), required)
  | .int64K => (some (SoR.scalar { type := "integer", format := "int64" }), required)
  | .sint64K => (some (SoR.scalar { type := "integer", format := "sint64" }), required)
  | .uint64K => (some (SoR.scalar { type := "integer", format := "uint64" }), required)
  | .sfixed32K => (some (SoR.scalar { type := "integer", format := "sfixed32" }), required)
  | .fixed32K => (some (SoR.scalar { type := "integer", format := "fixed32" }), required)
  | .sfixed64K => (some (SoR.scalar { type := "integer", format := "sfixed64" }), required)
  | .fixed64K => (some (SoR.scalar { type := "integer", format := "fixed64" }), required)
  | .enumK valueNames => (some (enumKindSchema valueNames), required)
  | .boolK => (some (SoR.scalar { type := "boolean" }), required)
  | .floatK => (some (SoR.scalar { type := "number", format := "float" }), required)
  | .doubleK => (some (SoR.scalar { type := "number", format := "double" }), required)
  | .bytesK => (some (SoR.scalar { type := "string", format := "bytes" }), required)

/-- `schemaOrReferenceForField` (openapi-v3.go lines 673-744): map
fields become `type: object` with `additionalProperties` from the map
value's kind; a nil message schema (Empty) returns nil before the
repeated-wrapping; repeated fields wrap the kind schema in
`{type: array, items: [schema]}`. -/
def schemaOrReferenceForField (conf : Configuration) (required : List String)
    (field : FieldDesc) : Option SoR × List String :=
  if field.isMap then
    match field.mapValueKind with
    | some valueKind =>
        let (valueSchema, required') := schemaOrReferenceForKind conf required valueKind
        (some (SoR.schema { type := "object" } .nil (OptSoR.ofOption valueSchema) .nil), required')
    | none =>
        (some (SoR.schema { type := "object" } .nil .none .nil), required)
  else
    let (kindSchema, required') := schemaOrReferenceForKind conf required field.kind
    match kindSchema with
    | none => (none, required')
    | some s =>
        if field.isList then
          (some (SoR.schema { type := "array" } (.cons s .nil) .none .nil), required')
        else
          (some s, required')

/-- `coalesceToStringSchema` (openapi-v3.go lines 969-989): keeps the
schema only when it is inline and its `type` is in `allowed`; everything
else (references included; also a nil schema, since `GetOneof` on nil is
nil) becomes a fresh bare `{type: string}` schema. -/
def coalesceToStringSchema (schema : Option SoR) (allowed : List String) : SoR :=
  let stringSchema := SoR.scalar { type := "string" }
  match schema with
  | some (SoR.schema core items addProps props) =>
      if contains allowed core.type then SoR.schema core items addProps props
      else stringSchema
  | _ => stringSchema

/- ### Validation-constraint projection (part_001, the
`fieldRule`-factored revision of validate.go; the inline revisions in
openapi-v3.go lines 746-853 and validate.go implement the same
`gte`/`lte` and string-rule projection for non-repeated fields). -/

/-- `fieldRule` (part_001 lines 76-178): dispatch on the field kind and
project the matching rule-set into the inline schema's scalar fields.
In the enum `NotIn` arm the Go code dereferences `enumRules.Const`,
which is nil in that arm's typical inputs (a crash site); the model
renders that dereference as `getD 0`. -/
def fieldRule (fieldRules : FieldRules) (field : FieldDesc) (core : SchemaCore) : SchemaCore :=
  match field.kind with
  | .messageK _ => core
  | .stringK =>
      match fieldRules.getString_ with
      | none => core
      | some r =>
          let core :=
            if r.email then { core with format := "email" }
            else if r.hostname then { core with format := "hostname" }
            else if r.ip then { core with format := "ip" }
            else if r.ipv4 then { core with format := "ipv4" }
            else if r.ipv6 then { core with format := "ipv6" }
            else if r.uri then { core with format := "uri" }
            else if r.uriRef then { core with format := "uri_ref" }
            else if r.uuid then { core with format := "uuid" }
            else core
          let core := if r.minLen > 0 then { core with minLength := (r.minLen : Int) } else core
          let core := if r.maxLen > 0 then { core with maxLength := (r.maxLen : Int) } else core
          if r.pattern ≠ "" then { core with pattern := r.pattern } else core
  | .int32K =>
      match fieldRules.getInt32 with
      | none => core
      | some r =>
          let core := if r.gte > 0 then { core with minimum := r.gte } else core
          if r.lte > 0 then { core with maximum := r.lte } else core
  | .int64K =>
      match fieldRules.getInt64 with
      | none => core
      | some r =>
          let core := if r.gte > 0 then { core with minimum := r.gte } else core
          if r.lte > 0 then { core with maximum := r.lte } else core
  | .enumK _ =>
      match fieldRules.getEnum with
      | none => core
      | some er =>
          if er.const.isSome then { core with enum := [toString (er.const.getD 0)] }
          else if er.notIn ≠ [] then { core with enum := [toString (er.const.getD 0)] }
          else core
  | _ => core

/-- `addValidationRules` (part_001 lines 13-74): absent rules, reference
schemas and map fields are left untouched; repeated fields receive
`minItems`/`maxItems` and have the item rules applied to the single
array item (the Go code indexes `Items.SchemaOrReference[0]` and
type-asserts it to an inline schema — on the generator's own arrays
that element exists and is whatever the kind schema was; the model
leaves the schema unchanged where the assertion would panic). -/
def addValidationRules (fieldSchema : SoR) (field : FieldDesc) : SoR :=
  match field.rules with
  | none => fieldSchema
  | some fieldRules =>
      match fieldSchema with
      | .ref x => .ref x
      | .schema core items addProps props =>
          if field.isMap then .schema core items addProps props
          else if field.isList then
            match fieldRules.getRepeated with
            | none => .schema core items addProps props
            | some rr =>
                let core :=
                  match rr.minItems with
                  | some v => { core with minItems := (v : Int) }
                  | none => core
                let core :=
                  match rr.maxItems with
                  | some v => { core with maxItems := (v : Int) }
                  | none => core
                match rr.items with
                | none => .schema core items addProps props
                | some itemRules =>
                    match items with
                    | SoRList.cons (SoR.schema icore iitems iaddProps iprops) restItems =>
                        .schema core
                          (SoRList.cons
                            (SoR.schema (fieldRule itemRules field icore) iitems iaddProps iprops)
                            restItems)
                          addProps props
                    | _ => .schema core items addProps props
          else .schema (fieldRule fieldRules field core) items addProps props

/- ### Operations (openapi-v3.go lines 297-550). -/

/-- The path-parameter rewriting loop of `buildOperationV3` (lines
320-327): for each simple `{field}` capture, mark it covered, rewrite
the first occurrence of the raw capture text inside the path to the
formatted field name, and collect the formatted name. -/
def simpleParamsLoop (conf : Configuration) (inputMessage : MessageDesc) :
    List String → List String × String × List String → List String × String × List String
  | [], acc => acc
  | m :: rest, (covered, path, pathParameters) =>
      let pathParameter := findAndFormatFieldName conf m inputMessage
      simpleParamsLoop conf inputMessage rest
        (covered ++ [m], replaceFirst path m pathParameter, pathParameters ++ [pathParameter])

/-- The named-path-parameter loop of `buildOperationV3` (lines 358-368):
walk the `/`-split starred path two segments at a time, naming each `*`
slot after the singularized, formatted previous segment.  Returns the
rewritten parts and the collected parameter names. -/
def namedPartsLoop (conf : Configuration) (inputMessage : MessageDesc) :
    List String → List String × List String
  | [] => ([], [])
  | [x] => ([x], [])
  | a :: _b :: rest =>
      let namedPathParameter := singular (findAndFormatFieldName conf a inputMessage)
      let (rest', params) := namedPartsLoop conf inputMessage rest
      (a :: ("\x7b" ++ namedPathParameter ++ "\x7d") :: rest', namedPathParameter :: params)

/-- A required string path parameter (lines 331-349). -/
def mkPathParameter (name : String) : Parameter :=
  { name := name, location := "path", required := true,
    schema := some (SoR.scalar { type := "string" }) }

/-- A required string path parameter from a named capture (lines
375-394), carrying the generated description. -/
def mkNamedPathParameter (name : String) : Parameter :=
  { name := name, location := "path", required := true,
    description := "The " ++ name ++ " id.",
    schema := some (SoR.scalar { type := "string" }) }

/-- The query parameter built for one uncovered input field (lines
397-421): schema from §4.2 coalesced through
`coalesceToStringSchema(schema, "number", "integer")`, then validation
rules, never required. -/
def mkQueryParameter (conf : Configuration) (required : List String)
    (field : FieldDesc) : Parameter × List String :=
  let (schema0, required') := schemaOrReferenceForField conf required field
  let schema1 := coalesceToStringSchema schema0 ["number", "integer"]
  let schema2 := addValidationRules schema1 field
  ({ name := formatFieldName conf field, location := "query",
     description := filterCommentString field.comment true,
     required := false, schema := some schema2 }, required')

/-- The query-parameter loop of `buildOperationV3` (lines 396-423). -/
def queryParamsLoop (conf : Configuration) (covered : List String) :
    List FieldDesc → List Parameter × List String → List Parameter × List String
  | [], acc => acc
  | field :: rest, (params, required) =>
      if ¬ contains covered field.name then
        let (p, required') := mkQueryParameter conf required field
        queryParamsLoop conf covered rest (params ++ [p], required')
      else
        queryParamsLoop conf covered rest (params, required)

/-- `responseContentForMessage` (openapi-v3.go lines 568-605). -/
def responseContentForMessage (conf : Configuration) (required : List String)
    (outputMessage : MessageDesc) : List NamedMediaType × List String :=
  let typeName := fullMessageTypeName outputMessage
  if typeName = ".google.protobuf.Empty" then ([], required)
  else if typeName = ".google.protobuf.Struct" then ([], required)
  else if typeName = ".google.api.HttpBody" then
    ([{ name := "application/octet-stream", schema := none }], required)
  else
    let (xref, required') := schemaReferenceForTypeName conf required typeName
    ([{ name := "application/json", schema := some (SoR.ref xref) }], required')

/-- The request-body schema of `buildOperationV3` (lines 450-519):
`*` passes the whole input message; a named field passing a string or a
message (other scalar kinds are logged and ignored); `Empty`/`Struct`
bodies become an inline empty object, other messages a `$ref`. -/
def requestBodySchema (conf : Configuration) (required : List String)
    (bodyField : String) (inputMessage : MessageDesc) : Option SoR × List String :=
  let scalarAndMessage : Option String × Option String :=
    if bodyField = "*" then (none, some (fullMessageTypeName inputMessage))
    else
      match inputMessage.fields.find? (fun f => f.name = bodyField) with
      | some field =>
          match field.kind with
          | .stringK => (some "string", none)
          | .messageK t => (none, some t)
          | _ => (none, none)
      | none => (none, none)
  match scalarAndMessage with
  | (some s, _) => (some (SoR.scalar { type := s }), required)
  | (none, some t) =>
      if t = ".google.protobuf.Empty" ∨ t = ".google.protobuf.Struct" then
        (some (SoR.scalar { type := "object" }), required)
      else
        let (xref, required') := schemaReferenceForTypeName conf required t
        (some (SoR.ref xref), required')
  | (none, none) => (none, required)

/-- The path-analysis stage of `buildOperationV3` (lines 309-372):
body-selector coverage, simple `{field}` parameters, then the named
`{name=starred/*}` template.  Returns (covered parameter names,
rewritten path, simple path parameters, named path parameters). -/
def pathStage (conf : Configuration) (path bodyField : String)
    (inputMessage : MessageDesc) :
    List String × String × List String × List String :=
  let coveredParameters : List String := if bodyField ≠ "" then [bodyField] else []
  let allMatches := findSimpleParams path
  let (coveredParameters, path, pathParameters) :=
    simpleParamsLoop conf inputMessage allMatches (coveredParameters, path, [])
  match findNamed path with
  | some (whole, g1, g2) =>
      let parts := strSplitOn g2 '/' 
      let (parts', namedPathParameters) := namedPartsLoop conf inputMessage parts
      let newPath := String.intercalate "/" parts'
      (coveredParameters ++ [g1], replaceFirst path whole newPath,
       pathParameters, namedPathParameters)
  | none => (coveredParameters, path, pathParameters, [])

/-- `buildOperationV3` (openapi-v3.go lines 297-521).  The unused `file`
parameter of the Go signature is dropped.  Returns the operation, the
rewritten path, and the updated required-schema list. -/
def buildOperationV3 (conf : Configuration) (required : List String)
    (summary operationID tagName description path bodyField : String)
    (inputMessage outputMessage : MessageDesc) :
    Operation × String × List String :=
  let (coveredParameters, path, pathParameters, namedPathParameters) :=
    pathStage conf path bodyField inputMessage
  let parameters := pathParameters.map mkPathParameter
  let parameters := parameters ++ namedPathParameters.map mkNamedPathParameter
  let (queryParameters, required) :=
    if bodyField ≠ "*" then
      queryParamsLoop conf coveredParameters inputMessage.fields ([], required)
    else ([], required)
  let parameters := parameters ++ queryParameters
  let (responseContent, required) := responseContentForMessage conf required outputMessage
  let responses := [("200", { description := "OK", content := responseContent : Response })]
  let op : Operation :=
    { tags := [tagName], description := description, summary := summary,
      operationId := operationID, parameters := parameters, responses := responses }
  if bodyField ≠ "" then
    let (requestSchema, required) := requestBodySchema conf required bodyField inputMessage
    let body : RequestBody :=
      { required := true,
        content := [{ name := "application/json", schema := requestSchema }] }
    ({ op with requestBody := some body }, path, required)
  else
    (op, path, required)

/-- Sets the operation of one verb slot (openapi-v3.go lines 537-549;
an unsupported verb name changes nothing). -/
def setPathItemOperation (item : PathItem) (methodName : String) (op : Operation) : PathItem :=
  if methodName = "GET" then { item with get := some op }
  else if methodName = "POST" then { item with post := some op }
  else if methodName = "PUT" then { item with put := some op }
  else if methodName = "DELETE" then { item with delete := some op }
  else if methodName = "PATCH" then { item with patch := some op }
  else item

/-- Replace the first named path item with the given name. -/
def updateFirstPathItem (paths : List (String × PathItem)) (path : String)
    (f : PathItem → PathItem) : List (String × PathItem) :=
  match paths with
  | [] => []
  | (n, item) :: rest =>
      if n = path then (n, f item) :: rest
      else (n, item) :: updateFirstPathItem rest path f

/-- `addOperationV3` (openapi-v3.go lines 523-550): select the first
path item with the given name (appending a fresh one when absent) and
set the verb slot — a duplicate (path, verb) silently overwrites. -/
def addOperationV3 (d : Document) (op : Operation) (path methodName : String) : Document :=
  if d.paths.any (fun p => p.1 = path) then
    { d with paths := updateFirstPathItem d.paths path (fun item => setPathItemOperation item methodName op) }
  else
    { d with paths := d.paths ++ [(path, setPathItemOperation {} methodName op)] }

/- ### Path/operation derivation per file (openapi-v3.go lines 180-235). -/

/-- The HTTP-pattern switch of `addPathsToDocumentV3` (lines 201-221):
yields the path and verb; `custom` and unrecognized patterns yield a
sentinel path and an empty verb, so the method is never registered. -/
def methodPathInfo : HttpPattern → String × String
  | .get p => (p, "GET")
  | .post p => (p, "POST")
  | .put p => (p, "PUT")
  | .delete p => (p, "DELETE")
  | .patch p => (p, "PATCH")
  | .custom => ("custom-unsupported", "")
  | .unknown => ("unknown-unsupported", "")

/-- The per-method body of `addPathsToDocumentV3` (lines 185-228):
methods without an HTTP binding, and bindings whose verb resolved to the
empty string, leave the state untouched. -/
def addMethodToDocumentV3 (conf : Configuration) (required : List String)
    (d : Document) (serviceGoName : String) (m : MethodDesc) :
    List String × Document :=
  let comment := filterCommentString m.comment false
  let summary := filterCommentStringForSummary m.comment m.goName
  let operationID := serviceGoName ++ "_" ++ m.goName
  match m.httpRule with
  | none => (required, d)
  | some rule =>
      let (path, methodName) := methodPathInfo rule.pattern
      if methodName ≠ "" then
        let (op, path2, required') :=
          buildOperationV3 conf required summary operationID serviceGoName comment
            path rule.body m.input m.output
        (required', addOperationV3 d op path2 methodName)
      else (required, d)

/-- The per-service body of `addPathsToDocumentV3` (lines 182-233):
process every method, then append a tag when at least one method carried
an HTTP-binding annotation (`annotationsCount > 0` counts annotations,
including custom/unknown patterns). -/
def addServiceToDocumentV3 (conf : Configuration) (required : List String)
    (d : Document) (service : ServiceDesc) : List String × Document :=
  let (required', d') :=
    service.methods.foldl
      (fun acc m => addMethodToDocumentV3 conf acc.1 acc.2 service.goName m)
      (required, d)
  let annotationsCount := (service.methods.filter (fun m => m.httpRule.isSome)).length
  if annotationsCount > 0 then
    let comment := filterCommentString service.comment false
    (required', { d' with tags := d'.tags ++ [{ name := service.goName, description := comment }] })
  else (required', d')

/-- `addPathsToDocumentV3` (openapi-v3.go lines 180-235). -/
def addPathsToDocumentV3 (conf : Configuration) (required : List String)
    (d : Document) (file : FileDesc) : List String × Document :=
  file.services.foldl (fun acc s => addServiceToDocumentV3 conf acc.1 acc.2 s) (required, d)

/- ### Component-schema generation (openapi-v3.go lines 855-967). -/

/-- The resource-pattern regexp `{[a-z_A-Z0-9]*}` replace-all of lines
922-923: every brace-delimited run of word characters becomes the fixed
base32 character class `[a-z2-7]{26}`.  Fuel-indexed scanner. -/
def resourceRegexAux : Nat → List Char → List Char
  | 0, l => l
  | _ + 1, [] => []
  | fuel + 1, c :: rest =>
      if c = lbrace then
        let run := rest.takeWhile (fun ch => ch.isAlpha ∨ ch.isDigit ∨ ch = '_')
        match rest.drop run.length with
        | c2 :: tail =>
            if c2 = rbrace then "[a-z2-7]\x7b26\x7d".toList ++ resourceRegexAux fuel tail
            else c :: resourceRegexAux fuel rest
        | [] => c :: resourceRegexAux fuel rest
      else c :: resourceRegexAux fuel rest

/-- The anchored name-field pattern of lines 921-924. -/
def resourceNamePattern (pattern : String) : String :=
  "^" ++ String.mk (resourceRegexAux pattern.toList.length pattern.toList) ++ "$"

/-- Per-field processing inside `addSchemasToDocumentV3` (lines
890-950): behavior flags, the §4.2 schema (skipping nil), the
resource-pattern regex on a field literally named `name`, description
and read/write-only flags on inline schemas, optional validation, and
the property append.  Returns (properties, required property names,
required-schema list). -/
def messageFieldsLoop (conf : Configuration) (pattern : String) :
    List FieldDesc → List (String × SoR) × List String × List String →
    List (String × SoR) × List String × List String
  | [], acc => acc
  | field :: rest, (props, requiredProps, required) =>
      let outputOnly := field.behaviors.contains FieldBehavior.outputOnly
      let inputOnly := field.behaviors.contains FieldBehavior.inputOnly
      let requiredFlag := field.behaviors.contains FieldBehavior.required
      let (fieldSchema, required') := schemaOrReferenceForField conf required field
      match fieldSchema with
      | none => messageFieldsLoop conf pattern rest (props, requiredProps, required')
      | some fs =>
          let (fs, requiredProps) :=
            match fs with
            | SoR.schema core items addProps sprops =>
                let core :=
                  if field.name = "name" ∧ pattern ≠ "" then
                    { core with pattern := resourceNamePattern pattern }
                  else core
                let core := { core with description := filterCommentString field.comment true }
                let core := if outputOnly then { core with readOnly := true } else core
                let core := if inputOnly then { core with writeOnly := true } else core
                (SoR.schema core items addProps sprops,
                 if requiredFlag then requiredProps ++ [formatFieldName conf field] else requiredProps)
            | SoR.ref x => (SoR.ref x, requiredProps)
          let fs := if conf.validate then addValidationRules fs field else fs
          messageFieldsLoop conf pattern rest
            (props ++ [(formatFieldName conf field, fs)], requiredProps, required')

/-- `addSchemasToDocumentV3` (openapi-v3.go lines 855-967): recurse into
nested messages first, then generate a component schema for each message
whose full type name is required and not yet generated. -/
def addSchemasToDocumentV3 (conf : Configuration) (st : GenState) :
    MessageList → GenState
  | .nil => st
  | .cons (MessageDesc.mk nm par pkg cmt res flds nested) rest =>
      let m := MessageDesc.mk nm par pkg cmt res flds nested
      let st := addSchemasToDocumentV3 conf st nested
      let pattern :=
        match res with
        | some (p :: _) => p
        | _ => ""
      let typeName := fullMessageTypeName m
      if ¬ contains st.required typeName ∨ contains st.generated typeName then
        addSchemasToDocumentV3 conf st rest
      else
        let generated' := st.generated ++ [typeName]
        let messageDescription := filterCommentString cmt true
        let (props, requiredProps, required') :=
          messageFieldsLoop conf pattern flds ([], [], st.required)
        let entry : String × SoR :=
          (formatMessageName conf m,
           SoR.schema { description := messageDescription, required := requiredProps }
             .nil .none (PropList.ofList props))
        addSchemasToDocumentV3 conf
          { required := required', generated := generated',
            doc := { st.doc with schemas := st.doc.schemas ++ [entry] } }
          rest

/-- The depth-first message traversal order of `addSchemasToDocumentV3`
(nested before self, then siblings). -/
def deepMessages : MessageList → List MessageDesc
  | .nil => []
  | .cons (MessageDesc.mk nm par pkg cmt res flds nested) rest =>
      deepMessages nested
        ++ MessageDesc.mk nm par pkg cmt res flds nested :: deepMessages rest

/-- All messages of all files, in traversal order. -/
def allMessages (files : List FileDesc) : List MessageDesc :=
  (files.map (fun f => deepMessages f.messages)).flatten

/-- One pass of the schema-closure loop of `buildDocumentV3` (lines
118-124): record the current length, scan every file, then drop that
many names from the front of `requiredSchemas`. -/
def schemaPass (conf : Configuration) (files : List FileDesc) (st : GenState) : GenState :=
  let count := st.required.length
  let st' := files.foldl (fun s f => addSchemasToDocumentV3 conf s f.messages) st
  { st' with required := st'.required.drop count }

/-- The `for len(g.requiredSchemas) > 0` loop of `buildDocumentV3`,
fuel-indexed; `buildDocumentV3` supplies fuel that is proven sufficient
(theorem on termination below), so the fuelled loop coincides with the
Go while-loop. -/
def schemaLoop (conf : Configuration) (files : List FileDesc) :
    Nat → GenState → GenState
  | 0, st => st
  | fuel + 1, st =>
      if st.required.length > 0 then schemaLoop conf files fuel (schemaPass conf files st)
      else st

/-- Lexicographic character-list comparison: the model of Go's `<` on
strings (byte order on UTF-8 agrees with character order). -/
def charListLe : List Char → List Char → Bool
  | [], _ => true
  | _ :: _, [] => false
  | a :: as, b :: bs => if a = b then charListLe as bs else decide (a < b)

/-- Go string `≤` (from the `sort.Slice` less functions `Name < Name`). -/
def strLeB (a b : String) : Bool := charListLe a.toList b.toList

/-- The final canonicalization of `buildDocumentV3` (lines 126-149):
tags sorted by name, paths by URL template, schemas by name, in
lexicographic byte order.  Go's `sort.Slice` guarantees a `≤`-sorted
permutation (it is not stable); the model uses a stable insertion sort,
which produces that same unique result whenever the sort keys are
pairwise distinct. -/
def canonicalizeDocument (d : Document) : Document :=
  { d with
    tags := List.insertionSort (fun i j => strLeB i.name j.name = true) d.tags
    paths := List.insertionSort (fun i j => strLeB i.1 j.1 = true) d.paths
    schemas := List.insertionSort (fun i j => strLeB i.1 j.1 = true) d.schemas }

/-- `buildDocumentV3` (openapi-v3.go lines 82-151), returning the final
generator state (document plus accumulators). -/
def buildDocumentV3 (conf : Configuration) (files : List FileDesc) : GenState :=
  let d : Document :=
    { openapi := "3.0.3",
      info := { version := conf.version, title := conf.title, description := conf.description },
      tags := [], paths := [], schemas := [] }
  let (required, d) :=
    files.foldl
      (fun acc f => if f.generate then addPathsToDocumentV3 conf acc.1 acc.2 f else acc)
      ([], d)
  let d :=
    if d.tags.length = 1 then
      let t := d.tags.headI
      let title := if d.info.title = "" ∧ t.name ≠ "" then t.name ++ " API" else d.info.title
      let description := if d.info.description = "" then t.description else d.info.description
      { d with info := { d.info with title := title, description := description },
               tags := [{ t with description := "" }] }
    else d
  let st := schemaLoop conf files ((allMessages files).length + 2)
    { required := required, generated := [], doc := d }
  { st with doc := canonicalizeDocument st.doc }

/- ### `$ref` collection over the produced document (used to state the
closure invariant of §3/§4.3). -/

mutual
/-- All `$ref` strings appearing inside a schema-or-reference node. -/
def refsOfSoR : SoR → List String
  | .ref x => [x]
  | .schema _ items addProps props =>
      refsOfSoRList items ++ refsOfOptSoR addProps ++ refsOfProps props

def refsOfOptSoR : OptSoR → List String
  | .none => []
  | .some s => refsOfSoR s

def refsOfSoRList : SoRList → List String
  | .nil => []
  | .cons s rest => refsOfSoR s ++ refsOfSoRList rest

def refsOfProps : PropList → List String
  | .nil => []
  | .cons _ s rest => refsOfSoR s ++ refsOfProps rest
end

def refsOfOptionSoR : Option SoR → List String
  | none => []
  | some s => refsOfSoR s

def refsOfContent (content : List NamedMediaType) : List String :=
  (content.map (fun mt => refsOfOptionSoR mt.schema)).flatten

def refsOfOperation (op : Operation) : List String :=
  (op.parameters.map (fun p => refsOfOptionSoR p.schema)).flatten ++
  (match op.requestBody with
   | none => []
   | some b => refsOfContent b.content) ++
  (op.responses.map (fun r => refsOfContent r.2.content)).flatten

def refsOfOptionOperation : Option Operation → List String
  | none => []
  | some op => refsOfOperation op

def refsOfPathItem (item : PathItem) : List String :=
  refsOfOptionOperation item.get ++ refsOfOptionOperation item.post ++
  refsOfOptionOperation item.put ++ refsOfOptionOperation item.delete ++
  refsOfOptionOperation item.patch

/-- Every `$ref` string appearing anywhere in the document. -/
def docRefs (d : Document) : List String :=
  (d.paths.map (fun p => refsOfPathItem p.2)).flatten ++
  (d.schemas.map (fun s => refsOfSoR s.2)).flatten

/-- The names keying `components.schemas`. -/
def schemaKeys (d : Document) : List String :=
  d.schemas.map Prod.fst

/- ### Helper lemmas on the character-level string operations. -/

theorem strToUpper_toList (s : String) :
    (strToUpper s).toList = s.toList.map Char.toUpper := rfl

theorem strToLower_mk (l : List Char) :
    strToLower (String.mk l) = String.mk (l.map Char.toLower) := rfl

theorem toList_mk (l : List Char) : (String.mk l).toList = l := rfl

theorem mk_toList (s : String) : String.mk s.toList = s := rfl

theorem toList_append (a b : String) : (a ++ b).toList = a.toList ++ b.toList :=
  String.data_append a b

theorem toList_take (s : String) (n : Nat) : (s.take n).toList = s.toList.take n :=
  String.data_take s n

theorem toList_drop (s : String) (n : Nat) : (s.drop n).toList = s.toList.drop n :=
  String.data_drop s n

theorem string_length_eq (s : String) : s.length = s.toList.length := rfl

theorem string_eq_iff_toList (a b : String) : a = b ↔ a.toList = b.toList :=
  ⟨fun h => by rw [h], fun h => String.ext h⟩

/-- `splitOnChar` of a separator-free list is that single part. -/
theorem splitOnChar_not_mem (sep : Char) (l : List Char) (h : sep ∉ l) :
    splitOnChar sep l = [l] := by
  induction l with
  | nil => rfl
  | cons c rest ih =>
      have hc : c ≠ sep := fun hc => h (hc ▸ List.mem_cons_self c rest)
      have hr : sep ∉ rest := fun hr => h (List.mem_cons_of_mem c hr)
      simp [splitOnChar, hc, ih hr]

/-- A split has one more part than there are separators. -/
theorem splitOnChar_length (sep : Char) (l : List Char) :
    (splitOnChar sep l).length = l.count sep + 1 := by
  induction l with
  | nil => simp [splitOnChar]
  | cons c rest ih =>
      simp only [splitOnChar]
      by_cases hc : c = sep
      · simp [hc, List.count_cons, ih]
      · rw [if_neg hc]
        rcases hx : splitOnChar sep rest with _ | ⟨p, ps⟩
        · rw [hx] at ih; simp at ih
        · rw [hx] at ih
          simp only [List.length_cons] at ih ⊢
          simp [List.count_cons, hc, ih]

/-- The last part of a split after an explicit separator. -/
theorem splitOnChar_getLast? (sep : Char) (pre l2 : List Char) (h : sep ∉ l2) :
    (splitOnChar sep (pre ++ sep :: l2)).getLast? = some l2 := by
  induction pre with
  | nil =>
      simp [splitOnChar, splitOnChar_not_mem sep l2 h]
  | cons c rest ih =>
      have hlen : 2 ≤ (splitOnChar sep (rest ++ sep :: l2)).length := by
        rw [splitOnChar_length]
        have : sep ∈ rest ++ sep :: l2 := List.mem_append_right _ (List.mem_cons_self _ _)
        have := List.count_pos_iff.mpr this
        omega
      simp only [List.cons_append, splitOnChar]
      by_cases hc : c = sep
      · rw [if_pos hc]
        rcases hx : splitOnChar sep (rest ++ sep :: l2) with _ | ⟨p, ps⟩
        · rw [hx] at hlen; simp at hlen
        · rw [hx] at ih
          rw [List.getLast?_cons_cons]
          exact ih
      · rw [if_neg hc]
        rcases hx : splitOnChar sep (rest ++ sep :: l2) with _ | ⟨p, ps⟩
        · rw [hx] at hlen; simp at hlen
        · rw [hx] at ih
          cases ps with
          | nil => rw [hx] at hlen; simp at hlen
          | cons q qs =>
              rw [List.getLast?_cons_cons] at ih ⊢
              exact ih

theorem empty_append_str (s : String) : "" ++ s = s := by
  rw [string_eq_iff_toList, toList_append]
  rfl

/-- The last dot-component of a full type name is the (parent-prefixed)
message name, provided that name contains no dot. -/
theorem fullMessageTypeName_lastPart (m : MessageDesc)
    (h : '.' ∉ (getMessageName m).toList) :
    (strSplitOn (fullMessageTypeName m) '.').getLastD "" = getMessageName m := by
  have hsplit : (fullMessageTypeName m).toList
      = ('.' :: m.packageName.toList) ++ '.' :: (getMessageName m).toList := by
    show ("." ++ m.packageName ++ "." ++ getMessageName m).toList = _
    simp [toList_append]
  rw [strSplitOn, hsplit, List.getLastD_eq_getLast?, List.getLast?_map,
      splitOnChar_getLast? '.' _ _ h]
  rfl

/-- `schemaReferenceForTypeName` produces exactly the prefix plus the
formatted last dot-component. -/
theorem schemaReferenceForTypeName_fst (conf : Configuration)
    (required : List String) (typeName : String) :
    (schemaReferenceForTypeName conf required typeName).1
      = "#/components/schemas/"
        ++ formatMessageRef conf ((strSplitOn typeName '.').getLastD "") := rfl

/-- C9 (amended): in the default naming mode `formatMessageRef`
uppercases the first character of a name of length at least two but maps
a single-character name to its lowercase form, while `formatMessageName`
uppercases the first character of every nonempty name; consequently, for
a message whose single-character name is a cased letter (lowercase and
uppercase forms differ — the original claim's "any length-one name" is
amended by the caseless counterexample `_`), the `$ref` target produced
by `schemaReferenceForTypeName` differs from the `components.schemas`
key produced by `formatMessageName`. -/
theorem c9_naming_divergence (conf : Configuration) (h : conf.naming ≠ "proto") :
    (∀ (name : String) (c : Char) (cs : List Char),
        name.toList = c :: cs → cs ≠ [] →
        formatMessageRef conf name = String.mk (c.toUpper :: cs)) ∧
    (∀ c : Char, formatMessageRef conf (String.mk [c]) = String.mk [c.toLower]) ∧
    (∀ (m : MessageDesc) (c : Char) (cs : List Char),
        (getMessageName m).toList = c :: cs →
        formatMessageName conf m = String.mk (c.toUpper :: cs)) ∧
    (∀ (m : MessageDesc) (c : Char) (required : List String),
        m.name = String.mk [c] → m.parentName = none →
        c.toLower ≠ c.toUpper →
        (schemaReferenceForTypeName conf required (fullMessageTypeName m)).1
          ≠ "#/components/schemas/" ++ formatMessageName conf m) := by
  have hlen : ∀ (name : String), name.length = name.toList.length := fun _ => rfl
  have hrefLong : ∀ (name : String) (c : Char) (cs : List Char),
      name.toList = c :: cs → cs ≠ [] →
      formatMessageRef conf name = String.mk (c.toUpper :: cs) := by
    intro name c cs hl hcs
    have h2 : name.length > 1 := by
      rw [hlen, hl]
      cases cs with
      | nil => exact absurd rfl hcs
      | cons a as => simp
    rw [formatMessageRef, if_neg h, if_pos h2, string_eq_iff_toList,
        toList_append, strToUpper_toList, toList_take, toList_drop, hl]
    rfl
  have hrefOne : ∀ c : Char,
      formatMessageRef conf (String.mk [c]) = String.mk [c.toLower] := by
    intro c
    have h1 : ¬ (String.mk [c]).length > 1 := by rw [hlen]; simp [toList_mk]
    have h2 : (String.mk [c]).length = 1 := by rw [hlen]; simp [toList_mk]
    rw [formatMessageRef, if_neg h, if_neg h1, if_pos h2]
    rfl
  have hname : ∀ (m : MessageDesc) (c : Char) (cs : List Char),
      (getMessageName m).toList = c :: cs →
      formatMessageName conf m = String.mk (c.toUpper :: cs) := by
    intro m c cs hl
    have h0 : (getMessageName m).length > 0 := by rw [hlen, hl]; simp
    rw [formatMessageName, if_neg h, if_pos h0, string_eq_iff_toList,
        toList_append, strToUpper_toList, toList_take, toList_drop, hl]
    rfl
  refine ⟨hrefLong, hrefOne, hname, ?_⟩
  intro m c required hmn hpar hcase
  have hgm : getMessageName m = String.mk [c] := by
    cases m with
    | mk nm par pkg cmt res flds nested =>
        simp only [MessageDesc.name] at hmn
        simp only [MessageDesc.parentName] at hpar
        subst hpar hmn
        simp only [getMessageName]
        exact empty_append_str _
  have hcdot : c ≠ '.' := by
    intro hc
    subst hc
    exact hcase (by decide)
  have hnodot : '.' ∉ (getMessageName m).toList := by
    rw [hgm, toList_mk]
    simp [Ne.symm hcdot]
  rw [schemaReferenceForTypeName_fst, fullMessageTypeName_lastPart m hnodot, hgm,
      hrefOne c, hname m c [] (by rw [hgm]; rfl)]
  intro heq
  rw [string_eq_iff_toList, toList_append, toList_append] at heq
  have := List.append_cancel_left heq
  rw [toList_mk, toList_mk] at this
  exact hcase (by injection this)

/-- C9 counterexample for the claim as stated: the message named `_`
has a length-one name, yet in the default naming mode its `$ref` target
and its `components.schemas` key coincide (underscore has no case), so
"the `$ref` target differs from the key for every length-one name" is
false. -/
theorem c9_counterexample :
    (MessageDesc.name (MessageDesc.mk "_" none "pkg" "" none [] .nil)).length = 1 ∧
    ({ naming := "" : Configuration }).naming ≠ "proto" ∧
    (schemaReferenceForTypeName { naming := "" } []
        (fullMessageTypeName (MessageDesc.mk "_" none "pkg" "" none [] .nil))).1
      = "#/components/schemas/"
        ++ formatMessageName { naming := "" } (MessageDesc.mk "_" none "pkg" "" none [] .nil) := by
  refine ⟨by decide, by decide, ?_⟩
  decide

/-- Witness instantiating `c9_naming_divergence` at a concrete cased
letter. -/
theorem c9_naming_divergence_witness :
    (schemaReferenceForTypeName { naming := "" : Configuration } []
        (fullMessageTypeName (MessageDesc.mk "a" none "pkg" "" none [] .nil))).1
      ≠ "#/components/schemas/"
        ++ formatMessageName { naming := "" } (MessageDesc.mk "a" none "pkg" "" none [] .nil) :=
  (c9_naming_divergence { naming := "" } (by decide)).2.2.2
    (MessageDesc.mk "a" none "pkg" "" none [] .nil) 'a' [] rfl rfl (by decide)

/-- C4 counterexample: on the claim's own example enum
`{UNSPECIFIED, APPROVED, PENDING}` the generated enum list keeps
`UNSPECIFIED` (both revisions filter by the literal suffix
`_UNSPECIFIED`, and the bare name `UNSPECIFIED` does not carry it), so
the claimed output `[APPROVED, PENDING]` is wrong. -/
theorem c4_enum_counterexample :
    enumKindSchema ["UNSPECIFIED", "APPROVED", "PENDING"]
      = SoR.scalar { type := "string", enum := ["UNSPECIFIED", "APPROVED", "PENDING"] } ∧
    EnumRev2.enumKindSchema ["UNSPECIFIED", "APPROVED", "PENDING"]
      = SoR.scalar { type := "string", format := "enum",
                     enum := ["UNSPECIFIED", "APPROVED", "PENDING"] } ∧
    (["UNSPECIFIED", "APPROVED", "PENDING"] : List String) ≠ ["APPROVED", "PENDING"] :=
  ⟨rfl, rfl, by decide⟩

/-- C4 (amended): for every non-map, non-repeated enum field the §4.2
schema is `{type: string, enum: L}` where `L` keeps the declaration
order (it is a sublist of the declared names) and contains exactly the
names that do not end in the literal suffix `_UNSPECIFIED` (so a bare
`UNSPECIFIED` is kept); the part_002 revision of `enumKindSchema`
additionally sets `format: "enum"` on the same list, while the part_003
revision wired into openapi-v3.go leaves `format` empty. -/
theorem c4_enum_schema (conf : Configuration) (required : List String)
    (f : FieldDesc) (names : List String)
    (hm : f.isMap = false) (hl : f.isList = false) (hk : f.kind = .enumK names) :
    ∃ L, schemaOrReferenceForField conf required f
          = (some (SoR.scalar { type := "string", enum := L }), required)
      ∧ List.Sublist L names
      ∧ (∀ n, n ∈ L ↔ n ∈ names ∧ ¬ strEndsWith n "_UNSPECIFIED")
      ∧ EnumRev2.enumKindSchema names
          = SoR.scalar { type := "string", format := "enum", enum := L } := by
  refine ⟨names.filter (fun n => ¬ strEndsWith n "_UNSPECIFIED"), ?_, ?_, ?_, rfl⟩
  · simp [schemaOrReferenceForField, hm, hl, hk, schemaOrReferenceForKind, enumKindSchema]
  · exact List.filter_sublist _
  · intro n
    simp [List.mem_filter]

/-- Witness instantiating `c4_enum_schema` on a concrete enum field. -/
theorem c4_enum_schema_witness :
    ∃ L, schemaOrReferenceForField { naming := "" } []
          { name := "st", jsonName := "st", kind := .enumK ["X_UNSPECIFIED", "OK"] }
          = (some (SoR.scalar { type := "string", enum := L }), [])
      ∧ List.Sublist L ["X_UNSPECIFIED", "OK"]
      ∧ (∀ n, n ∈ L ↔ n ∈ ["X_UNSPECIFIED", "OK"] ∧ ¬ strEndsWith n "_UNSPECIFIED")
      ∧ EnumRev2.enumKindSchema ["X_UNSPECIFIED", "OK"]
          = SoR.scalar { type := "string", format := "enum", enum := L } :=
  c4_enum_schema { naming := "" } []
    { name := "st", jsonName := "st", kind := .enumK ["X_UNSPECIFIED", "OK"] }
    ["X_UNSPECIFIED", "OK"] rfl rfl rfl

/-- C5: for an `int32` or `int64` field carrying a rule-set,
`addValidationRules` projects `gte` into `minimum` exactly when
`gte > 0` and `lte` into `maximum` exactly when `lte > 0`; zero and
negative bounds leave the schema fields untouched, and nothing else in
the schema changes. -/
theorem c5_validation_int_bounds (f : FieldDesc) (fr : FieldRules) (r : IntRules)
    (core : SchemaCore) (items : SoRList) (ap : OptSoR) (props : PropList)
    (hm : f.isMap = false) (hl : f.isList = false) (hr : f.rules = some fr) :
    (f.kind = .int32K → fr.getInt32 = some r →
        addValidationRules (.schema core items ap props) f
          = .schema
              { core with
                minimum := if r.gte > 0 then r.gte else core.minimum
                maximum := if r.lte > 0 then r.lte else core.maximum }
              items ap props) ∧
    (f.kind = .int64K → fr.getInt64 = some r →
        addValidationRules (.schema core items ap props) f
          = .schema
              { core with
                minimum := if r.gte > 0 then r.gte else core.minimum
                maximum := if r.lte > 0 then r.lte else core.maximum }
              items ap props) := by
  constructor <;>
    · intro hk hri
      simp only [addValidationRules, hr, hm, hl, Bool.false_eq_true, if_false,
        fieldRule, hk, hri]
      split <;> split <;> rfl

/-- Witness instantiating `c5_validation_int_bounds`: `gte = 1` and
`lte = 45` are projected, and at `gte = 0, lte = -3` nothing is. -/
theorem c5_validation_int_bounds_witness :
    addValidationRules
        (.schema { type := "integer", format := "int32" } .nil .none .nil)
        { name := "n", jsonName := "n",
          rules := some (FieldRules.mk none (some { gte := 1, lte := 45 }) none none none),
          kind := .int32K }
      = .schema
          { type := "integer", format := "int32",
            minimum := if (1 : Int) > 0 then 1 else 0
            maximum := if (45 : Int) > 0 then 45 else 0 }
          .nil .none .nil :=
  (c5_validation_int_bounds
    { name := "n", jsonName := "n",
      rules := some (FieldRules.mk none (some { gte := 1, lte := 45 }) none none none),
      kind := .int32K }
    (FieldRules.mk none (some { gte := 1, lte := 45 }) none none none)
    { gte := 1, lte := 45 }
    { type := "integer", format := "int32" } .nil .none .nil
    rfl rfl rfl).1 rfl rfl

/-- C7: a method whose HTTP binding carries a `Custom` or unrecognized
pattern is assigned the corresponding sentinel path and an empty verb,
and processing it registers nothing: the document (no PathItem, no
Operation) and the required-schema list are unchanged, with no error
(the processing function is total and returns normally). -/
theorem c7_custom_pattern_skipped (conf : Configuration) (required : List String)
    (d : Document) (serviceGoName : String) (m : MethodDesc) (rule : HttpRule)
    (hrule : m.httpRule = some rule)
    (hpat : rule.pattern = .custom ∨ rule.pattern = .unknown) :
    ((methodPathInfo rule.pattern).1 = "custom-unsupported" ∨
     (methodPathInfo rule.pattern).1 = "unknown-unsupported") ∧
    (methodPathInfo rule.pattern).2 = "" ∧
    addMethodToDocumentV3 conf required d serviceGoName m = (required, d) := by
  rcases hpat with hpat | hpat <;>
    · refine ⟨?_, ?_, ?_⟩
      · simp [methodPathInfo, hpat]
      · simp [methodPathInfo, hpat]
      · simp [addMethodToDocumentV3, hrule, methodPathInfo, hpat]

/-- Witness instantiating `c7_custom_pattern_skipped` on a concrete
custom-pattern method. -/
theorem c7_custom_pattern_skipped_witness :
    ((methodPathInfo HttpPattern.custom).1 = "custom-unsupported" ∨
     (methodPathInfo HttpPattern.custom).1 = "unknown-unsupported") ∧
    (methodPathInfo HttpPattern.custom).2 = "" ∧
    addMethodToDocumentV3 { naming := "" } [] {} "Svc"
        { goName := "C", input := MessageDesc.mk "M" none "p" "" none [] .nil,
          output := MessageDesc.mk "M" none "p" "" none [] .nil,
          httpRule := some { pattern := .custom } }
      = ([], {}) :=
  c7_custom_pattern_skipped { naming := "" } [] {} "Svc"
    { goName := "C", input := MessageDesc.mk "M" none "p" "" none [] .nil,
      output := MessageDesc.mk "M" none "p" "" none [] .nil,
      httpRule := some { pattern := .custom } }
    { pattern := .custom } rfl (Or.inl rfl)

/-- `addOperationV3` touches only the path table. -/
theorem addOperationV3_frame (d : Document) (op : Operation) (path methodName : String) :
    (addOperationV3 d op path methodName).tags = d.tags ∧
    (addOperationV3 d op path methodName).schemas = d.schemas ∧
    (addOperationV3 d op path methodName).info = d.info ∧
    (addOperationV3 d op path methodName).openapi = d.openapi := by
  unfold addOperationV3
  split <;> exact ⟨rfl, rfl, rfl, rfl⟩

/-- Processing one method never touches the tag list. -/
theorem addMethodToDocumentV3_tags (conf : Configuration) (required : List String)
    (d : Document) (sn : String) (m : MethodDesc) :
    (addMethodToDocumentV3 conf required d sn m).2.tags = d.tags := by
  unfold addMethodToDocumentV3
  rcases m.httpRule with _ | rule
  · rfl
  · simp only
    split
    · exact (addOperationV3_frame _ _ _ _).1
    · rfl

theorem methodsFold_tags (conf : Configuration) (sn : String) :
    ∀ (ms : List MethodDesc) (required : List String) (d : Document),
      ((ms.foldl (fun acc m => addMethodToDocumentV3 conf acc.1 acc.2 sn m)
          (required, d)).2).tags = d.tags := by
  intro ms
  induction ms with
  | nil => intro required d; rfl
  | cons m rest ih =>
      intro required d
      rcases hx : addMethodToDocumentV3 conf required d sn m with ⟨req', d'⟩
      have htags : d'.tags = d.tags := by
        have := addMethodToDocumentV3_tags conf required d sn m
        rw [hx] at this
        exact this
      simp only [List.foldl_cons, hx]
      rw [ih req' d', htags]

/-- Processing an all-custom method list changes nothing. -/
theorem methodsFold_custom_id (conf : Configuration) (sn : String) :
    ∀ (ms : List MethodDesc) (required : List String) (d : Document),
      (∀ m ∈ ms, ∀ r, m.httpRule = some r → r.pattern = .custom) →
      ms.foldl (fun acc m => addMethodToDocumentV3 conf acc.1 acc.2 sn m) (required, d)
        = (required, d) := by
  intro ms
  induction ms with
  | nil => intro required d _; rfl
  | cons m rest ih =>
      intro required d hall
      have hstep : addMethodToDocumentV3 conf required d sn m = (required, d) := by
        rcases hr : m.httpRule with _ | rule
        · simp [addMethodToDocumentV3, hr]
        · have : rule.pattern = .custom :=
            hall m (List.mem_cons_self _ _) rule hr
          simp [addMethodToDocumentV3, hr, methodPathInfo, this]
      simp only [List.foldl_cons, hstep]
      exact ih required d (fun m' hm' => hall m' (List.mem_cons_of_mem _ hm'))

/-- C10: a service contributes a tag exactly when at least one of its
methods carries an HTTP-binding annotation — counting methods with
`Custom` patterns — so a service all of whose annotated methods are
`Custom` still appends its tag while registering no operation and no
path (the document is otherwise unchanged). -/
theorem c10_tag_counts_custom (conf : Configuration) (required : List String)
    (d : Document) (svc : ServiceDesc) :
    ((addServiceToDocumentV3 conf required d svc).2.tags
       = d.tags ++
           (if svc.methods.any (fun m => m.httpRule.isSome)
            then [{ name := svc.goName,
                    description := filterCommentString svc.comment false }]
            else [])) ∧
    ((∀ m ∈ svc.methods, ∀ r, m.httpRule = some r → r.pattern = .custom) →
      addServiceToDocumentV3 conf required d svc
        = (required,
           if svc.methods.any (fun m => m.httpRule.isSome)
           then { d with tags := d.tags ++
                    [{ name := svc.goName,
                       description := filterCommentString svc.comment false }] }
           else d)) := by
  have hcount : (0 < (svc.methods.filter (fun m => m.httpRule.isSome)).length)
      ↔ svc.methods.any (fun m => m.httpRule.isSome) = true := by
    rw [List.length_pos, Ne, List.filter_eq_nil_iff]
    simp [List.any_eq_true, Option.isSome_iff_ne_none]
  constructor
  · simp only [addServiceToDocumentV3]
    rcases hx : svc.methods.foldl
        (fun acc m => addMethodToDocumentV3 conf acc.1 acc.2 svc.goName m)
        (required, d) with ⟨req', d'⟩
    have htags : d'.tags = d.tags := by
      have := methodsFold_tags conf svc.goName svc.methods required d
      rw [hx] at this
      exact this
    by_cases hany : svc.methods.any (fun m => m.httpRule.isSome) = true
    · simp only [hany, if_true, gt_iff_lt, if_pos (hcount.mpr hany), htags]
    · have hneg : ¬ 0 < (svc.methods.filter (fun m => m.httpRule.isSome)).length := by
        intro hpos; exact hany (hcount.mp hpos)
      simp only [gt_iff_lt, if_neg hneg, htags]
      simp [hany]
  · intro hall
    simp only [addServiceToDocumentV3]
    rw [methodsFold_custom_id conf svc.goName svc.methods required d hall]
    by_cases hany : svc.methods.any (fun m => m.httpRule.isSome) = true
    · simp only [hany, if_true, gt_iff_lt, if_pos (hcount.mpr hany)]
    · have hneg : ¬ 0 < (svc.methods.filter (fun m => m.httpRule.isSome)).length := by
        intro hpos; exact hany (hcount.mp hpos)
      simp only [gt_iff_lt, if_neg hneg, hany]
      simp

/-- Witness instantiating `c10_tag_counts_custom` on a one-method
all-custom service: the tag appears, the rest of the document does
not change. -/
theorem c10_tag_counts_custom_witness :
    (addServiceToDocumentV3 { naming := "" } [] {}
        { goName := "Svc", comment := "",
          methods := [{ goName := "C",
                        input := MessageDesc.mk "M" none "p" "" none [] .nil,
                        output := MessageDesc.mk "M" none "p" "" none [] .nil,
                        httpRule := some { pattern := .custom } }] }).2.tags
      = [{ name := "Svc", description := "" }] ∧
    (addServiceToDocumentV3 { naming := "" } [] {}
        { goName := "Svc", comment := "",
          methods := [{ goName := "C",
                        input := MessageDesc.mk "M" none "p" "" none [] .nil,
                        output := MessageDesc.mk "M" none "p" "" none [] .nil,
                        httpRule := some { pattern := .custom } }] }).2.paths
      = [] := by
  have h := c10_tag_counts_custom { naming := "" } [] {}
    { goName := "Svc", comment := "",
      methods := [{ goName := "C",
                    input := MessageDesc.mk "M" none "p" "" none [] .nil,
                    output := MessageDesc.mk "M" none "p" "" none [] .nil,
                    httpRule := some { pattern := .custom } }] }
  have h2 := h.2 (by
    intro m hm r hr
    simp at hm
    subst hm
    simp at hr
    rw [← hr])
  constructor
  · rw [h2]; rfl
  · rw [h2]; rfl

/-- Reading one verb slot of a path item. -/
def getPathItemOperation (item : PathItem) (methodName : String) : Option Operation :=
  if methodName = "GET" then item.get
  else if methodName = "POST" then item.post
  else if methodName = "PUT" then item.put
  else if methodName = "DELETE" then item.delete
  else if methodName = "PATCH" then item.patch
  else none

/-- The operation bound to a (path, verb) pair of the document (the
first path item with that name, as `addOperationV3` selects it). -/
def getOperation (d : Document) (path methodName : String) : Option Operation :=
  match d.paths.find? (fun p => p.1 = path) with
  | some p => getPathItemOperation p.2 methodName
  | none => none

theorem getSet_same (item : PathItem) (mn : String) (op : Operation)
    (hmn : mn ∈ ["GET", "POST", "PUT", "DELETE", "PATCH"]) :
    getPathItemOperation (setPathItemOperation item mn op) mn = some op := by
  simp only [List.mem_cons, List.mem_singleton, List.not_mem_nil, or_false] at hmn
  rcases hmn with h | h | h | h | h <;> subst h <;> rfl

theorem set_get (item : PathItem) (mn : String) (op : Operation) :
    (setPathItemOperation item mn op).get
      = if mn = "GET" then some op else item.get := by
  unfold setPathItemOperation
  split_ifs <;> simp_all

theorem set_post (item : PathItem) (mn : String) (op : Operation) :
    (setPathItemOperation item mn op).post
      = if mn = "POST" then some op else item.post := by
  unfold setPathItemOperation
  split_ifs <;> simp_all

theorem set_put (item : PathItem) (mn : String) (op : Operation) :
    (setPathItemOperation item mn op).put
      = if mn = "PUT" then some op else item.put := by
  unfold setPathItemOperation
  split_ifs <;> simp_all

theorem set_delete (item : PathItem) (mn : String) (op : Operation) :
    (setPathItemOperation item mn op).delete
      = if mn = "DELETE" then some op else item.delete := by
  unfold setPathItemOperation
  split_ifs <;> simp_all

theorem set_patch (item : PathItem) (mn : String) (op : Operation) :
    (setPathItemOperation item mn op).patch
      = if mn = "PATCH" then some op else item.patch := by
  unfold setPathItemOperation
  split_ifs <;> simp_all

theorem getSet_other (item : PathItem) (mn mn' : String) (op : Operation)
    (hne : mn' ≠ mn) :
    getPathItemOperation (setPathItemOperation item mn op) mn'
      = getPathItemOperation item mn' := by
  unfold getPathItemOperation
  split_ifs with h1 h2 h3 h4 h5
  · rw [set_get, if_neg (h1 ▸ Ne.symm hne)]
  · rw [set_post, if_neg (h2 ▸ Ne.symm hne)]
  · rw [set_put, if_neg (h3 ▸ Ne.symm hne)]
  · rw [set_delete, if_neg (h4 ▸ Ne.symm hne)]
  · rw [set_patch, if_neg (h5 ▸ Ne.symm hne)]
  · rfl

theorem getPathItemOperation_empty (mn : String) :
    getPathItemOperation {} mn = none := by
  unfold getPathItemOperation
  split_ifs <;> rfl

theorem updateFirst_map_fst (path : String) (f : PathItem → PathItem) :
    ∀ l : List (String × PathItem),
      (updateFirstPathItem l path f).map Prod.fst = l.map Prod.fst := by
  intro l
  induction l with
  | nil => rfl
  | cons hd rest ih =>
      rcases hd with ⟨n, item⟩
      unfold updateFirstPathItem
      split
      · simp
      · simpa using ih

theorem find?_updateFirst_self (path : String) (f : PathItem → PathItem) :
    ∀ l : List (String × PathItem),
      (updateFirstPathItem l path f).find? (fun p => p.1 = path)
        = (l.find? (fun p => p.1 = path)).map (fun p => (p.1, f p.2)) := by
  intro l
  induction l with
  | nil => rfl
  | cons hd rest ih =>
      rcases hd with ⟨n, item⟩
      unfold updateFirstPathItem
      by_cases hn : n = path
      · simp [hn, List.find?_cons]
      · simp only [if_neg hn, List.find?_cons]
        have : (decide (n = path)) = false := by simp [hn]
        simp [this, ih]

theorem find?_updateFirst_other (path path' : String) (f : PathItem → PathItem)
    (hne : path' ≠ path) :
    ∀ l : List (String × PathItem),
      (updateFirstPathItem l path f).find? (fun p => p.1 = path')
        = l.find? (fun p => p.1 = path') := by
  intro l
  induction l with
  | nil => rfl
  | cons hd rest ih =>
      rcases hd with ⟨n, item⟩
      unfold updateFirstPathItem
      by_cases hn : n = path
      · subst hn
        have : (decide (n = path')) = false := by simp [Ne.symm hne]
        simp [List.find?_cons, this]
      · simp only [if_neg hn, List.find?_cons]
        by_cases hn' : n = path'
        · simp [hn']
        · have : (decide (n = path')) = false := by simp [hn']
          simp [this, ih]

theorem find?_append_of_none {α} (p : α → Bool) (l1 l2 : List α)
    (h : l1.find? p = none) : (l1 ++ l2).find? p = l2.find? p := by
  induction l1 with
  | nil => rfl
  | cons a rest ih =>
      cases hx : p a with
      | true =>
          rw [List.find?_cons_of_pos _ hx] at h
          simp at h
      | false =>
          rw [List.find?_cons_of_neg _ (by simp [hx])] at h
          rw [List.cons_append, List.find?_cons_of_neg _ (by simp [hx])]
          exact ih h

theorem find?_append_single_neg {α} (p : α → Bool) (l : List α) (x : α)
    (hx : p x = false) : (l ++ [x]).find? p = l.find? p := by
  induction l with
  | nil => simp [List.find?_cons_of_neg _ (by simp [hx] : ¬ p x = true)]
  | cons a rest ih =>
      cases ha : p a with
      | true =>
          rw [List.cons_append, List.find?_cons_of_pos _ ha,
              List.find?_cons_of_pos _ ha]
      | false =>
          rw [List.cons_append, List.find?_cons_of_neg _ (by simp [ha]),
              List.find?_cons_of_neg _ (by simp [ha])]
          exact ih

/-- C3: `addOperationV3` binds exactly the requested (path, verb) slot:
the slot then holds the given operation; every other (path, verb) pair
is unchanged; path-name uniqueness is preserved (so each pair holds at
most one operation); and rebinding the same pair keeps only the
later-processed operation — last wins, no error. -/
theorem c3_addOperation_last_wins (d : Document) (op : Operation)
    (path mn : String) (hmn : mn ∈ ["GET", "POST", "PUT", "DELETE", "PATCH"]) :
    (getOperation (addOperationV3 d op path mn) path mn = some op) ∧
    (∀ path' mn', path' ≠ path ∨ mn' ≠ mn →
        getOperation (addOperationV3 d op path mn) path' mn'
          = getOperation d path' mn') ∧
    ((d.paths.map Prod.fst).Nodup →
        ((addOperationV3 d op path mn).paths.map Prod.fst).Nodup) ∧
    (∀ op1 : Operation,
        getOperation (addOperationV3 (addOperationV3 d op1 path mn) op path mn)
          path mn = some op) := by
  have hnone_of_nany : ∀ (d : Document),
      d.paths.any (fun p => p.1 = path) = false →
      d.paths.find? (fun p => p.1 = path) = none := by
    intro d hany
    rw [List.find?_eq_none]
    intro x hx hc
    have : d.paths.any (fun p => p.1 = path) = true :=
      List.any_eq_true.mpr ⟨x, hx, hc⟩
    rw [this] at hany
    exact absurd hany (by simp)
  have hmain : ∀ (d : Document),
      (getOperation (addOperationV3 d op path mn) path mn = some op) := by
    intro d
    unfold addOperationV3 getOperation
    cases hb : d.paths.any (fun p => p.1 = path) with
    | true =>
        rw [if_pos rfl]
        rw [find?_updateFirst_self]
        rcases hfind : d.paths.find? (fun p => p.1 = path) with _ | ⟨n, item⟩
        · rcases List.any_eq_true.mp hb with ⟨x, hx, hxp⟩
          rw [List.find?_eq_none] at hfind
          exact absurd hxp (by simpa using hfind x hx)
        · rw [hfind]
          exact getSet_same item mn op hmn
    | false =>
        rw [if_neg (by simp)]
        rw [find?_append_of_none _ _ _ (hnone_of_nany d hb),
            List.find?_cons_of_pos _ (by simp)]
        exact getSet_same _ mn op hmn
  refine ⟨hmain d, ?_, ?_, fun op1 => hmain (addOperationV3 d op1 path mn)⟩
  · intro path' mn' hne
    unfold addOperationV3 getOperation
    cases hb : d.paths.any (fun p => p.1 = path) with
    | true =>
        rw [if_pos rfl]
        by_cases hpp : path' = path
        · subst hpp
          rcases hne with hne | hne
          · exact absurd rfl hne
          · rw [find?_updateFirst_self]
            rcases hfind : d.paths.find? (fun p => p.1 = path') with _ | ⟨n, item⟩
            · rw [hfind]
              rfl
            · rw [hfind]
              exact getSet_other item mn mn' op hne
        · rw [find?_updateFirst_other _ _ _ hpp]
    | false =>
        rw [if_neg (by simp)]
        by_cases hpp : path' = path
        · subst hpp
          rcases hne with hne | hne
          · exact absurd rfl hne
          · rw [find?_append_of_none _ _ _ (hnone_of_nany d hb),
                hnone_of_nany d hb]
            rw [List.find?_cons_of_pos _ (by simp)]
            exact (getSet_other _ mn mn' op hne).trans (getPathItemOperation_empty mn')
        · rw [find?_append_single_neg _ _ _ (by simp; exact fun h => hpp h.symm)]
  · intro hnd
    unfold addOperationV3
    cases hb : d.paths.any (fun p => p.1 = path) with
    | true =>
        rw [if_pos rfl]
        rw [updateFirst_map_fst]
        exact hnd
    | false =>
        rw [if_neg (by simp)]
        have hnotin : path ∉ d.paths.map Prod.fst := by
          intro hmem
          rcases List.mem_map.mp hmem with ⟨x, hx, hxeq⟩
          have : d.paths.any (fun p => p.1 = path) = true :=
            List.any_eq_true.mpr ⟨x, hx, by simp [hxeq]⟩
          rw [this] at hb
          exact absurd hb (by simp)
        simp [List.nodup_append, hnd, hnotin]

/-- Witness instantiating `c3_addOperation_last_wins`: two POST
bindings of the same path keep only the second operation. -/
theorem c3_addOperation_last_wins_witness :
    getOperation
        (addOperationV3
          (addOperationV3 {} { operationId := "first" } "/v1/x" "POST")
          { operationId := "second" } "/v1/x" "POST")
        "/v1/x" "POST"
      = some { operationId := "second" } :=
  (c3_addOperation_last_wins
      (addOperationV3 {} { operationId := "first" } "/v1/x" "POST")
      { operationId := "second" } "/v1/x" "POST" (by decide)).1

/- ### C8: canonicalization sorting. -/

theorem charListLe_total : ∀ as bs, charListLe as bs = true ∨ charListLe bs as = true
  | [], _ => Or.inl rfl
  | _ :: _, [] => Or.inr rfl
  | a :: as, b :: bs => by
      by_cases hab : a = b
      · subst hab
        simpa [charListLe] using charListLe_total as bs
      · rcases lt_or_gt_of_ne hab with h | h
        · refine Or.inl ?_
          simp only [charListLe, if_neg hab]
          exact decide_eq_true h
        · refine Or.inr ?_
          simp only [charListLe, if_neg (Ne.symm hab)]
          exact decide_eq_true h

theorem charListLe_trans :
    ∀ as bs cs, charListLe as bs = true → charListLe bs cs = true → charListLe as cs = true
  | [], _, _, _, _ => rfl
  | _ :: _, [], _, h1, _ => by simp [charListLe] at h1
  | _ :: _, _ :: _, [], _, h2 => by simp [charListLe] at h2
  | a :: as, b :: bs, c :: cs, h1, h2 => by
      by_cases hab : a = b
      · subst hab
        simp only [charListLe, if_pos rfl] at h1
        by_cases hbc : a = c
        · subst hbc
          simp only [charListLe, if_pos rfl] at h2 ⊢
          exact charListLe_trans as bs cs h1 h2
        · simp only [charListLe, if_neg hbc] at h2 ⊢
          exact h2
      · simp only [charListLe, if_neg hab] at h1
        by_cases hbc : b = c
        · subst hbc
          simp only [charListLe, if_neg hab]
          exact h1
        · simp only [charListLe, if_neg hbc] at h2
          have hac : a < c := lt_trans (of_decide_eq_true h1) (of_decide_eq_true h2)
          simp only [charListLe, if_neg (ne_of_lt hac)]
          exact decide_eq_true hac

theorem charListLe_antisymm :
    ∀ as bs, charListLe as bs = true → charListLe bs as = true → as = bs
  | [], [], _, _ => rfl
  | [], _ :: _, _, h2 => by simp [charListLe] at h2
  | _ :: _, [], h1, _ => by simp [charListLe] at h1
  | a :: as, b :: bs, h1, h2 => by
      by_cases hab : a = b
      · subst hab
        simp only [charListLe, if_pos rfl] at h1 h2
        rw [charListLe_antisymm as bs h1 h2]
      · simp only [charListLe, if_neg hab, if_neg (Ne.symm hab)] at h1 h2
        exact absurd (of_decide_eq_true h2) (lt_asymm (of_decide_eq_true h1))

theorem strLeB_total (a b : String) : strLeB a b = true ∨ strLeB b a = true :=
  charListLe_total _ _

theorem strLeB_trans {a b c : String} (h1 : strLeB a b = true) (h2 : strLeB b c = true) :
    strLeB a c = true :=
  charListLe_trans _ _ _ h1 h2

theorem strLeB_antisymm {a b : String} (h1 : strLeB a b = true) (h2 : strLeB b a = true) :
    a = b :=
  (string_eq_iff_toList a b).mpr (charListLe_antisymm _ _ h1 h2)

/-- Insertion sort by a string key always yields a `≤`-sorted list. -/
theorem sorted_insertionSort_key {α : Type} (key : α → String) (l : List α) :
    List.Sorted (fun a b => strLeB (key a) (key b) = true)
      (List.insertionSort (fun a b => strLeB (key a) (key b) = true) l) := by
  haveI : IsTotal α (fun a b => strLeB (key a) (key b) = true) :=
    ⟨fun a b => strLeB_total _ _⟩
  haveI : IsTrans α (fun a b => strLeB (key a) (key b) = true) :=
    ⟨fun _ _ _ => strLeB_trans⟩
  exact List.sorted_insertionSort _ l

/-- Two `≤`-sorted permutations of each other with pairwise-distinct string
keys are equal: the sorted order is unique when keys do not repeat. -/
theorem sorted_perm_nodup_keys_eq {α : Type} (key : α → String) :
    ∀ (l₁ l₂ : List α), List.Perm l₁ l₂ →
      List.Sorted (fun a b => strLeB (key a) (key b) = true) l₁ →
      List.Sorted (fun a b => strLeB (key a) (key b) = true) l₂ →
      (l₁.map key).Nodup → l₁ = l₂
  | [], _, hp, _, _, _ => (List.Perm.eq_nil hp.symm).symm
  | a :: t₁, l₂, hp, hs₁, hs₂, hnd => by
      match l₂ with
      | [] => exact List.Perm.eq_nil hp
      | b :: t₂ =>
        have hnd' : (key a :: t₁.map key).Nodup := by simpa using hnd
        have hab : a = b := by
          rcases List.mem_cons.mp (hp.mem_iff.mp (List.mem_cons_self a t₁)) with h | haT
          · exact h
          rcases List.mem_cons.mp (hp.mem_iff.mpr (List.mem_cons_self b t₂)) with h | hbT
          · exact h.symm
          have h1 : strLeB (key a) (key b) = true := (List.sorted_cons.mp hs₁).1 b hbT
          have h2 : strLeB (key b) (key a) = true := (List.sorted_cons.mp hs₂).1 a haT
          have hk : key a = key b := strLeB_antisymm h1 h2
          exact absurd (by rw [hk]; exact List.mem_map_of_mem key hbT)
            (List.nodup_cons.mp hnd').1
        subst hab
        have ht := sorted_perm_nodup_keys_eq key t₁ t₂ hp.cons_inv hs₁.of_cons hs₂.of_cons
          (List.nodup_cons.mp hnd').2
        rw [ht]

def c8tag1 : Tag := { name := "S", description := "one" }

def c8tag2 : Tag := { name := "S", description := "two" }

def c8docA : Document := { tags := [c8tag1, c8tag2] }

def c8docB : Document := { tags := [c8tag2, c8tag1] }

def c8tagA : Tag := { name := "a" }

def c8tagB : Tag := { name := "b" }

def c8docC : Document := { tags := [c8tagB, c8tagA] }

def c8docD : Document := { tags := [c8tagA, c8tagB] }

/-- **C8 counterexample**: sorted output order is *not* independent of the
traversal order when two entries carry the same sort key.  The two documents
below hold the same two tags (both named `"S"`, differing in description) in
opposite orders; they are permutations of each other, yet canonicalization
returns them in their respective input orders, so the outputs differ.  (In
the Go source the comparison `tags[i].Name < tags[j].Name` used by the
unstable `sort.Slice` likewise cannot separate equal keys.) -/
theorem c8_counterexample :
    List.Perm c8docA.tags c8docB.tags ∧
    c8docA.paths = c8docB.paths ∧ c8docA.schemas = c8docB.schemas ∧
    c8docA.openapi = c8docB.openapi ∧ c8docA.info = c8docB.info ∧
    (canonicalizeDocument c8docA).tags ≠ (canonicalizeDocument c8docB).tags :=
  ⟨List.Perm.swap c8tag2 c8tag1 [], rfl, rfl, rfl, rfl, by decide⟩

/-- **C8** (amended): the final canonicalization pass sorts tags by name,
paths by URL template, and component schemas by key in lexicographic byte
order; the pass is idempotent, its three output lists are always `≤`-sorted,
and — provided the sort keys are pairwise distinct, which the original claim
omitted — the output is independent of the descriptor traversal order: any
two permutation-equivalent documents canonicalize to the same document. -/
theorem c8_canonicalize_sort :
    (∀ d, canonicalizeDocument (canonicalizeDocument d) = canonicalizeDocument d) ∧
    (∀ d,
        List.Sorted (fun i j : Tag => strLeB i.name j.name = true)
          (canonicalizeDocument d).tags ∧
        List.Sorted (fun i j : String × PathItem => strLeB i.1 j.1 = true)
          (canonicalizeDocument d).paths ∧
        List.Sorted (fun i j : String × SoR => strLeB i.1 j.1 = true)
          (canonicalizeDocument d).schemas) ∧
    (∀ d₁ d₂ : Document, d₁.openapi = d₂.openapi → d₁.info = d₂.info →
        List.Perm d₁.tags d₂.tags → List.Perm d₁.paths d₂.paths →
        List.Perm d₁.schemas d₂.schemas →
        (d₁.tags.map (fun t => t.name)).Nodup →
        (d₁.paths.map (fun p => p.1)).Nodup →
        (d₁.schemas.map (fun p => p.1)).Nodup →
        canonicalizeDocument d₁ = canonicalizeDocument d₂) := by
  refine ⟨?_, ?_, ?_⟩
  · intro d
    simp only [canonicalizeDocument]
    rw [(sorted_insertionSort_key (fun t : Tag => t.name) d.tags).insertionSort_eq,
        (sorted_insertionSort_key (fun p : String × PathItem => p.1) d.paths).insertionSort_eq,
        (sorted_insertionSort_key (fun p : String × SoR => p.1) d.schemas).insertionSort_eq]
  · intro d
    exact ⟨sorted_insertionSort_key (fun t : Tag => t.name) d.tags,
           sorted_insertionSort_key (fun p : String × PathItem => p.1) d.paths,
           sorted_insertionSort_key (fun p : String × SoR => p.1) d.schemas⟩
  · intro d₁ d₂ ho hi ht hp hs ndt ndp nds
    simp only [canonicalizeDocument]
    rw [ho, hi]
    congr 1
    · exact sorted_perm_nodup_keys_eq (fun t : Tag => t.name) _ _
        (((List.perm_insertionSort _ d₁.tags).trans ht).trans
          (List.perm_insertionSort _ d₂.tags).symm)
        (sorted_insertionSort_key (fun t : Tag => t.name) d₁.tags)
        (sorted_insertionSort_key (fun t : Tag => t.name) d₂.tags)
        (((List.perm_insertionSort _ d₁.tags).map _).nodup_iff.mpr ndt)
    · exact sorted_perm_nodup_keys_eq (fun p : String × PathItem => p.1) _ _
        (((List.perm_insertionSort _ d₁.paths).trans hp).trans
          (List.perm_insertionSort _ d₂.paths).symm)
        (sorted_insertionSort_key (fun p : String × PathItem => p.1) d₁.paths)
        (sorted_insertionSort_key (fun p : String × PathItem => p.1) d₂.paths)
        (((List.perm_insertionSort _ d₁.paths).map _).nodup_iff.mpr ndp)
    · exact sorted_perm_nodup_keys_eq (fun p : String × SoR => p.1) _ _
        (((List.perm_insertionSort _ d₁.schemas).trans hs).trans
          (List.perm_insertionSort _ d₂.schemas).symm)
        (sorted_insertionSort_key (fun p : String × SoR => p.1) d₁.schemas)
        (sorted_insertionSort_key (fun p : String × SoR => p.1) d₂.schemas)
        (((List.perm_insertionSort _ d₁.schemas).map _).nodup_iff.mpr nds)

/-- Witness for C8: documents with distinct tag names in swapped orders
canonicalize identically. -/
theorem c8_canonicalize_sort_witness :
    canonicalizeDocument c8docC = canonicalizeDocument c8docD :=
  c8_canonicalize_sort.2.2 c8docC c8docD rfl rfl
    (List.Perm.swap c8tagA c8tagB [])
    (List.Perm.refl []) (List.Perm.refl [])
    (by decide) (by decide) (by decide)

/- ### C6: query-parameter derivation. -/

theorem schemaOrReferenceForType_fst (conf : Configuration) (req : List String)
    (t : String) :
    (schemaOrReferenceForType conf req t).1 = (schemaOrReferenceForType conf [] t).1 := by
  unfold schemaOrReferenceForType
  rcases h1 : schemaReferenceForTypeName conf req t with ⟨r1, q1⟩
  rcases h2 : schemaReferenceForTypeName conf [] t with ⟨r2, q2⟩
  have hr : r1 = r2 := by
    have e1 := schemaReferenceForTypeName_fst conf req t
    have e2 := schemaReferenceForTypeName_fst conf [] t
    rw [h1] at e1; rw [h2] at e2
    exact e1.trans e2.symm
  subst hr
  simp only [apply_ite Prod.fst]

theorem schemaOrReferenceForKind_fst (conf : Configuration) (req : List String)
    (k : FieldKind) :
    (schemaOrReferenceForKind conf req k).1 = (schemaOrReferenceForKind conf [] k).1 := by
  cases k <;> first
    | rfl
    | exact schemaOrReferenceForType_fst conf req _

theorem schemaOrReferenceForField_fst (conf : Configuration) (req : List String)
    (f : FieldDesc) :
    (schemaOrReferenceForField conf req f).1 = (schemaOrReferenceForField conf [] f).1 := by
  unfold schemaOrReferenceForField
  by_cases hm : f.isMap
  · rw [if_pos hm, if_pos hm]
    cases hv : f.mapValueKind with
    | none => rfl
    | some vk =>
        show (match schemaOrReferenceForKind conf req vk with
              | (valueSchema, required') =>
                  ((some (SoR.schema { type := "object" } SoRList.nil
                    (OptSoR.ofOption valueSchema) PropList.nil) : Option SoR), required')).1
          = (match schemaOrReferenceForKind conf [] vk with
              | (valueSchema, required') =>
                  ((some (SoR.schema { type := "object" } SoRList.nil
                    (OptSoR.ofOption valueSchema) PropList.nil) : Option SoR), required')).1
        rcases h1 : schemaOrReferenceForKind conf req vk with ⟨a, b⟩
        rcases h2 : schemaOrReferenceForKind conf [] vk with ⟨c, d⟩
        have hac : a = c := by
          have h := schemaOrReferenceForKind_fst conf req vk
          rw [h1, h2] at h; exact h
        subst hac
        rfl
  · rw [if_neg hm, if_neg hm]
    rcases h1 : schemaOrReferenceForKind conf req f.kind with ⟨a, b⟩
    rcases h2 : schemaOrReferenceForKind conf [] f.kind with ⟨c, d⟩
    have hac : a = c := by
      have h := schemaOrReferenceForKind_fst conf req f.kind
      rw [h1, h2] at h; exact h
    subst hac
    cases a with
    | none => rfl
    | some s => cases hl : f.isList <;> simp [hl]

theorem mkQueryParameter_fst (conf : Configuration) (req : List String) (f : FieldDesc) :
    (mkQueryParameter conf req f).1 = (mkQueryParameter conf [] f).1 := by
  unfold mkQueryParameter
  rcases h1 : schemaOrReferenceForField conf req f with ⟨a, b⟩
  rcases h2 : schemaOrReferenceForField conf [] f with ⟨c, d⟩
  have hac : a = c := by
    have h := schemaOrReferenceForField_fst conf req f
    rw [h1, h2] at h; exact h
  subst hac
  rfl

theorem queryParamsLoop_fst (conf : Configuration) (covered : List String) :
    ∀ (fields : List FieldDesc) (params : List Parameter) (required : List String),
      (queryParamsLoop conf covered fields (params, required)).1
        = params ++ (fields.filter (fun f => !(contains covered f.name))).map
            (fun f => (mkQueryParameter conf [] f).1)
  | [], params, required => by simp [queryParamsLoop]
  | f :: rest, params, required => by
      unfold queryParamsLoop
      by_cases hc : contains covered f.name = true
      · rw [if_neg (by simp [hc])]
        rw [queryParamsLoop_fst conf covered rest params required]
        simp [List.filter_cons, hc]
      · rw [if_pos (by simp [hc])]
        rcases hq : mkQueryParameter conf required f with ⟨p, required'⟩
        have hp : p = (mkQueryParameter conf [] f).1 := by
          rw [← mkQueryParameter_fst conf required f, hq]
        rw [queryParamsLoop_fst conf covered rest (params ++ [p]) required']
        simp [List.filter_cons, hc, hp]

theorem mkQueryParameter_shape (conf : Configuration) (req : List String) (f : FieldDesc) :
    ((mkQueryParameter conf req f).1).location = "query" ∧
    ((mkQueryParameter conf req f).1).required = false ∧
    ((mkQueryParameter conf req f).1).name = formatFieldName conf f ∧
    ((mkQueryParameter conf req f).1).description = filterCommentString f.comment true ∧
    ((mkQueryParameter conf req f).1).schema
      = some (addValidationRules
          (coalesceToStringSchema (schemaOrReferenceForField conf req f).1
            ["number", "integer"]) f) := by
  unfold mkQueryParameter
  rcases h1 : schemaOrReferenceForField conf req f with ⟨a, b⟩
  exact ⟨rfl, rfl, rfl, rfl, rfl⟩

def c6field : FieldDesc := { name := "data", kind := .bytesK, comment := "payload bytes" }

def c6msgW : MessageDesc :=
  MessageDesc.mk "In" none "pkg" "" none
    [{ name := "parent", kind := .stringK }, c6field] MessageList.nil

/-- **C6 counterexample**: the coalescing allow-list is `["number",
"integer"]` only — it does *not* include `"string"` as the claim asserts.
A `bytes` field's §4.2 schema is `{type: string, format: bytes}`: its type
*is* `string`, so by the claim it should survive coalescing unchanged, yet
the generated query parameter carries the fresh bare `{type: string}`
schema with the `format` discarded. -/
theorem c6_counterexample :
    (schemaOrReferenceForField {} [] c6field).1
        = some (SoR.scalar { type := "string", format := "bytes" }) ∧
    ((mkQueryParameter {} [] c6field).1).schema
        = some (SoR.scalar { type := "string" }) ∧
    SoR.scalar { type := "string", format := "bytes" } ≠ SoR.scalar { type := "string" } := by
  refine ⟨rfl, rfl, ?_⟩
  intro h
  have h2 : ({ type := "string", format := "bytes" } : SchemaCore)
      = { type := "string" } := by injection h
  exact absurd h2 (by decide)

/-- **C6** (amended): for an operation whose body selector is not `"*"`,
the operation's parameter list is the path parameters, then the named path
parameters, then exactly one query parameter per input-message field whose
(proto) name is not in the covered set computed by the path stage (the body
selector and the raw path-capture texts), in field order.  Each query
parameter is never required, lives in `query`, is named by field
formatting, carries the field's filtered leading comment as description,
and its schema is the §4.2 field schema passed through
`coalesceToStringSchema` with allow-list `["number", "integer"]` — so any
schema that is not an *inline* schema whose type is literally `"number"`
or `"integer"` (references, arrays, objects, enums, and also plain
`string`-typed schemas, whose formats are thereby dropped) is replaced by
a fresh bare `{type: string}` schema — with validation rules applied after
coalescing. -/
theorem c6_query_params :
    (∀ (conf : Configuration) (required : List String)
        (summary opid tag desc path bodyField : String)
        (inMsg outMsg : MessageDesc), bodyField ≠ "*" →
      ((buildOperationV3 conf required summary opid tag desc path bodyField
          inMsg outMsg).1).parameters
        = ((pathStage conf path bodyField inMsg).2.2.1).map mkPathParameter
          ++ ((pathStage conf path bodyField inMsg).2.2.2).map mkNamedPathParameter
          ++ (inMsg.fields.filter
                (fun f => !(contains (pathStage conf path bodyField inMsg).1 f.name))).map
              (fun f => (mkQueryParameter conf [] f).1)) ∧
    (∀ (conf : Configuration) (req : List String) (f : FieldDesc),
      ((mkQueryParameter conf req f).1).location = "query" ∧
      ((mkQueryParameter conf req f).1).required = false ∧
      ((mkQueryParameter conf req f).1).name = formatFieldName conf f ∧
      ((mkQueryParameter conf req f).1).description = filterCommentString f.comment true ∧
      ((mkQueryParameter conf req f).1).schema
        = some (addValidationRules
            (coalesceToStringSchema (schemaOrReferenceForField conf req f).1
              ["number", "integer"]) f)) ∧
    (∀ s : Option SoR,
      coalesceToStringSchema s ["number", "integer"] = SoR.scalar { type := "string" } ∨
      ∃ core items ap props, s = some (SoR.schema core items ap props) ∧
        (core.type = "number" ∨ core.type = "integer") ∧
        coalesceToStringSchema s ["number", "integer"] = SoR.schema core items ap props) := by
  refine ⟨?_, mkQueryParameter_shape, ?_⟩
  · intro conf required summary opid tag desc path bodyField inMsg outMsg hb
    unfold buildOperationV3
    rcases hps : pathStage conf path bodyField inMsg with ⟨covered, path', pp, np⟩
    dsimp only
    rw [if_pos hb]
    rcases hql : queryParamsLoop conf covered inMsg.fields ([], required)
      with ⟨qps, req1⟩
    have hq : qps = (inMsg.fields.filter (fun f => !(contains covered f.name))).map
        (fun f => (mkQueryParameter conf [] f).1) := by
      have h := queryParamsLoop_fst conf covered inMsg.fields [] required
      rw [hql] at h; simpa using h
    rcases hrc : responseContentForMessage conf req1 outMsg with ⟨rc, req2⟩
    by_cases hbe : bodyField = ""
    · rw [if_neg (by simpa using hbe)]
      simp [hq, List.append_assoc]
    · rw [if_pos (by simpa using hbe)]
      rcases hrb : requestBodySchema conf req2 bodyField inMsg with ⟨rs, req3⟩
      simp [hq, List.append_assoc]
  · intro s
    match s with
    | none => exact Or.inl rfl
    | some (SoR.ref x) => exact Or.inl rfl
    | some (SoR.schema core items ap props) =>
        by_cases hn : core.type = "number"
        · exact Or.inr ⟨core, items, ap, props, rfl, Or.inl hn,
            by simp [coalesceToStringSchema, contains, hn]⟩
        · by_cases hi : core.type = "integer"
          · exact Or.inr ⟨core, items, ap, props, rfl, Or.inr hi,
              by simp [coalesceToStringSchema, contains, hi, hn]⟩
          · refine Or.inl ?_
            simp [coalesceToStringSchema, contains, hi, hn]
            rintro (h | h)
            · exact absurd h.symm hn
            · exact absurd h.symm hi

/-- Witness for C6: a message with one covered (`parent`) and one
uncovered (`data`, bytes) field under a `GET`-style binding with empty
body selector yields exactly the single coalesced bare-string query
parameter after the path parameter. -/
theorem c6_query_params_witness :
    ((buildOperationV3 {} [] "" "Op" "Svc" "" "/v1/\x7bparent\x7d/things" "" c6msgW
        c6msgW).1).parameters
      = ((pathStage {} "/v1/\x7bparent\x7d/things" "" c6msgW).2.2.1).map mkPathParameter
        ++ ((pathStage {} "/v1/\x7bparent\x7d/things" "" c6msgW).2.2.2).map
            mkNamedPathParameter
        ++ (c6msgW.fields.filter
              (fun f => !(contains (pathStage {} "/v1/\x7bparent\x7d/things" "" c6msgW).1
                f.name))).map
            (fun f => (mkQueryParameter {} [] f).1) :=
  c6_query_params.1 {} [] "" "Op" "Svc" "" "/v1/\x7bparent\x7d/things" "" c6msgW c6msgW
    (by decide)

/- ### C2: termination of the schema-closure loop, uniqueness of
generated names. -/

theorem schemaReferenceForTypeName_snd (conf : Configuration) (req : List String)
    (t : String) :
    ∃ e, (schemaReferenceForTypeName conf req t).2 = req ++ e := by
  unfold schemaReferenceForTypeName
  by_cases hc : contains req t = true
  · exact ⟨[], by simp [hc]⟩
  · exact ⟨[t], by simp [hc]⟩

set_option maxHeartbeats 1000000 in
theorem schemaOrReferenceForType_snd (conf : Configuration) (req : List String)
    (t : String) :
    ∃ e, (schemaOrReferenceForType conf req t).2 = req ++ e := by
  unfold schemaOrReferenceForType
  obtain ⟨e, he⟩ := schemaReferenceForTypeName_snd conf req t
  rcases h1 : schemaReferenceForTypeName conf req t with ⟨r1, q1⟩
  rw [h1] at he
  simp only [apply_ite Prod.snd]
  split_ifs <;> first
    | exact ⟨e, he⟩
    | exact ⟨[], by simp⟩

theorem schemaOrReferenceForKind_snd (conf : Configuration) (req : List String)
    (k : FieldKind) :
    ∃ e, (schemaOrReferenceForKind conf req k).2 = req ++ e := by
  cases k <;> first
    | exact schemaOrReferenceForType_snd conf req _
    | exact ⟨[], by simp [schemaOrReferenceForKind]⟩

theorem schemaOrReferenceForField_snd (conf : Configuration) (req : List String)
    (f : FieldDesc) :
    ∃ e, (schemaOrReferenceForField conf req f).2 = req ++ e := by
  unfold schemaOrReferenceForField
  by_cases hm : f.isMap
  · rw [if_pos hm]
    cases hv : f.mapValueKind with
    | none => exact ⟨[], by simp⟩
    | some vk =>
        obtain ⟨e, he⟩ := schemaOrReferenceForKind_snd conf req vk
        show ∃ e, (match schemaOrReferenceForKind conf req vk with
              | (valueSchema, required') =>
                  ((some (SoR.schema { type := "object" } SoRList.nil
                    (OptSoR.ofOption valueSchema) PropList.nil) : Option SoR), required')).2
          = req ++ e
        rcases h1 : schemaOrReferenceForKind conf req vk with ⟨a, b⟩
        rw [h1] at he
        exact ⟨e, he⟩
  · rw [if_neg hm]
    obtain ⟨e, he⟩ := schemaOrReferenceForKind_snd conf req f.kind
    rcases h1 : schemaOrReferenceForKind conf req f.kind with ⟨a, b⟩
    rw [h1] at he
    cases a with
    | none => exact ⟨e, he⟩
    | some s => cases hl : f.isList <;> exact ⟨e, he⟩

theorem messageFieldsLoop_snd (conf : Configuration) (pattern : String) :
    ∀ (fields : List FieldDesc) (acc : List (String × SoR) × List String × List String),
      ∃ e, (messageFieldsLoop conf pattern fields acc).2.2 = acc.2.2 ++ e
  | [], acc => ⟨[], by simp [messageFieldsLoop]⟩
  | field :: rest, (props, rp, req) => by
      obtain ⟨e0, he0⟩ := schemaOrReferenceForField_snd conf req field
      unfold messageFieldsLoop
      rcases h1 : schemaOrReferenceForField conf req field with ⟨os, req1⟩
      rw [h1] at he0
      have he0' : req1 = req ++ e0 := he0
      have hPR : ∀ (P : List (String × SoR)) (R : List String),
          ∃ e, (messageFieldsLoop conf pattern rest (P, R, req1)).2.2 = req ++ e := by
        intro P R
        obtain ⟨e1, he1⟩ := messageFieldsLoop_snd conf pattern rest (P, R, req1)
        refine ⟨e0 ++ e1, ?_⟩
        rw [he1]
        simp [he0']
      cases os with
      | none => exact hPR props rp
      | some fs => exact hPR _ _

theorem addSchemas_spec (conf : Configuration) :
    ∀ (msgs : MessageList) (st : GenState),
      ∃ g r,
        (addSchemasToDocumentV3 conf st msgs).generated = st.generated ++ g ∧
        (addSchemasToDocumentV3 conf st msgs).required = st.required ++ r ∧
        (g = [] → r = []) ∧
        (∀ x ∈ g, x ∈ (deepMessages msgs).map fullMessageTypeName) ∧
        (st.generated.Nodup → (addSchemasToDocumentV3 conf st msgs).generated.Nodup)
  | .nil, st =>
      ⟨[], [], by simp [addSchemasToDocumentV3], by simp [addSchemasToDocumentV3],
       fun _ => rfl, by simp, fun h => h⟩
  | .cons (MessageDesc.mk nm par pkg cmt res flds nested) rest, st => by
      obtain ⟨g1, r1, hg1, hr1, hgr1, hsub1, hnd1⟩ := addSchemas_spec conf nested st
      rw [addSchemasToDocumentV3.eq_def]
      dsimp only
      set ST1 := addSchemasToDocumentV3 conf st nested with hST1
      set TN := fullMessageTypeName (MessageDesc.mk nm par pkg cmt res flds nested)
        with hTN
      by_cases hguard : ¬ contains ST1.required TN = true ∨ contains ST1.generated TN = true
      · rw [if_pos hguard]
        obtain ⟨g2, r2, hg2, hr2, hgr2, hsub2, hnd2⟩ := addSchemas_spec conf rest ST1
        refine ⟨g1 ++ g2, r1 ++ r2, ?_, ?_, ?_, ?_, ?_⟩
        · rw [hg2, hg1, List.append_assoc]
        · rw [hr2, hr1, List.append_assoc]
        · intro h
          rcases List.append_eq_nil.mp h with ⟨h1, h2⟩
          rw [hgr1 h1, hgr2 h2]
          rfl
        · intro x hx
          simp only [deepMessages, List.map_append, List.map_cons, List.mem_append,
            List.mem_cons]
          rcases List.mem_append.mp hx with hx | hx
          · exact Or.inl (hsub1 x hx)
          · exact Or.inr (Or.inr (hsub2 x hx))
        · intro h
          exact hnd2 (hnd1 h)
      · rw [if_neg hguard]
        push_neg at hguard
        obtain ⟨hreq, hgen⟩ := hguard
        have hgenCase : ∀ (pat : String),
            ∃ g r,
              ((match messageFieldsLoop conf pat flds ([], [], ST1.required) with
                | (props, requiredProps, required') =>
                    addSchemasToDocumentV3 conf
                      { required := required',
                        generated := ST1.generated ++ [TN],
                        doc := { ST1.doc with schemas := ST1.doc.schemas ++
                          [(formatMessageName conf
                              (MessageDesc.mk nm par pkg cmt res flds nested),
                            SoR.schema
                              { description := filterCommentString cmt true,
                                required := requiredProps }
                              SoRList.nil OptSoR.none (PropList.ofList props))] } }
                      rest : GenState)).generated = st.generated ++ g ∧
              ((match messageFieldsLoop conf pat flds ([], [], ST1.required) with
                | (props, requiredProps, required') =>
                    addSchemasToDocumentV3 conf
                      { required := required',
                        generated := ST1.generated ++ [TN],
                        doc := { ST1.doc with schemas := ST1.doc.schemas ++
                          [(formatMessageName conf
                              (MessageDesc.mk nm par pkg cmt res flds nested),
                            SoR.schema
                              { description := filterCommentString cmt true,
                                required := requiredProps }
                              SoRList.nil OptSoR.none (PropList.ofList props))] } }
                      rest : GenState)).required = st.required ++ r ∧
              (g = [] → r = []) ∧
              (∀ x ∈ g, x ∈ (deepMessages
                  (MessageList.cons (MessageDesc.mk nm par pkg cmt res flds nested)
                    rest)).map fullMessageTypeName) ∧
              (st.generated.Nodup →
                ((match messageFieldsLoop conf pat flds ([], [], ST1.required) with
                  | (props, requiredProps, required') =>
                      addSchemasToDocumentV3 conf
                        { required := required',
                          generated := ST1.generated ++ [TN],
                          doc := { ST1.doc with schemas := ST1.doc.schemas ++
                            [(formatMessageName conf
                                (MessageDesc.mk nm par pkg cmt res flds nested),
                              SoR.schema
                                { description := filterCommentString cmt true,
                                  required := requiredProps }
                                SoRList.nil OptSoR.none (PropList.ofList props))] } }
                        rest : GenState)).generated.Nodup) := by
          intro pat
          obtain ⟨e, he⟩ := messageFieldsLoop_snd conf pat flds ([], [], ST1.required)
          rcases hML : messageFieldsLoop conf pat flds ([], [], ST1.required)
            with ⟨props, rp, req'⟩
          rw [hML] at he
          have he' : req' = ST1.required ++ e := he
          obtain ⟨g2, r2, hg2, hr2, hgr2, hsub2, hnd2⟩ :=
            addSchemas_spec conf rest
              { required := req',
                generated := ST1.generated ++ [TN],
                doc := { ST1.doc with schemas := ST1.doc.schemas ++
                  [(formatMessageName conf
                      (MessageDesc.mk nm par pkg cmt res flds nested),
                    SoR.schema
                      { description := filterCommentString cmt true, required := rp }
                      SoRList.nil OptSoR.none (PropList.ofList props))] } }
          refine ⟨g1 ++ TN :: g2, r1 ++ e ++ r2, ?_, ?_, ?_, ?_, ?_⟩
          · rw [hg2]
            dsimp only
            rw [hg1]
            simp
          · rw [hr2]
            dsimp only
            rw [he', hr1]
            simp
          · intro h
            simp at h
          · intro x hx
            simp only [deepMessages, List.map_append, List.map_cons, List.mem_append,
              List.mem_cons]
            rcases List.mem_append.mp hx with hx | hx
            · exact Or.inl (hsub1 x hx)
            · rcases List.mem_cons.mp hx with hx | hx
              · exact Or.inr (Or.inl hx)
              · exact Or.inr (Or.inr (hsub2 x hx))
          · intro h
            apply hnd2
            dsimp only
            rw [List.nodup_append]
            refine ⟨hnd1 h, List.nodup_singleton TN, ?_⟩
            intro a ha hb
            rcases List.mem_singleton.mp hb with rfl
            rw [← contains_iff_mem] at ha
            exact hgen ha
        exact hgenCase _

theorem filesFold_spec (conf : Configuration) :
    ∀ (fs : List FileDesc) (st : GenState),
      ∃ g r,
        (fs.foldl (fun s f => addSchemasToDocumentV3 conf s f.messages) st).generated
            = st.generated ++ g ∧
        (fs.foldl (fun s f => addSchemasToDocumentV3 conf s f.messages) st).required
            = st.required ++ r ∧
        (g = [] → r = []) ∧
        (∀ x ∈ g, ∃ f ∈ fs, x ∈ (deepMessages f.messages).map fullMessageTypeName) ∧
        (st.generated.Nodup →
          (fs.foldl (fun s f => addSchemasToDocumentV3 conf s f.messages) st).generated.Nodup)
  | [], st => ⟨[], [], by simp, by simp, fun _ => rfl, by simp, fun h => h⟩
  | f :: fs, st => by
      obtain ⟨g1, r1, hg1, hr1, hgr1, hsub1, hnd1⟩ := addSchemas_spec conf f.messages st
      obtain ⟨g2, r2, hg2, hr2, hgr2, hsub2, hnd2⟩ :=
        filesFold_spec conf fs (addSchemasToDocumentV3 conf st f.messages)
      rw [List.foldl_cons]
      refine ⟨g1 ++ g2, r1 ++ r2, ?_, ?_, ?_, ?_, ?_⟩
      · rw [hg2, hg1, List.append_assoc]
      · rw [hr2, hr1, List.append_assoc]
      · intro h
        rcases List.append_eq_nil.mp h with ⟨h1, h2⟩
        rw [hgr1 h1, hgr2 h2]
        rfl
      · intro x hx
        rcases List.mem_append.mp hx with hx | hx
        · exact ⟨f, List.mem_cons_self f fs, hsub1 x hx⟩
        · obtain ⟨f', hf', hx'⟩ := hsub2 x hx
          exact ⟨f', List.mem_cons_of_mem f hf', hx'⟩
      · intro h
        exact hnd2 (hnd1 h)

theorem schemaPass_spec (conf : Configuration) (files : List FileDesc) (st : GenState) :
    ∃ g,
      (schemaPass conf files st).generated = st.generated ++ g ∧
      (g = [] → (schemaPass conf files st).required = []) ∧
      (∀ x ∈ g, ∃ f ∈ files, x ∈ (deepMessages f.messages).map fullMessageTypeName) ∧
      (st.generated.Nodup → (schemaPass conf files st).generated.Nodup) := by
  obtain ⟨g, r, hg, hr, hgr, hsub, hnd⟩ := filesFold_spec conf files st
  refine ⟨g, ?_, ?_, hsub, ?_⟩
  · exact hg
  · intro h
    show ((files.foldl (fun s f => addSchemasToDocumentV3 conf s f.messages) st).required).drop
        st.required.length = []
    rw [hr, hgr h, List.append_nil, List.drop_length]
  · exact hnd

theorem schemaLoop_of_required_nil (conf : Configuration) (files : List FileDesc)
    (fuel : Nat) (st : GenState) (h : st.required = []) :
    schemaLoop conf files fuel st = st := by
  cases fuel with
  | zero => rfl
  | succ f => simp [schemaLoop, h]

theorem schemaLoop_nodup (conf : Configuration) (files : List FileDesc) :
    ∀ (fuel : Nat) (st : GenState), st.generated.Nodup →
      (schemaLoop conf files fuel st).generated.Nodup
  | 0, _, h => h
  | fuel + 1, st, h => by
      rw [schemaLoop]
      split_ifs with hr
      · obtain ⟨g, hg, _, _, hndp⟩ := schemaPass_spec conf files st
        exact schemaLoop_nodup conf files fuel _ (hndp h)
      · exact h

theorem schemaLoop_drains (conf : Configuration) (files : List FileDesc) :
    ∀ (fuel : Nat) (st : GenState),
      st.generated.Nodup →
      (∀ x ∈ st.generated, x ∈ (allMessages files).map fullMessageTypeName) →
      (allMessages files).length + 1 ≤ fuel + st.generated.length →
      (schemaLoop conf files fuel st).required = []
  | 0, st, hnd, hsub, hle => by
      exfalso
      have hlen : st.generated.length ≤ (allMessages files).length := by
        have := (hnd.subperm (fun x hx => hsub x hx)).length_le
        simpa using this
      omega
  | fuel + 1, st, hnd, hsub, hle => by
      rw [schemaLoop]
      split_ifs with hr
      · obtain ⟨g, hg, hgr, hsubg, hndp⟩ := schemaPass_spec conf files st
        by_cases hgnil : g = []
        · rw [schemaLoop_of_required_nil conf files fuel _ (hgr hgnil)]
          exact hgr hgnil
        · apply schemaLoop_drains conf files fuel (schemaPass conf files st) (hndp hnd)
          · intro x hx
            rw [hg] at hx
            rcases List.mem_append.mp hx with hx | hx
            · exact hsub x hx
            · obtain ⟨f, hf, hx'⟩ := hsubg x hx
              rcases List.mem_map.mp hx' with ⟨m, hm, rfl⟩
              refine List.mem_map.mpr ⟨m, ?_, rfl⟩
              unfold allMessages
              rw [List.mem_flatten]
              exact ⟨deepMessages f.messages, List.mem_map.mpr ⟨f, hf, rfl⟩, hm⟩
          · rw [hg, List.length_append]
            have hpos : 0 < g.length := List.length_pos.mpr hgnil
            omega
      · have : st.required = [] := List.length_eq_zero.mp (by omega)
        exact this

/-- The state after the closure loop inside `buildDocumentV3`, for any
initial required list and document: the work queue is fully drained and
the generated names are pairwise distinct. -/
theorem c2_aux (conf : Configuration) (files : List FileDesc)
    (req0 : List String) (d0 : Document) :
    (schemaLoop conf files ((allMessages files).length + 2)
        { required := req0, generated := [], doc := d0 }).required = [] ∧
    (schemaLoop conf files ((allMessages files).length + 2)
        { required := req0, generated := [], doc := d0 }).generated.Nodup := by
  constructor
  · apply schemaLoop_drains conf files _ _ List.nodup_nil
    · intro x hx
      simp at hx
    · simp
  · exact schemaLoop_nodup conf files _ _ List.nodup_nil

/-- **C2**: for every finite descriptor set the schema-closure loop of
`buildDocumentV3` terminates — the fuel `|allMessages| + 2` provably
drains the work queue, matching the Go `for len(g.requiredSchemas) > 0`
loop's exit — and no fully-qualified type name is appended to
`generatedSchemas` twice: the final generated list is duplicate-free. -/
theorem c2_closure_terminates (conf : Configuration) (files : List FileDesc) :
    (buildDocumentV3 conf files).required = [] ∧
    (buildDocumentV3 conf files).generated.Nodup := by
  unfold buildDocumentV3
  dsimp only
  split <;>
    exact ⟨(c2_aux conf files _ _).1, (c2_aux conf files _ _).2⟩

/- ### C1: the `$ref`-closure invariant of the assembled document. -/

/-- The `$ref` string built for a fully-qualified type name (the first
component of `schemaReferenceForTypeName`). -/
def refOf (conf : Configuration) (t : String) : String :=
  "#/components/schemas/" ++ formatMessageRef conf ((strSplitOn t '.').getLastD "")

/-- The schema key that the `$ref` for type name `t` points at. -/
def refKey (conf : Configuration) (t : String) : String :=
  formatMessageRef conf ((strSplitOn t '.').getLastD "")

/-- A fully-qualified type name resolves when some traversed message
carries it. -/
def resolvableB (files : List FileDesc) (t : String) : Bool :=
  (allMessages files).any (fun m => fullMessageTypeName m = t)

/-- The well-known type names special-cased by `schemaOrReferenceForType`
(those never produce a `$ref`). -/
def isWKTName (t : String) : Bool :=
  contains [".google.protobuf.Timestamp", ".google.type.Date", ".google.type.DateTime",
    ".google.protobuf.Struct", ".google.protobuf.Empty", ".google.protobuf.BoolValue",
    ".google.protobuf.BytesValue", ".google.protobuf.DoubleValue",
    ".google.protobuf.FloatValue", ".google.protobuf.Int64Value",
    ".google.protobuf.UInt64Value", ".google.protobuf.Int32Value",
    ".google.protobuf.UInt32Value", ".google.protobuf.StringValue"] t

/-- Every message type a field kind can demand a schema for is either
special-cased inline or resolves among the traversed messages. -/
def fieldKindResolvesB (files : List FileDesc) : FieldKind → Bool
  | .messageK t => isWKTName t || resolvableB files t
  | _ => true

def fieldResolvesB (files : List FileDesc) (fd : FieldDesc) : Bool :=
  fieldKindResolvesB files fd.kind &&
  (match fd.mapValueKind with
   | some k => fieldKindResolvesB files k
   | none => true)

/-- The body-selector field of a method (when the selector names a
message-typed field) resolves unless it is `Empty`/`Struct`. -/
def methodBodyOkB (files : List FileDesc) (mth : MethodDesc) : Bool :=
  match mth.httpRule with
  | none => true
  | some rule =>
      mth.input.fields.all (fun fld =>
        if fld.name = rule.body then
          match fld.kind with
          | .messageK t =>
              decide (t = ".google.protobuf.Empty") ∨ decide (t = ".google.protobuf.Struct")
                ∨ resolvableB files t
          | _ => true
        else true)

/-- All resolvability facts needed of one method: its input fields, the
input type (for `*` bodies), the output type (for the response `$ref`)
and the body-selector field. -/
def methodOkB (files : List FileDesc) (mth : MethodDesc) : Bool :=
  mth.input.fields.all (fun fd => fieldResolvesB files fd) &&
  (decide (fullMessageTypeName mth.input = ".google.protobuf.Empty")
    ∨ decide (fullMessageTypeName mth.input = ".google.protobuf.Struct")
    ∨ resolvableB files (fullMessageTypeName mth.input)) &&
  (decide (fullMessageTypeName mth.output = ".google.protobuf.Empty")
    ∨ decide (fullMessageTypeName mth.output = ".google.protobuf.Struct")
    ∨ decide (fullMessageTypeName mth.output = ".google.api.HttpBody")
    ∨ resolvableB files (fullMessageTypeName mth.output)) &&
  methodBodyOkB files mth

/-- The `$ref` strings inside a properties list. -/
def propsRefs (props : List (String × SoR)) : List String :=
  (props.map (fun p => refsOfSoR p.2)).flatten

theorem refsOfSoR_scalar (core : SchemaCore) : refsOfSoR (SoR.scalar core) = [] := rfl

theorem refsOfProps_ofList :
    ∀ props : List (String × SoR), refsOfProps (PropList.ofList props) = propsRefs props
  | [] => rfl
  | (n, s) :: rest => by
      simp [PropList.ofList, refsOfProps, propsRefs, refsOfProps_ofList rest,
        List.flatten_cons]

theorem refs_addValidationRules (s : SoR) (f : FieldDesc) :
    refsOfSoR (addValidationRules s f) = refsOfSoR s := by
  unfold addValidationRules
  cases hr : f.rules with
  | none => rfl
  | some fieldRules =>
      cases s with
      | ref x => rfl
      | schema core items ap props =>
          dsimp only
          by_cases hm : f.isMap
          · rw [if_pos hm]
          · rw [if_neg hm]
            by_cases hl : f.isList
            · rw [if_pos hl]
              cases fieldRules.getRepeated with
              | none => rfl
              | some rr =>
                  dsimp only
                  cases rr.items with
                  | none => rfl
                  | some itemRules =>
                      cases items with
                      | nil => rfl
                      | cons hd tl =>
                          cases hd with
                          | ref x => rfl
                          | schema icore ii ia ip => rfl
            · rw [if_neg hl]
              rfl

theorem refsOfPathItem_set (item : PathItem) (mn : String) (op : Operation) :
    ∀ r ∈ refsOfPathItem (setPathItemOperation item mn op),
      r ∈ refsOfPathItem item ∨ r ∈ refsOfOperation op := by
  intro r hr
  unfold setPathItemOperation at hr
  split_ifs at hr <;>
    · simp only [refsOfPathItem, refsOfOptionOperation, List.mem_append] at hr ⊢
      tauto

theorem mem_updateFirstPathItem :
    ∀ (paths : List (String × PathItem)) (path : String) (f : PathItem → PathItem)
      (p : String × PathItem), p ∈ updateFirstPathItem paths path f →
        p ∈ paths ∨ ∃ q ∈ paths, p = (q.1, f q.2)
  | [], path, f, p, h => by
      rw [show updateFirstPathItem [] path f = [] from rfl] at h
      simp at h
  | (n, item) :: rest, path, f, p, h => by
      rw [show updateFirstPathItem ((n, item) :: rest) path f
          = if n = path then (n, f item) :: rest
            else (n, item) :: updateFirstPathItem rest path f from rfl] at h
      split_ifs at h with hn
      · rcases List.mem_cons.mp h with rfl | h2
        · exact Or.inr ⟨(n, item), List.mem_cons_self _ _, rfl⟩
        · exact Or.inl (List.mem_cons_of_mem _ h2)
      · rcases List.mem_cons.mp h with rfl | h2
        · exact Or.inl (List.mem_cons_self _ _)
        · rcases mem_updateFirstPathItem rest path f p h2 with h3 | ⟨q, hq, hpq⟩
          · exact Or.inl (List.mem_cons_of_mem _ h3)
          · exact Or.inr ⟨q, List.mem_cons_of_mem _ hq, hpq⟩

theorem docRefs_addOperationV3 (d : Document) (op : Operation) (path mn : String) :
    ∀ r ∈ docRefs (addOperationV3 d op path mn),
      r ∈ docRefs d ∨ r ∈ refsOfOperation op := by
  intro r hr
  unfold addOperationV3 at hr
  split_ifs at hr with hb
  · simp only [docRefs, List.mem_append, List.mem_flatten, List.mem_map] at hr ⊢
    rcases hr with ⟨l, ⟨p, hp, rfl⟩, hrl⟩ | hs
    · rcases mem_updateFirstPathItem d.paths path _ p hp with hmem | ⟨q, hq, hpq⟩
      · exact Or.inl (Or.inl ⟨refsOfPathItem p.2, ⟨p, hmem, rfl⟩, hrl⟩)
      · subst hpq
        rcases refsOfPathItem_set q.2 mn op r hrl with h | h
        · exact Or.inl (Or.inl ⟨refsOfPathItem q.2, ⟨q, hq, rfl⟩, h⟩)
        · exact Or.inr h
    · exact Or.inl (Or.inr hs)
  · simp only [docRefs, List.mem_append, List.mem_flatten, List.mem_map] at hr ⊢
    rcases hr with ⟨l, ⟨p, hp, rfl⟩, hrl⟩ | hs
    · rcases hp with hp | hp
      · exact Or.inl (Or.inl ⟨refsOfPathItem p.2, ⟨p, hp, rfl⟩, hrl⟩)
      · rcases List.mem_singleton.mp hp with rfl
        rcases refsOfPathItem_set {} mn op r hrl with h | h
        · simp [refsOfPathItem, refsOfOptionOperation] at h
        · exact Or.inr h
    · exact Or.inl (Or.inr hs)

theorem schemas_addOperationV3 (d : Document) (op : Operation) (path mn : String) :
    (addOperationV3 d op path mn).schemas = d.schemas := by
  unfold addOperationV3
  split_ifs <;> rfl

theorem mem_schemaReferenceForTypeName_self (conf : Configuration) (req : List String)
    (t : String) : t ∈ (schemaReferenceForTypeName conf req t).2 := by
  unfold schemaReferenceForTypeName
  dsimp only
  split_ifs with h
  · exact (contains_iff_mem req t).mp h
  · exact List.mem_append_right req (List.mem_singleton_self t)

theorem mem_schemaReferenceForTypeName (conf : Configuration) (req : List String)
    (t : String) : ∀ x ∈ (schemaReferenceForTypeName conf req t).2, x ∈ req ∨ x = t := by
  intro x hx
  unfold schemaReferenceForTypeName at hx
  dsimp only at hx
  split_ifs at hx with h
  · exact Or.inl hx
  · rcases List.mem_append.mp hx with hx | hx
    · exact Or.inl hx
    · exact Or.inr (List.mem_singleton.mp hx)

theorem schemaReferenceForTypeName_fst_refOf (conf : Configuration) (req : List String)
    (t : String) : (schemaReferenceForTypeName conf req t).1 = refOf conf t := rfl

set_option maxHeartbeats 1600000 in
theorem sorftype_spec (conf : Configuration) (req : List String) (t : String) :
    (∀ x ∈ (schemaOrReferenceForType conf req t).2,
       x ∈ req ∨ (x = t ∧ isWKTName t = false)) ∧
    (∀ r ∈ refsOfOptionSoR (schemaOrReferenceForType conf req t).1,
       r = refOf conf t ∧ t ∈ (schemaOrReferenceForType conf req t).2
         ∧ isWKTName t = false) := by
  unfold schemaOrReferenceForType
  rcases h1 : schemaReferenceForTypeName conf req t with ⟨r1, q1⟩
  by_cases c1 : t = ".google.protobuf.Timestamp"
  · rw [if_pos c1]
    exact ⟨fun x hx => Or.inl hx, fun r hr => absurd hr (List.not_mem_nil r)⟩
  rw [if_neg c1]
  by_cases c2 : t = ".google.type.Date"
  · rw [if_pos c2]
    exact ⟨fun x hx => Or.inl hx, fun r hr => absurd hr (List.not_mem_nil r)⟩
  rw [if_neg c2]
  by_cases c3 : t = ".google.type.DateTime"
  · rw [if_pos c3]
    exact ⟨fun x hx => Or.inl hx, fun r hr => absurd hr (List.not_mem_nil r)⟩
  rw [if_neg c3]
  by_cases c4 : t = ".google.protobuf.Struct"
  · rw [if_pos c4]
    exact ⟨fun x hx => Or.inl hx, fun r hr => absurd hr (List.not_mem_nil r)⟩
  rw [if_neg c4]
  by_cases c5 : t = ".google.protobuf.Empty"
  · rw [if_pos c5]
    exact ⟨fun x hx => Or.inl hx, fun r hr => absurd hr (List.not_mem_nil r)⟩
  rw [if_neg c5]
  by_cases c6 : t = ".google.protobuf.BoolValue"
  · rw [if_pos c6]
    exact ⟨fun x hx => Or.inl hx, fun r hr => absurd hr (List.not_mem_nil r)⟩
  rw [if_neg c6]
  by_cases c7 : t = ".google.protobuf.BytesValue"
  · rw [if_pos c7]
    exact ⟨fun x hx => Or.inl hx, fun r hr => absurd hr (List.not_mem_nil r)⟩
  rw [if_neg c7]
  by_cases c8 : t = ".google.protobuf.DoubleValue" ∨ t = ".google.protobuf.FloatValue"
  · rw [if_pos c8]
    exact ⟨fun x hx => Or.inl hx, fun r hr => absurd hr (List.not_mem_nil r)⟩
  rw [if_neg c8]
  by_cases c9 : t = ".google.protobuf.Int64Value" ∨ t = ".google.protobuf.UInt64Value"
      ∨ t = ".google.protobuf.Int32Value" ∨ t = ".google.protobuf.UInt32Value"
  · rw [if_pos c9]
    exact ⟨fun x hx => Or.inl hx, fun r hr => absurd hr (List.not_mem_nil r)⟩
  rw [if_neg c9]
  by_cases c10 : t = ".google.protobuf.StringValue"
  · rw [if_pos c10]
    exact ⟨fun x hx => Or.inl hx, fun r hr => absurd hr (List.not_mem_nil r)⟩
  rw [if_neg c10]
  have hw : isWKTName t = false := by
    rw [← Bool.not_eq_true]
    intro hcon
    simp only [isWKTName] at hcon
    rw [contains_iff_mem] at hcon
    simp only [List.mem_cons, List.not_mem_nil, or_false] at hcon
    rcases hcon with rfl|rfl|rfl|rfl|rfl|rfl|rfl|rfl|rfl|rfl|rfl|rfl|rfl|rfl
    · exact c1 rfl
    · exact c2 rfl
    · exact c3 rfl
    · exact c4 rfl
    · exact c5 rfl
    · exact c6 rfl
    · exact c7 rfl
    · exact c8 (Or.inl rfl)
    · exact c8 (Or.inr rfl)
    · exact c9 (Or.inl rfl)
    · exact c9 (Or.inr (Or.inl rfl))
    · exact c9 (Or.inr (Or.inr (Or.inl rfl)))
    · exact c9 (Or.inr (Or.inr (Or.inr rfl)))
    · exact c10 rfl
  constructor
  · intro x hx
    rcases mem_schemaReferenceForTypeName conf req t x (by rw [h1]; exact hx)
      with hx2 | hx2
    · exact Or.inl hx2
    · exact Or.inr ⟨hx2, hw⟩
  · intro r hr
    have hre : r = r1 := List.mem_singleton.mp hr
    have hq : t ∈ q1 := by
      have h2 := mem_schemaReferenceForTypeName_self conf req t
      rw [h1] at h2
      exact h2
    have hrr : r1 = refOf conf t := by
      have h2 := schemaReferenceForTypeName_fst_refOf conf req t
      rw [h1] at h2
      exact h2
    exact ⟨hre.trans hrr, hq, hw⟩

theorem refsOfOptSoR_ofOption (o : Option SoR) :
    refsOfOptSoR (OptSoR.ofOption o) = refsOfOptionSoR o := by
  cases o <;> rfl

theorem sorfkind_spec (conf : Configuration) (req : List String) (k : FieldKind) :
    (∀ x ∈ (schemaOrReferenceForKind conf req k).2,
       x ∈ req ∨ (k = .messageK x ∧ isWKTName x = false)) ∧
    (∀ r ∈ refsOfOptionSoR (schemaOrReferenceForKind conf req k).1,
       ∃ t, r = refOf conf t ∧ t ∈ (schemaOrReferenceForKind conf req k).2) := by
  cases k with
  | messageK t =>
      obtain ⟨hmem, hrefs⟩ := sorftype_spec conf req t
      constructor
      · intro x hx
        rcases hmem x hx with hx2 | ⟨rfl, hw⟩
        · exact Or.inl hx2
        · exact Or.inr ⟨rfl, hw⟩
      · intro r hr
        obtain ⟨hr1, hr2, _⟩ := hrefs r hr
        exact ⟨t, hr1, hr2⟩
  | enumK valueNames =>
      exact ⟨fun x hx => Or.inl hx, fun r hr => absurd hr (List.not_mem_nil r)⟩
  | _ =>
      exact ⟨fun x hx => Or.inl hx, fun r hr => absurd hr (List.not_mem_nil r)⟩

theorem sorffield_spec (conf : Configuration) (req : List String) (f : FieldDesc) :
    (∀ x ∈ (schemaOrReferenceForField conf req f).2,
       x ∈ req ∨ ((f.kind = .messageK x ∨ f.mapValueKind = some (.messageK x))
         ∧ isWKTName x = false)) ∧
    (∀ r ∈ refsOfOptionSoR (schemaOrReferenceForField conf req f).1,
       ∃ t, r = refOf conf t ∧ t ∈ (schemaOrReferenceForField conf req f).2) := by
  unfold schemaOrReferenceForField
  by_cases hm : f.isMap
  · rw [if_pos hm]
    cases hv : f.mapValueKind with
    | none => exact ⟨fun x hx => Or.inl hx, fun r hr => absurd hr (List.not_mem_nil r)⟩
    | some vk =>
        dsimp only
        obtain ⟨hmem, hrefs⟩ := sorfkind_spec conf req vk
        rcases h1 : schemaOrReferenceForKind conf req vk with ⟨a, b⟩
        rw [h1] at hmem hrefs
        constructor
        · intro x hx
          rcases hmem x hx with hx2 | ⟨hk, hw⟩
          · exact Or.inl hx2
          · exact Or.inr ⟨Or.inr (by rw [hk]), hw⟩
        · intro r hr
          have hr2 : r ∈ refsOfOptionSoR a := by
            have : refsOfSoR (SoR.schema { type := "object" } SoRList.nil
                (OptSoR.ofOption a) PropList.nil) = refsOfOptionSoR a := by
              show refsOfSoRList SoRList.nil ++ refsOfOptSoR (OptSoR.ofOption a)
                  ++ refsOfProps PropList.nil = refsOfOptionSoR a
              rw [refsOfOptSoR_ofOption]
              simp [refsOfSoRList, refsOfProps]
            rw [← this]
            exact hr
          obtain ⟨t, ht1, ht2⟩ := hrefs r hr2
          exact ⟨t, ht1, ht2⟩
  · rw [if_neg hm]
    obtain ⟨hmem, hrefs⟩ := sorfkind_spec conf req f.kind
    rcases h1 : schemaOrReferenceForKind conf req f.kind with ⟨a, b⟩
    rw [h1] at hmem hrefs
    constructor
    · intro x hx
      have hx' : x ∈ b := by
        cases a with
        | none => exact hx
        | some s => cases hl : f.isList <;> simpa [hl] using hx
      rcases hmem x hx' with hx2 | ⟨hk, hw⟩
      · exact Or.inl hx2
      · exact Or.inr ⟨Or.inl hk, hw⟩
    · intro r hr
      revert hr
      cases a with
      | none => exact fun hr => absurd hr (List.not_mem_nil r)
      | some s =>
          cases hl : f.isList with
          | true =>
              intro hr
              have hr2 : r ∈ (refsOfSoR s ++ []) ++ [] ++ [] := hr
              simp only [List.append_nil] at hr2
              obtain ⟨t, ht1, ht2⟩ := hrefs r hr2
              exact ⟨t, ht1, ht2⟩
          | false =>
              intro hr
              obtain ⟨t, ht1, ht2⟩ := hrefs r hr
              exact ⟨t, ht1, ht2⟩

theorem refs_coalesce (s : Option SoR) (allowed : List String) :
    ∀ r ∈ refsOfSoR (coalesceToStringSchema s allowed), r ∈ refsOfOptionSoR s := by
  intro r hr
  unfold coalesceToStringSchema at hr
  match s with
  | none => exact absurd hr (List.not_mem_nil r)
  | some (SoR.ref x) => exact absurd hr (List.not_mem_nil r)
  | some (SoR.schema core items ap props) =>
      dsimp only at hr
      split_ifs at hr with hc
      · exact hr
      · exact absurd hr (List.not_mem_nil r)

theorem queryParamsLoop_snd (conf : Configuration) (covered : List String) :
    ∀ (fields : List FieldDesc) (acc : List Parameter × List String),
      ∃ e, (queryParamsLoop conf covered fields acc).2 = acc.2 ++ e
  | [], acc => ⟨[], by simp [queryParamsLoop]⟩
  | f :: rest, (params, req) => by
      unfold queryParamsLoop
      obtain ⟨e0, he0⟩ := schemaOrReferenceForField_snd conf req f
      by_cases hc : contains covered f.name = true
      · rw [if_neg (by simp [hc])]
        exact queryParamsLoop_snd conf covered rest (params, req)
      · rw [if_pos (by simp [hc])]
        rcases hq : mkQueryParameter conf req f with ⟨p, req1⟩
        have hreq1 : req1 = req ++ e0 := by
          have h2 : (mkQueryParameter conf req f).2 = req ++ e0 := by
            unfold mkQueryParameter
            rcases h3 : schemaOrReferenceForField conf req f with ⟨a, b⟩
            rw [h3] at he0
            exact he0
          rw [hq] at h2
          exact h2
        obtain ⟨e1, he1⟩ := queryParamsLoop_snd conf covered rest (params ++ [p], req1)
        exact ⟨e0 ++ e1, by rw [he1]; simp [hreq1]⟩

theorem mkQueryParameter_spec (conf : Configuration) (req : List String) (f : FieldDesc) :
    (∀ x ∈ (mkQueryParameter conf req f).2,
       x ∈ req ∨ ((f.kind = .messageK x ∨ f.mapValueKind = some (.messageK x))
         ∧ isWKTName x = false)) ∧
    (∀ r ∈ refsOfOptionSoR ((mkQueryParameter conf req f).1).schema,
       ∃ t, r = refOf conf t ∧ t ∈ (mkQueryParameter conf req f).2) := by
  obtain ⟨hmem, hrefs⟩ := sorffield_spec conf req f
  unfold mkQueryParameter
  rcases h1 : schemaOrReferenceForField conf req f with ⟨a, b⟩
  rw [h1] at hmem hrefs
  constructor
  · exact hmem
  · intro r hr
    have hr1 : r ∈ refsOfSoR (addValidationRules
        (coalesceToStringSchema a ["number", "integer"]) f) := hr
    rw [refs_addValidationRules] at hr1
    have hr2 : r ∈ refsOfOptionSoR a := refs_coalesce a _ r hr1
    exact hrefs r hr2

theorem queryParamsLoop_spec (conf : Configuration) (covered : List String) :
    ∀ (fields : List FieldDesc) (acc : List Parameter × List String),
      (∀ x ∈ (queryParamsLoop conf covered fields acc).2,
         x ∈ acc.2 ∨ ∃ fd ∈ fields,
           (fd.kind = .messageK x ∨ fd.mapValueKind = some (.messageK x))
             ∧ isWKTName x = false) ∧
      (∀ p ∈ (queryParamsLoop conf covered fields acc).1,
         p ∈ acc.1 ∨ ∀ r ∈ refsOfOptionSoR p.schema,
           ∃ t, r = refOf conf t ∧ t ∈ (queryParamsLoop conf covered fields acc).2)
  | [], acc => ⟨fun x hx => Or.inl hx, fun p hp => Or.inl hp⟩
  | f :: rest, (params, req) => by
      unfold queryParamsLoop
      by_cases hc : contains covered f.name = true
      · rw [if_neg (by simp [hc])]
        obtain ⟨hmem, hpar⟩ := queryParamsLoop_spec conf covered rest (params, req)
        constructor
        · intro x hx
          rcases hmem x hx with hx2 | ⟨fd, hfd, hsrc⟩
          · exact Or.inl hx2
          · exact Or.inr ⟨fd, List.mem_cons_of_mem f hfd, hsrc⟩
        · exact hpar
      · rw [if_pos (by simp [hc])]
        rcases hq : mkQueryParameter conf req f with ⟨p, req1⟩
        obtain ⟨hqmem, hqrefs⟩ := mkQueryParameter_spec conf req f
        rw [hq] at hqmem hqrefs
        obtain ⟨hmem, hpar⟩ := queryParamsLoop_spec conf covered rest (params ++ [p], req1)
        obtain ⟨e1, he1⟩ := queryParamsLoop_snd conf covered rest (params ++ [p], req1)
        constructor
        · intro x hx
          rcases hmem x hx with hx2 | ⟨fd, hfd, hsrc⟩
          · rcases hqmem x hx2 with hx3 | hsrc
            · exact Or.inl hx3
            · exact Or.inr ⟨f, List.mem_cons_self f rest, hsrc⟩
          · exact Or.inr ⟨fd, List.mem_cons_of_mem f hfd, hsrc⟩
        · intro q hpq
          rcases hpar q hpq with hq2 | hq2
          · rcases List.mem_append.mp hq2 with hq3 | hq3
            · exact Or.inl hq3
            · rcases List.mem_singleton.mp hq3 with rfl
              refine Or.inr ?_
              intro r hr
              obtain ⟨t, ht1, ht2⟩ := hqrefs r hr
              refine ⟨t, ht1, ?_⟩
              rw [he1]
              exact List.mem_append_left e1 ht2
          · exact Or.inr hq2

theorem responseContent_snd (conf : Configuration) (req : List String)
    (out : MessageDesc) :
    ∃ e, (responseContentForMessage conf req out).2 = req ++ e := by
  unfold responseContentForMessage
  dsimp only
  split_ifs
  · exact ⟨[], by simp⟩
  · exact ⟨[], by simp⟩
  · exact ⟨[], by simp⟩
  · obtain ⟨e, he⟩ := schemaReferenceForTypeName_snd conf req (fullMessageTypeName out)
    rcases h1 : schemaReferenceForTypeName conf req (fullMessageTypeName out) with ⟨a, b⟩
    rw [h1] at he
    exact ⟨e, he⟩

theorem responseContent_spec (conf : Configuration) (req : List String)
    (out : MessageDesc) :
    (∀ x ∈ (responseContentForMessage conf req out).2,
       x ∈ req ∨ (x = fullMessageTypeName out ∧ x ≠ ".google.protobuf.Empty"
         ∧ x ≠ ".google.protobuf.Struct" ∧ x ≠ ".google.api.HttpBody")) ∧
    (∀ nm ∈ (responseContentForMessage conf req out).1,
       ∀ r ∈ refsOfOptionSoR nm.schema,
         ∃ t, r = refOf conf t ∧ t ∈ (responseContentForMessage conf req out).2) := by
  unfold responseContentForMessage
  dsimp only
  split_ifs with hc1 hc2 hc3
  · exact ⟨fun x hx => Or.inl hx, fun nm hnm r hr => by simp at hnm⟩
  · exact ⟨fun x hx => Or.inl hx, fun nm hnm r hr => by simp at hnm⟩
  · refine ⟨fun x hx => Or.inl hx, fun nm hnm r hr => ?_⟩
    rcases List.mem_singleton.mp hnm with rfl
    exact absurd hr (List.not_mem_nil r)
  · rcases h1 : schemaReferenceForTypeName conf req (fullMessageTypeName out) with ⟨a, b⟩
    constructor
    · intro x hx
      rcases mem_schemaReferenceForTypeName conf req _ x (by rw [h1]; exact hx)
        with hx2 | hx2
      · exact Or.inl hx2
      · subst hx2
        exact Or.inr ⟨rfl, hc1, hc2, hc3⟩
    · intro nm hnm r hr
      rcases List.mem_singleton.mp hnm with rfl
      have hre : r = a := List.mem_singleton.mp hr
      have hra : a = refOf conf (fullMessageTypeName out) := by
        have h2 := schemaReferenceForTypeName_fst_refOf conf req (fullMessageTypeName out)
        rw [h1] at h2
        exact h2
      have hb : fullMessageTypeName out ∈ b := by
        have h2 := mem_schemaReferenceForTypeName_self conf req (fullMessageTypeName out)
        rw [h1] at h2
        exact h2
      exact ⟨fullMessageTypeName out, hre.trans hra, hb⟩

theorem requestBody_snd (conf : Configuration) (req : List String)
    (bodyField : String) (inMsg : MessageDesc) :
    ∃ e, (requestBodySchema conf req bodyField inMsg).2 = req ++ e := by
  unfold requestBodySchema
  dsimp only
  split
  · exact ⟨[], by simp⟩
  next t hsm =>
    split_ifs with hc
    · exact ⟨[], by simp⟩
    · obtain ⟨e, he⟩ := schemaReferenceForTypeName_snd conf req t
      rcases h1 : schemaReferenceForTypeName conf req t with ⟨a, b⟩
      rw [h1] at he
      exact ⟨e, he⟩
  · exact ⟨[], by simp⟩

theorem requestBody_spec (conf : Configuration) (req : List String)
    (bodyField : String) (inMsg : MessageDesc) :
    (∀ x ∈ (requestBodySchema conf req bodyField inMsg).2,
       x ∈ req
       ∨ (bodyField = "*" ∧ x = fullMessageTypeName inMsg
           ∧ x ≠ ".google.protobuf.Empty" ∧ x ≠ ".google.protobuf.Struct")
       ∨ (x ≠ ".google.protobuf.Empty" ∧ x ≠ ".google.protobuf.Struct"
           ∧ ∃ fd ∈ inMsg.fields, fd.name = bodyField ∧ fd.kind = .messageK x)) ∧
    (∀ r ∈ refsOfOptionSoR (requestBodySchema conf req bodyField inMsg).1,
       ∃ t, r = refOf conf t ∧ t ∈ (requestBodySchema conf req bodyField inMsg).2) := by
  unfold requestBodySchema
  by_cases hstar : bodyField = "*"
  · rw [if_pos hstar]
    dsimp only
    by_cases hc : fullMessageTypeName inMsg = ".google.protobuf.Empty"
        ∨ fullMessageTypeName inMsg = ".google.protobuf.Struct"
    · rw [if_pos hc]
      exact ⟨fun x hx => Or.inl hx, fun r hr => absurd hr (List.not_mem_nil r)⟩
    · rw [if_neg hc]
      push_neg at hc
      rcases h1 : schemaReferenceForTypeName conf req (fullMessageTypeName inMsg)
        with ⟨a, b⟩
      constructor
      · intro x hx
        rcases mem_schemaReferenceForTypeName conf req _ x (by rw [h1]; exact hx)
          with hx2 | hx2
        · exact Or.inl hx2
        · subst hx2
          exact Or.inr (Or.inl ⟨hstar, rfl, hc.1, hc.2⟩)
      · intro r hr
        have hre : r = a := List.mem_singleton.mp hr
        have hra : a = refOf conf (fullMessageTypeName inMsg) := by
          have h2 := schemaReferenceForTypeName_fst_refOf conf req (fullMessageTypeName inMsg)
          rw [h1] at h2
          exact h2
        have hb : fullMessageTypeName inMsg ∈ b := by
          have h2 := mem_schemaReferenceForTypeName_self conf req (fullMessageTypeName inMsg)
          rw [h1] at h2
          exact h2
        exact ⟨fullMessageTypeName inMsg, hre.trans hra, hb⟩
  · rw [if_neg hstar]
    dsimp only
    rcases hfind : inMsg.fields.find? (fun f => f.name = bodyField) with _ | fd
    · rw [hfind]
      exact ⟨fun x hx => Or.inl hx, fun r hr => absurd hr (List.not_mem_nil r)⟩
    · rw [hfind]
      have hfd_mem : fd ∈ inMsg.fields := List.mem_of_find?_eq_some hfind
      have hfd_name : fd.name = bodyField := by
        have := List.find?_some hfind
        simpa using this
      dsimp only
      cases hk : fd.kind with
      | stringK =>
          exact ⟨fun x hx => Or.inl hx, fun r hr => absurd hr (List.not_mem_nil r)⟩
      | messageK t =>
          dsimp only
          by_cases hc : t = ".google.protobuf.Empty" ∨ t = ".google.protobuf.Struct"
          · rw [if_pos hc]
            exact ⟨fun x hx => Or.inl hx, fun r hr => absurd hr (List.not_mem_nil r)⟩
          · rw [if_neg hc]
            push_neg at hc
            rcases h1 : schemaReferenceForTypeName conf req t with ⟨a, b⟩
            constructor
            · intro x hx
              rcases mem_schemaReferenceForTypeName conf req _ x (by rw [h1]; exact hx)
                with hx2 | hx2
              · exact Or.inl hx2
              · subst hx2
                exact Or.inr (Or.inr ⟨hc.1, hc.2, fd, hfd_mem, hfd_name, hk⟩)
            · intro r hr
              have hre : r = a := List.mem_singleton.mp hr
              have hra : a = refOf conf t := by
                have h2 := schemaReferenceForTypeName_fst_refOf conf req t
                rw [h1] at h2
                exact h2
              have hb : t ∈ b := by
                have h2 := mem_schemaReferenceForTypeName_self conf req t
                rw [h1] at h2
                exact h2
              exact ⟨t, hre.trans hra, hb⟩
      | _ =>
          exact ⟨fun x hx => Or.inl hx, fun r hr => absurd hr (List.not_mem_nil r)⟩

/-- The possible origins of a type name appended to `requiredSchemas`
while building one operation. -/
def methodSrc (inMsg outMsg : MessageDesc) (bodyField x : String) : Prop :=
  (∃ fd ∈ inMsg.fields,
     (fd.kind = .messageK x ∨ fd.mapValueKind = some (.messageK x))
       ∧ isWKTName x = false) ∨
  (bodyField = "*" ∧ x = fullMessageTypeName inMsg
     ∧ x ≠ ".google.protobuf.Empty" ∧ x ≠ ".google.protobuf.Struct") ∨
  (x = fullMessageTypeName outMsg ∧ x ≠ ".google.protobuf.Empty"
     ∧ x ≠ ".google.protobuf.Struct" ∧ x ≠ ".google.api.HttpBody") ∨
  (x ≠ ".google.protobuf.Empty" ∧ x ≠ ".google.protobuf.Struct"
     ∧ ∃ fd ∈ inMsg.fields, fd.name = bodyField ∧ fd.kind = .messageK x)

theorem refs_mkPathParameter (name : String) :
    refsOfOptionSoR (mkPathParameter name).schema = [] := rfl

theorem refs_mkNamedPathParameter (name : String) :
    refsOfOptionSoR (mkNamedPathParameter name).schema = [] := rfl

theorem buildOperation_spec (conf : Configuration) (req : List String)
    (summary opid tag desc path bodyField : String) (inMsg outMsg : MessageDesc) :
    (∀ x ∈ (buildOperationV3 conf req summary opid tag desc path bodyField
        inMsg outMsg).2.2,
       x ∈ req ∨ methodSrc inMsg outMsg bodyField x) ∧
    (∀ r ∈ refsOfOperation (buildOperationV3 conf req summary opid tag desc path
        bodyField inMsg outMsg).1,
       ∃ t, r = refOf conf t
         ∧ t ∈ (buildOperationV3 conf req summary opid tag desc path bodyField
             inMsg outMsg).2.2) := by
  unfold buildOperationV3
  rcases hps : pathStage conf path bodyField inMsg with ⟨covered, path2, pp, np⟩
  dsimp only
  rcases hql : (if bodyField ≠ "*" then
      queryParamsLoop conf covered inMsg.fields ([], req) else ([], req))
    with ⟨qps, req1⟩
  have hqp : (∀ x ∈ req1, x ∈ req ∨ ∃ fd ∈ inMsg.fields,
        (fd.kind = .messageK x ∨ fd.mapValueKind = some (.messageK x))
          ∧ isWKTName x = false) ∧
      (∀ p ∈ qps, ∀ r ∈ refsOfOptionSoR p.schema,
        ∃ t, r = refOf conf t ∧ t ∈ req1) := by
    by_cases hb : bodyField = "*"
    · rw [if_neg (by simpa using hb)] at hql
      obtain ⟨h1, h2⟩ := Prod.mk.injEq _ _ _ _ |>.mp hql.symm
      constructor
      · intro x hx
        rw [h2] at hx
        exact Or.inl hx
      · intro p hp
        rw [h1] at hp
        exact absurd hp (List.not_mem_nil p)
    · rw [if_pos (by simpa using hb)] at hql
      obtain ⟨hmem, hpar⟩ := queryParamsLoop_spec conf covered inMsg.fields ([], req)
      rw [hql] at hmem hpar
      constructor
      · intro x hx
        rcases hmem x hx with hx2 | hsrc
        · exact Or.inl hx2
        · exact Or.inr hsrc
      · intro p hp r hr
        rcases hpar p hp with hp2 | hp2
        · exact absurd hp2 (List.not_mem_nil p)
        · exact hp2 r hr
  rcases hrc : responseContentForMessage conf req1 outMsg with ⟨rc, req2⟩
  obtain ⟨hrcmem, hrcrefs⟩ := responseContent_spec conf req1 outMsg
  obtain ⟨erc, herc⟩ := responseContent_snd conf req1 outMsg
  rw [hrc] at hrcmem hrcrefs herc
  have herc2 : req2 = req1 ++ erc := herc
  by_cases hbe : bodyField = ""
  · rw [if_neg (by simpa using hbe)]
    dsimp only
    constructor
    · intro x hx
      rcases hrcmem x hx with hx2 | hx2
      · rcases hqp.1 x hx2 with hx3 | hx3
        · exact Or.inl hx3
        · exact Or.inr (Or.inl hx3)
      · exact Or.inr (Or.inr (Or.inr (Or.inl hx2)))
    · intro r hr
      unfold refsOfOperation at hr
      dsimp only at hr
      rcases List.mem_append.mp hr with hr1 | hr1
      · rcases List.mem_append.mp hr1 with hr2 | hr2
        · rcases List.mem_flatten.mp hr2 with ⟨l, hl, hrl⟩
          rcases List.mem_map.mp hl with ⟨p, hp, rfl⟩
          rcases List.mem_append.mp hp with hp2 | hp2
          · rcases List.mem_append.mp hp2 with hp3 | hp3
            · rcases List.mem_map.mp hp3 with ⟨nm2, hnm2, rfl⟩
              rw [refs_mkPathParameter nm2] at hrl
              exact absurd hrl (List.not_mem_nil r)
            · rcases List.mem_map.mp hp3 with ⟨nm2, hnm2, rfl⟩
              rw [refs_mkNamedPathParameter nm2] at hrl
              exact absurd hrl (List.not_mem_nil r)
          · obtain ⟨t, ht1, ht2⟩ := hqp.2 p hp2 r hrl
            refine ⟨t, ht1, ?_⟩
            rw [herc2]
            exact List.mem_append_left erc ht2
        · simp at hr2
      · rcases List.mem_flatten.mp hr1 with ⟨l, hl, hrl⟩
        rcases List.mem_map.mp hl with ⟨resp, hresp, rfl⟩
        rcases List.mem_singleton.mp hresp with rfl
        rcases List.mem_flatten.mp hrl with ⟨l2, hl2, hrl2⟩
        rcases List.mem_map.mp hl2 with ⟨nm, hnm, rfl⟩
        obtain ⟨t, ht1, ht2⟩ := hrcrefs nm hnm r hrl2
        exact ⟨t, ht1, ht2⟩
  · rw [if_pos (by simpa using hbe)]
    rcases hrb : requestBodySchema conf req2 bodyField inMsg with ⟨rs, req3⟩
    obtain ⟨hrbmem, hrbrefs⟩ := requestBody_spec conf req2 bodyField inMsg
    obtain ⟨erb, herb⟩ := requestBody_snd conf req2 bodyField inMsg
    rw [hrb] at hrbmem hrbrefs herb
    have herb2 : req3 = req2 ++ erb := herb
    dsimp only
    constructor
    · intro x hx
      rcases hrbmem x hx with hx2 | hx2 | hx2
      · rcases hrcmem x hx2 with hx3 | hx3
        · rcases hqp.1 x hx3 with hx4 | hx4
          · exact Or.inl hx4
          · exact Or.inr (Or.inl hx4)
        · exact Or.inr (Or.inr (Or.inr (Or.inl hx3)))
      · exact Or.inr (Or.inr (Or.inl hx2))
      · exact Or.inr (Or.inr (Or.inr (Or.inr hx2)))
    · intro r hr
      unfold refsOfOperation at hr
      dsimp only at hr
      rcases List.mem_append.mp hr with hr1 | hr1
      · rcases List.mem_append.mp hr1 with hr2 | hr2
        · rcases List.mem_flatten.mp hr2 with ⟨l, hl, hrl⟩
          rcases List.mem_map.mp hl with ⟨p, hp, rfl⟩
          rcases List.mem_append.mp hp with hp2 | hp2
          · rcases List.mem_append.mp hp2 with hp3 | hp3
            · rcases List.mem_map.mp hp3 with ⟨nm2, hnm2, rfl⟩
              rw [refs_mkPathParameter nm2] at hrl
              exact absurd hrl (List.not_mem_nil r)
            · rcases List.mem_map.mp hp3 with ⟨nm2, hnm2, rfl⟩
              rw [refs_mkNamedPathParameter nm2] at hrl
              exact absurd hrl (List.not_mem_nil r)
          · obtain ⟨t, ht1, ht2⟩ := hqp.2 p hp2 r hrl
            refine ⟨t, ht1, ?_⟩
            rw [herb2, herc2]
            exact List.mem_append_left erb (List.mem_append_left erc ht2)
        · rcases List.mem_flatten.mp hr2 with ⟨l2, hl2, hrl2⟩
          rcases List.mem_map.mp hl2 with ⟨nm, hnm, rfl⟩
          rcases List.mem_singleton.mp hnm with rfl
          obtain ⟨t, ht1, ht2⟩ := hrbrefs r hrl2
          exact ⟨t, ht1, ht2⟩
      · rcases List.mem_flatten.mp hr1 with ⟨l, hl, hrl⟩
        rcases List.mem_map.mp hl with ⟨resp, hresp, rfl⟩
        rcases List.mem_singleton.mp hresp with rfl
        rcases List.mem_flatten.mp hrl with ⟨l2, hl2, hrl2⟩
        rcases List.mem_map.mp hl2 with ⟨nm, hnm, rfl⟩
        obtain ⟨t, ht1, ht2⟩ := hrcrefs nm hnm r hrl2
        refine ⟨t, ht1, ?_⟩
        rw [herb2]
        exact List.mem_append_left erb ht2

theorem buildOperation_snd (conf : Configuration) (req : List String)
    (summary opid tag desc path bodyField : String) (inMsg outMsg : MessageDesc) :
    ∃ e, (buildOperationV3 conf req summary opid tag desc path bodyField
        inMsg outMsg).2.2 = req ++ e := by
  unfold buildOperationV3
  rcases hps : pathStage conf path bodyField inMsg with ⟨covered, path2, pp, np⟩
  dsimp only
  rcases hql : (if bodyField ≠ "*" then
      queryParamsLoop conf covered inMsg.fields ([], req) else ([], req))
    with ⟨qps, req1⟩
  have hq1 : ∃ e, req1 = req ++ e := by
    by_cases hb : bodyField = "*"
    · rw [if_neg (by simpa using hb)] at hql
      exact ⟨[], by rw [← (Prod.mk.injEq _ _ _ _ |>.mp hql.symm).2]; simp⟩
    · rw [if_pos (by simpa using hb)] at hql
      obtain ⟨e, he⟩ := queryParamsLoop_snd conf covered inMsg.fields ([], req)
      rw [hql] at he
      exact ⟨e, he⟩
  rcases hrc : responseContentForMessage conf req1 outMsg with ⟨rc, req2⟩
  obtain ⟨erc, herc⟩ := responseContent_snd conf req1 outMsg
  rw [hrc] at herc
  have herc2 : req2 = req1 ++ erc := herc
  obtain ⟨eq1, heq1⟩ := hq1
  by_cases hbe : bodyField = ""
  · rw [if_neg (by simpa using hbe)]
    exact ⟨eq1 ++ erc, by rw [herc2, heq1]; simp⟩
  · rw [if_pos (by simpa using hbe)]
    rcases hrb : requestBodySchema conf req2 bodyField inMsg with ⟨rs, req3⟩
    obtain ⟨erb, herb⟩ := requestBody_snd conf req2 bodyField inMsg
    rw [hrb] at herb
    have herb2 : req3 = req2 ++ erb := herb
    exact ⟨eq1 ++ erc ++ erb, by rw [herb2, herc2, heq1]; simp⟩

theorem methodSrc_resolvable (files : List FileDesc) (mth : MethodDesc) (rule : HttpRule)
    (hrule : mth.httpRule = some rule) (hok : methodOkB files mth = true) :
    ∀ x, methodSrc mth.input mth.output rule.body x → resolvableB files x = true := by
  intro x hsrc
  unfold methodOkB at hok
  rw [Bool.and_eq_true, Bool.and_eq_true, Bool.and_eq_true] at hok
  obtain ⟨⟨⟨hflds, hin⟩, hout⟩, hbody⟩ := hok
  rcases hsrc with ⟨fd, hfd, hkind, hwkt⟩ | ⟨hstar, hxin, hne, hns⟩
    | ⟨hxout, hne, hns, hnh⟩ | ⟨hne, hns, fd, hfd, hname, hkind⟩
  · have h1 := (List.all_eq_true.mp hflds) fd hfd
    unfold fieldResolvesB at h1
    rw [Bool.and_eq_true] at h1
    rcases hkind with hk | hk
    · have h2 := h1.1
      rw [hk] at h2
      unfold fieldKindResolvesB at h2
      rw [Bool.or_eq_true] at h2
      rcases h2 with h2 | h2
      · rw [hwkt] at h2
        exact absurd h2 (by simp)
      · exact h2
    · have h2 := h1.2
      rw [hk] at h2
      have h3 : fieldKindResolvesB files (.messageK x) = true := h2
      unfold fieldKindResolvesB at h3
      rw [Bool.or_eq_true] at h3
      rcases h3 with h3 | h3
      · rw [hwkt] at h3
        exact absurd h3 (by simp)
      · exact h3
  · subst hxin
    have h2 := of_decide_eq_true hin
    rcases h2 with h2 | h2 | h2
    · exact absurd (of_decide_eq_true h2) hne
    · exact absurd (of_decide_eq_true h2) hns
    · exact h2
  · subst hxout
    have h2 := of_decide_eq_true hout
    rcases h2 with h2 | h2 | h2 | h2
    · exact absurd (of_decide_eq_true h2) hne
    · exact absurd (of_decide_eq_true h2) hns
    · exact absurd (of_decide_eq_true h2) hnh
    · exact h2
  · unfold methodBodyOkB at hbody
    rw [hrule] at hbody
    have h1 := (List.all_eq_true.mp hbody) fd hfd
    rw [if_pos hname] at h1
    rw [hkind] at h1
    have h2 := of_decide_eq_true h1
    rcases h2 with h2 | h2 | h2
    · exact absurd (of_decide_eq_true h2) hne
    · exact absurd (of_decide_eq_true h2) hns
    · exact h2

/-- The invariant carried through the path-derivation phase: every `$ref`
in the document points at a pending required name, every pending name
resolves among the traversed messages, and no component schema exists
yet. -/
def PathsInv (conf : Configuration) (files : List FileDesc)
    (req : List String) (d : Document) : Prop :=
  (∀ r ∈ docRefs d, ∃ t ∈ req, r = refOf conf t) ∧
  (∀ t ∈ req, resolvableB files t = true) ∧
  d.schemas = []

theorem addMethod_inv (conf : Configuration) (files : List FileDesc)
    (req : List String) (d : Document) (gn : String) (mth : MethodDesc)
    (hok : methodOkB files mth = true)
    (hinv : PathsInv conf files req d) :
    PathsInv conf files (addMethodToDocumentV3 conf req d gn mth).1
      (addMethodToDocumentV3 conf req d gn mth).2 := by
  obtain ⟨href, hres, hsch⟩ := hinv
  unfold addMethodToDocumentV3
  cases hrule : mth.httpRule with
  | none => exact ⟨href, hres, hsch⟩
  | some rule =>
      dsimp only
      rcases hmp : methodPathInfo rule.pattern with ⟨path, verb⟩
      by_cases hv : verb = ""
      · rw [if_neg (by simpa using hv)]
        exact ⟨href, hres, hsch⟩
      · rw [if_pos (by simpa using hv)]
        rcases hbo : buildOperationV3 conf req
            (filterCommentStringForSummary mth.comment mth.goName)
            (gn ++ "_" ++ mth.goName) gn (filterCommentString mth.comment false)
            path rule.body mth.input mth.output with ⟨op, path2, req2⟩
        obtain ⟨hbmem, hbrefs⟩ := buildOperation_spec conf req
          (filterCommentStringForSummary mth.comment mth.goName)
          (gn ++ "_" ++ mth.goName) gn (filterCommentString mth.comment false)
          path rule.body mth.input mth.output
        obtain ⟨eb, heb⟩ := buildOperation_snd conf req
          (filterCommentStringForSummary mth.comment mth.goName)
          (gn ++ "_" ++ mth.goName) gn (filterCommentString mth.comment false)
          path rule.body mth.input mth.output
        rw [hbo] at hbmem hbrefs heb
        have heb2 : req2 = req ++ eb := heb
        refine ⟨?_, ?_, ?_⟩
        · intro r hr
          rcases docRefs_addOperationV3 d op path2 verb r hr with hr2 | hr2
          · obtain ⟨t, ht1, ht2⟩ := href r hr2
            exact ⟨t, by rw [heb2]; exact List.mem_append_left eb ht1, ht2⟩
          · obtain ⟨t, ht1, ht2⟩ := hbrefs r hr2
            exact ⟨t, ht2, ht1⟩
        · intro t ht
          rcases hbmem t ht with ht2 | ht2
          · exact hres t ht2
          · exact methodSrc_resolvable files mth rule hrule hok t ht2
        · rw [schemas_addOperationV3]
          exact hsch

theorem methodsFold_inv (conf : Configuration) (files : List FileDesc) (gn : String) :
    ∀ (mths : List MethodDesc) (req : List String) (d : Document),
      (∀ mth ∈ mths, methodOkB files mth = true) →
      PathsInv conf files req d →
      PathsInv conf files
        (mths.foldl (fun acc m => addMethodToDocumentV3 conf acc.1 acc.2 gn m) (req, d)).1
        (mths.foldl (fun acc m => addMethodToDocumentV3 conf acc.1 acc.2 gn m) (req, d)).2
  | [], req, d, _, hinv => hinv
  | mth :: rest, req, d, hok, hinv => by
      rw [List.foldl_cons]
      exact methodsFold_inv conf files gn rest _ _
        (fun m hm => hok m (List.mem_cons_of_mem mth hm))
        (addMethod_inv conf files req d gn mth (hok mth (List.mem_cons_self mth rest)) hinv)

theorem addService_inv (conf : Configuration) (files : List FileDesc)
    (req : List String) (d : Document) (svc : ServiceDesc)
    (hok : ∀ mth ∈ svc.methods, methodOkB files mth = true)
    (hinv : PathsInv conf files req d) :
    PathsInv conf files (addServiceToDocumentV3 conf req d svc).1
      (addServiceToDocumentV3 conf req d svc).2 := by
  unfold addServiceToDocumentV3
  rcases hf : svc.methods.foldl
      (fun acc m => addMethodToDocumentV3 conf acc.1 acc.2 svc.goName m) (req, d)
    with ⟨req1, d1⟩
  have h1 := methodsFold_inv conf files svc.goName svc.methods req d hok hinv
  rw [hf] at h1
  obtain ⟨href, hres, hsch⟩ := h1
  dsimp only
  split_ifs with hc
  · exact ⟨href, hres, hsch⟩
  · exact ⟨href, hres, hsch⟩

theorem servicesFold_inv (conf : Configuration) (files : List FileDesc) :
    ∀ (svcs : List ServiceDesc) (req : List String) (d : Document),
      (∀ s ∈ svcs, ∀ mth ∈ s.methods, methodOkB files mth = true) →
      PathsInv conf files req d →
      PathsInv conf files
        (svcs.foldl (fun acc s => addServiceToDocumentV3 conf acc.1 acc.2 s) (req, d)).1
        (svcs.foldl (fun acc s => addServiceToDocumentV3 conf acc.1 acc.2 s) (req, d)).2
  | [], req, d, _, hinv => hinv
  | s :: rest, req, d, hok, hinv => by
      rw [List.foldl_cons]
      exact servicesFold_inv conf files rest _ _
        (fun s2 hs2 => hok s2 (List.mem_cons_of_mem s hs2))
        (addService_inv conf files req d s (hok s (List.mem_cons_self s rest)) hinv)

theorem pathsFilesFold_inv (conf : Configuration) (files : List FileDesc) :
    ∀ (fs : List FileDesc) (req : List String) (d : Document),
      (∀ f ∈ fs, ∀ s ∈ f.services, ∀ mth ∈ s.methods, methodOkB files mth = true) →
      PathsInv conf files req d →
      PathsInv conf files
        (fs.foldl (fun acc f => if f.generate = true
            then addPathsToDocumentV3 conf acc.1 acc.2 f else acc) (req, d)).1
        (fs.foldl (fun acc f => if f.generate = true
            then addPathsToDocumentV3 conf acc.1 acc.2 f else acc) (req, d)).2
  | [], req, d, _, hinv => hinv
  | f :: rest, req, d, hok, hinv => by
      rw [List.foldl_cons]
      by_cases hg : f.generate = true
      · rw [if_pos hg]
        rcases hp : addPathsToDocumentV3 conf req d f with ⟨req1, d1⟩
        have h1 : PathsInv conf files req1 d1 := by
          have h2 := servicesFold_inv conf files f.services req d
            (fun s hs => hok f (List.mem_cons_self f rest) s hs) hinv
          unfold addPathsToDocumentV3 at hp
          rw [hp] at h2
          exact h2
        exact pathsFilesFold_inv conf files rest req1 d1
          (fun f2 hf2 => hok f2 (List.mem_cons_of_mem f hf2)) h1
      · rw [if_neg hg]
        exact pathsFilesFold_inv conf files rest req d
          (fun f2 hf2 => hok f2 (List.mem_cons_of_mem f hf2)) hinv

theorem propsRefs_append (l : List (String × SoR)) (e : String × SoR) :
    propsRefs (l ++ [e]) = propsRefs l ++ refsOfSoR e.2 := by
  simp [propsRefs]

theorem messageFieldsLoop_refs (conf : Configuration) (pattern : String) :
    ∀ (fields : List FieldDesc)
      (acc : List (String × SoR) × List String × List String),
      (∀ x ∈ (messageFieldsLoop conf pattern fields acc).2.2,
         x ∈ acc.2.2 ∨ ∃ fd ∈ fields,
           (fd.kind = .messageK x ∨ fd.mapValueKind = some (.messageK x))
             ∧ isWKTName x = false) ∧
      (∀ r ∈ propsRefs (messageFieldsLoop conf pattern fields acc).1,
         r ∈ propsRefs acc.1 ∨ ∃ t, r = refOf conf t
           ∧ t ∈ (messageFieldsLoop conf pattern fields acc).2.2)
  | [], acc => ⟨fun x hx => Or.inl hx, fun r hr => Or.inl hr⟩
  | field :: rest, (props, rp, req) => by
      obtain ⟨hfmem, hfrefs⟩ := sorffield_spec conf req field
      unfold messageFieldsLoop
      rcases h1 : schemaOrReferenceForField conf req field with ⟨os, req1⟩
      rw [h1] at hfmem hfrefs
      have hkey : ∀ (P : List (String × SoR)) (R : List String)
          (hrefsP : ∀ r ∈ propsRefs P, r ∈ propsRefs props
            ∨ ∃ t, r = refOf conf t ∧ t ∈ req1),
          (∀ x ∈ (messageFieldsLoop conf pattern rest (P, R, req1)).2.2,
             x ∈ req ∨ ∃ fd ∈ field :: rest,
               (fd.kind = .messageK x ∨ fd.mapValueKind = some (.messageK x))
                 ∧ isWKTName x = false) ∧
          (∀ r ∈ propsRefs (messageFieldsLoop conf pattern rest (P, R, req1)).1,
             r ∈ propsRefs props ∨ ∃ t, r = refOf conf t
               ∧ t ∈ (messageFieldsLoop conf pattern rest (P, R, req1)).2.2) := by
        intro P R hrefsP
        obtain ⟨hmem, hrefs⟩ := messageFieldsLoop_refs conf pattern rest (P, R, req1)
        obtain ⟨e1, he1⟩ := messageFieldsLoop_snd conf pattern rest (P, R, req1)
        have he1' : (messageFieldsLoop conf pattern rest (P, R, req1)).2.2
            = req1 ++ e1 := he1
        constructor
        · intro x hx
          rcases hmem x hx with hx2 | ⟨fd, hfd, hsrc⟩
          · rcases hfmem x hx2 with hx3 | hx3
            · exact Or.inl hx3
            · exact Or.inr ⟨field, List.mem_cons_self field rest, hx3⟩
          · exact Or.inr ⟨fd, List.mem_cons_of_mem field hfd, hsrc⟩
        · intro r hr
          rcases hrefs r hr with hr2 | hr2
          · rcases hrefsP r hr2 with hr3 | ⟨t, ht1, ht2⟩
            · exact Or.inl hr3
            · refine Or.inr ⟨t, ht1, ?_⟩
              rw [he1']
              exact List.mem_append_left e1 ht2
          · exact Or.inr hr2
      cases os with
      | none =>
          exact hkey props rp (fun r hr => Or.inl hr)
      | some fs =>
          dsimp only
          cases fs with
          | ref x =>
              dsimp only
              refine hkey _ _ ?_
              intro r hr
              rw [propsRefs_append] at hr
              rcases List.mem_append.mp hr with hr2 | hr2
              · exact Or.inl hr2
              · by_cases hval : conf.validate = true
                · rw [if_pos hval] at hr2
                  have hr3 : r ∈ refsOfSoR (SoR.ref x) := by
                    rw [refs_addValidationRules] at hr2
                    exact hr2
                  obtain ⟨t, ht1, ht2⟩ := hfrefs r hr3
                  exact Or.inr ⟨t, ht1, ht2⟩
                · rw [if_neg hval] at hr2
                  have hr3 : r ∈ refsOfSoR (SoR.ref x) := hr2
                  obtain ⟨t, ht1, ht2⟩ := hfrefs r hr3
                  exact Or.inr ⟨t, ht1, ht2⟩
          | schema core items ap sprops =>
              dsimp only
              refine hkey _ _ ?_
              intro r hr
              rw [propsRefs_append] at hr
              rcases List.mem_append.mp hr with hr2 | hr2
              · exact Or.inl hr2
              · by_cases hval : conf.validate = true
                · rw [if_pos hval] at hr2
                  have hr3 : r ∈ refsOfSoR (SoR.schema core items ap sprops) := by
                    rw [refs_addValidationRules] at hr2
                    exact hr2
                  obtain ⟨t, ht1, ht2⟩ := hfrefs r hr3
                  exact Or.inr ⟨t, ht1, ht2⟩
                · rw [if_neg hval] at hr2
                  have hr3 : r ∈ refsOfSoR (SoR.schema core items ap sprops) := hr2
                  obtain ⟨t, ht1, ht2⟩ := hfrefs r hr3
                  exact Or.inr ⟨t, ht1, ht2⟩

/-- The invariant carried through the schema-generation loop. -/
def StInv (conf : Configuration) (files : List FileDesc) (st : GenState) : Prop :=
  (∀ r ∈ docRefs st.doc, ∃ t, (t ∈ st.required ∨ t ∈ st.generated) ∧ r = refOf conf t) ∧
  (schemaKeys st.doc = st.generated.map (refKey conf)) ∧
  (∀ t ∈ st.required, resolvableB files t = true) ∧
  (∀ t ∈ st.generated, resolvableB files t = true)

theorem docRefs_addSchema (d : Document) (e : String × SoR) :
    ∀ r ∈ docRefs { d with schemas := d.schemas ++ [e] },
      r ∈ docRefs d ∨ r ∈ refsOfSoR e.2 := by
  intro r hr
  unfold docRefs at hr ⊢
  dsimp only at hr
  rcases List.mem_append.mp hr with hr1 | hr1
  · exact Or.inl (List.mem_append_left _ hr1)
  · rcases List.mem_flatten.mp hr1 with ⟨l, hl, hrl⟩
    rcases List.mem_map.mp hl with ⟨p, hp, rfl⟩
    rcases List.mem_append.mp hp with hp2 | hp2
    · exact Or.inl (List.mem_append_right _
        (List.mem_flatten.mpr ⟨refsOfSoR p.2, List.mem_map_of_mem _ hp2, hrl⟩))
    · rcases List.mem_singleton.mp hp2 with rfl
      exact Or.inr hrl

theorem schemaKeys_addSchema (d : Document) (e : String × SoR) :
    schemaKeys { d with schemas := d.schemas ++ [e] } = schemaKeys d ++ [e.1] := by
  simp [schemaKeys]

theorem resolvable_self (files : List FileDesc) (m : MessageDesc)
    (hm : m ∈ allMessages files) :
    resolvableB files (fullMessageTypeName m) = true := by
  unfold resolvableB
  rw [List.any_eq_true]
  exact ⟨m, hm, by simp⟩

theorem fieldSrc_resolvable (files : List FileDesc) (m : MessageDesc)
    (hm : m ∈ allMessages files)
    (HA : ∀ m2 ∈ allMessages files, ∀ fd ∈ m2.fields, fieldResolvesB files fd = true)
    (x : String)
    (hsrc : ∃ fd ∈ m.fields,
      (fd.kind = .messageK x ∨ fd.mapValueKind = some (.messageK x))
        ∧ isWKTName x = false) :
    resolvableB files x = true := by
  obtain ⟨fd, hfd, hkind, hwkt⟩ := hsrc
  have h1 := HA m hm fd hfd
  unfold fieldResolvesB at h1
  rw [Bool.and_eq_true] at h1
  rcases hkind with hk | hk
  · have h2 := h1.1
    rw [hk] at h2
    unfold fieldKindResolvesB at h2
    rw [Bool.or_eq_true] at h2
    rcases h2 with h2 | h2
    · rw [hwkt] at h2
      exact absurd h2 (by simp)
    · exact h2
  · have h2 := h1.2
    rw [hk] at h2
    have h3 : fieldKindResolvesB files (.messageK x) = true := h2
    unfold fieldKindResolvesB at h3
    rw [Bool.or_eq_true] at h3
    rcases h3 with h3 | h3
    · rw [hwkt] at h3
      exact absurd h3 (by simp)
    · exact h3

theorem addSchemas_inv (conf : Configuration) (files : List FileDesc)
    (HC : ∀ m ∈ allMessages files,
      formatMessageName conf m = refKey conf (fullMessageTypeName m))
    (HA : ∀ m ∈ allMessages files, ∀ fd ∈ m.fields, fieldResolvesB files fd = true) :
    ∀ (msgs : MessageList) (st : GenState),
      (∀ m ∈ deepMessages msgs, m ∈ allMessages files) →
      StInv conf files st → StInv conf files (addSchemasToDocumentV3 conf st msgs)
  | .nil, st, _, hst => hst
  | .cons (MessageDesc.mk nm par pkg cmt res flds nested) rest, st, hsub, hst => by
      have hsubn : ∀ m ∈ deepMessages nested, m ∈ allMessages files := by
        intro m hm
        exact hsub m (by simp [deepMessages, List.mem_append]; exact Or.inl hm)
      have hsubr : ∀ m ∈ deepMessages rest, m ∈ allMessages files := by
        intro m hm
        exact hsub m (by
          simp only [deepMessages, List.mem_append, List.mem_cons]
          exact Or.inr (Or.inr hm))
      have hm0 : MessageDesc.mk nm par pkg cmt res flds nested ∈ allMessages files :=
        hsub _ (by simp [deepMessages, List.mem_append])
      have hst1 : StInv conf files (addSchemasToDocumentV3 conf st nested) :=
        addSchemas_inv conf files HC HA nested st hsubn hst
      obtain ⟨g1, r1, hg1, hr1, hgr1, hsubg1, hnd1⟩ := addSchemas_spec conf nested st
      rw [addSchemasToDocumentV3.eq_def]
      dsimp only
      set ST1 := addSchemasToDocumentV3 conf st nested with hST1
      set TN := fullMessageTypeName (MessageDesc.mk nm par pkg cmt res flds nested)
        with hTN
      by_cases hguard : ¬ contains ST1.required TN = true ∨ contains ST1.generated TN = true
      · rw [if_pos hguard]
        exact addSchemas_inv conf files HC HA rest ST1 hsubr hst1
      · rw [if_neg hguard]
        push_neg at hguard
        obtain ⟨hreq, hgen⟩ := hguard
        have hgenCase : ∀ (pat : String),
            StInv conf files
              ((match messageFieldsLoop conf pat flds ([], [], ST1.required) with
                | (props, requiredProps, required') =>
                    addSchemasToDocumentV3 conf
                      { required := required',
                        generated := ST1.generated ++ [TN],
                        doc := { ST1.doc with schemas := ST1.doc.schemas ++
                          [(formatMessageName conf
                              (MessageDesc.mk nm par pkg cmt res flds nested),
                            SoR.schema
                              { description := filterCommentString cmt true,
                                required := requiredProps }
                              SoRList.nil OptSoR.none (PropList.ofList props))] } }
                      rest : GenState)) := by
          intro pat
          obtain ⟨e, he⟩ := messageFieldsLoop_snd conf pat flds ([], [], ST1.required)
          obtain ⟨hmmem, hmrefs⟩ := messageFieldsLoop_refs conf pat flds
            ([], [], ST1.required)
          rcases hML : messageFieldsLoop conf pat flds ([], [], ST1.required)
            with ⟨props, rp, req'⟩
          rw [hML] at he hmmem hmrefs
          have he' : req' = ST1.required ++ e := he
          obtain ⟨hrefs1, hkeys1, hres1, hgen1⟩ := hst1
          have hst2 : StInv conf files
              { required := req',
                generated := ST1.generated ++ [TN],
                doc := { ST1.doc with schemas := ST1.doc.schemas ++
                  [(formatMessageName conf
                      (MessageDesc.mk nm par pkg cmt res flds nested),
                    SoR.schema
                      { description := filterCommentString cmt true, required := rp }
                      SoRList.nil OptSoR.none (PropList.ofList props))] } } := by
            refine ⟨?_, ?_, ?_, ?_⟩
            · intro r hr
              rcases docRefs_addSchema ST1.doc _ r hr with hr2 | hr2
              · obtain ⟨t, ht1, ht2⟩ := hrefs1 r hr2
                refine ⟨t, ?_, ht2⟩
                rcases ht1 with ht1 | ht1
                · exact Or.inl (by rw [he']; exact List.mem_append_left e ht1)
                · exact Or.inr (List.mem_append_left _ ht1)
              · have hre : r ∈ refsOfProps (PropList.ofList props) := hr2
                rw [refsOfProps_ofList] at hre
                rcases hmrefs r hre with hr3 | ⟨t, ht1, ht2⟩
                · exact absurd hr3 (List.not_mem_nil r)
                · exact ⟨t, Or.inl ht2, ht1⟩
            · rw [schemaKeys_addSchema]
              rw [hkeys1]
              have hname : formatMessageName conf
                  (MessageDesc.mk nm par pkg cmt res flds nested) = refKey conf TN :=
                HC _ hm0
              rw [List.map_append]
              simp [hname]
            · intro t ht
              rcases hmmem t ht with ht2 | ht2
              · exact hres1 t ht2
              · exact fieldSrc_resolvable files _ hm0 HA t ht2
            · intro t ht
              rcases List.mem_append.mp ht with ht2 | ht2
              · exact hgen1 t ht2
              · rcases List.mem_singleton.mp ht2 with rfl
                exact resolvable_self files _ hm0
          exact addSchemas_inv conf files HC HA rest _ hsubr hst2
        exact hgenCase _

theorem mem_generated_addSchemas (conf : Configuration) (msgs : MessageList)
    (st : GenState) (x : String) (hx : x ∈ st.generated) :
    x ∈ (addSchemasToDocumentV3 conf st msgs).generated := by
  obtain ⟨g, r, hg, _, _, _, _⟩ := addSchemas_spec conf msgs st
  rw [hg]
  exact List.mem_append_left g hx

theorem mem_required_addSchemas (conf : Configuration) (msgs : MessageList)
    (st : GenState) (x : String) (hx : x ∈ st.required) :
    x ∈ (addSchemasToDocumentV3 conf st msgs).required := by
  obtain ⟨g, r, _, hr, _, _, _⟩ := addSchemas_spec conf msgs st
  rw [hr]
  exact List.mem_append_left r hx

theorem addSchemas_visit (conf : Configuration) :
    ∀ (msgs : MessageList) (st : GenState) (m : MessageDesc),
      m ∈ deepMessages msgs →
      contains st.required (fullMessageTypeName m) = true →
      fullMessageTypeName m ∈ (addSchemasToDocumentV3 conf st msgs).generated
  | .nil, st, m, hm, _ => absurd hm (by simp [deepMessages])
  | .cons (MessageDesc.mk nm par pkg cmt res flds nested) rest, st, m, hm, hc => by
      rw [addSchemasToDocumentV3.eq_def]
      dsimp only
      set ST1 := addSchemasToDocumentV3 conf st nested with hST1
      set TN := fullMessageTypeName (MessageDesc.mk nm par pkg cmt res flds nested)
        with hTN
      obtain ⟨g1, r1, hg1, hr1, hgr1, hsubg1, hnd1⟩ := addSchemas_spec conf nested st
      have hcST1 : contains ST1.required (fullMessageTypeName m) = true := by
        rw [contains_iff_mem] at hc ⊢
        rw [hST1, hr1]
        exact List.mem_append_left r1 hc
      simp only [deepMessages, List.mem_append, List.mem_cons] at hm
      by_cases hguard : ¬ contains ST1.required TN = true ∨ contains ST1.generated TN = true
      · rw [if_pos hguard]
        rcases hm with hm | hm | hm
        · exact mem_generated_addSchemas conf rest ST1 _
            (addSchemas_visit conf nested st m hm hc)
        · subst hm
          rcases hguard with hguard | hguard
          · exact absurd hcST1 hguard
          · exact mem_generated_addSchemas conf rest ST1 _
              ((contains_iff_mem _ _).mp hguard)
        · exact addSchemas_visit conf rest ST1 m hm hcST1
      · rw [if_neg hguard]
        have hgenCase : ∀ (pat : String),
            fullMessageTypeName m ∈
              ((match messageFieldsLoop conf pat flds ([], [], ST1.required) with
                | (props, requiredProps, required') =>
                    addSchemasToDocumentV3 conf
                      { required := required',
                        generated := ST1.generated ++ [TN],
                        doc := { ST1.doc with schemas := ST1.doc.schemas ++
                          [(formatMessageName conf
                              (MessageDesc.mk nm par pkg cmt res flds nested),
                            SoR.schema
                              { description := filterCommentString cmt true,
                                required := requiredProps }
                              SoRList.nil OptSoR.none (PropList.ofList props))] } }
                      rest : GenState)).generated := by
          intro pat
          obtain ⟨e, he⟩ := messageFieldsLoop_snd conf pat flds ([], [], ST1.required)
          rcases hML : messageFieldsLoop conf pat flds ([], [], ST1.required)
            with ⟨props, rp, req'⟩
          rw [hML] at he
          have he' : req' = ST1.required ++ e := he
          rcases hm with hm | hm | hm
          · refine mem_generated_addSchemas conf rest _ _ ?_
            exact List.mem_append_left _ (addSchemas_visit conf nested st m hm hc)
          · subst hm
            refine mem_generated_addSchemas conf rest _ _ ?_
            exact List.mem_append_right _ (List.mem_singleton_self _)
          · refine addSchemas_visit conf rest _ m hm ?_
            show contains req' (fullMessageTypeName m) = true
            rw [contains_iff_mem, he']
            rw [contains_iff_mem] at hcST1
            exact List.mem_append_left e hcST1
        exact hgenCase _

theorem filesFoldGen_inv (conf : Configuration) (files : List FileDesc)
    (HC : ∀ m ∈ allMessages files,
      formatMessageName conf m = refKey conf (fullMessageTypeName m))
    (HA : ∀ m ∈ allMessages files, ∀ fd ∈ m.fields, fieldResolvesB files fd = true) :
    ∀ (fs : List FileDesc) (st : GenState),
      (∀ f ∈ fs, ∀ m ∈ deepMessages f.messages, m ∈ allMessages files) →
      StInv conf files st →
      StInv conf files
        (fs.foldl (fun s f => addSchemasToDocumentV3 conf s f.messages) st)
  | [], _, _, hst => hst
  | f :: fs, st, hsub, hst => by
      rw [List.foldl_cons]
      exact filesFoldGen_inv conf files HC HA fs _
        (fun f2 hf2 => hsub f2 (List.mem_cons_of_mem f hf2))
        (addSchemas_inv conf files HC HA f.messages st
          (hsub f (List.mem_cons_self f fs)) hst)

theorem filesFold_visit (conf : Configuration) :
    ∀ (fs : List FileDesc) (st : GenState) (m : MessageDesc),
      (∃ f ∈ fs, m ∈ deepMessages f.messages) →
      contains st.required (fullMessageTypeName m) = true →
      fullMessageTypeName m ∈
        (fs.foldl (fun s f => addSchemasToDocumentV3 conf s f.messages) st).generated
  | [], _, _, hf, _ => by simp at hf
  | f :: fs, st, m, hf, hc => by
      rw [List.foldl_cons]
      obtain ⟨g2, r2, hg2, hr2, _, _, _⟩ :=
        filesFold_spec conf fs (addSchemasToDocumentV3 conf st f.messages)
      rcases hf with ⟨f2, hf2, hm2⟩
      rcases List.mem_cons.mp hf2 with rfl | hf3
      · rw [hg2]
        exact List.mem_append_left g2 (addSchemas_visit conf f2.messages st m hm2 hc)
      · refine filesFold_visit conf fs _ m ⟨f2, hf3, hm2⟩ ?_
        rw [contains_iff_mem] at hc ⊢
        exact mem_required_addSchemas conf f.messages st _ hc

theorem resolvable_exists (files : List FileDesc) (t : String)
    (h : resolvableB files t = true) :
    ∃ m ∈ allMessages files, fullMessageTypeName m = t := by
  unfold resolvableB at h
  rw [List.any_eq_true] at h
  obtain ⟨m, hm, hmt⟩ := h
  exact ⟨m, hm, by simpa using hmt⟩

theorem mem_allMessages_deep (files : List FileDesc) (m : MessageDesc)
    (hm : m ∈ allMessages files) :
    ∃ f ∈ files, m ∈ deepMessages f.messages := by
  unfold allMessages at hm
  rw [List.mem_flatten] at hm
  obtain ⟨l, hl, hml⟩ := hm
  rcases List.mem_map.mp hl with ⟨f, hf, rfl⟩
  exact ⟨f, hf, hml⟩

theorem schemaPass_inv (conf : Configuration) (files : List FileDesc)
    (HC : ∀ m ∈ allMessages files,
      formatMessageName conf m = refKey conf (fullMessageTypeName m))
    (HA : ∀ m ∈ allMessages files, ∀ fd ∈ m.fields, fieldResolvesB files fd = true)
    (st : GenState) (hst : StInv conf files st) :
    StInv conf files (schemaPass conf files st) := by
  have hsubfs : ∀ f ∈ files, ∀ m ∈ deepMessages f.messages, m ∈ allMessages files := by
    intro f hf m hm
    unfold allMessages
    rw [List.mem_flatten]
    exact ⟨deepMessages f.messages, List.mem_map_of_mem _ hf, hm⟩
  have hfold := filesFoldGen_inv conf files HC HA files st hsubfs hst
  obtain ⟨g, r, hg, hr, hgr, hsubg, hnd⟩ := filesFold_spec conf files st
  obtain ⟨hrefs1, hkeys1, hres1, hgen1⟩ := hfold
  have hreq : (schemaPass conf files st).required = r := by
    show ((files.foldl (fun s f => addSchemasToDocumentV3 conf s f.messages)
        st).required).drop st.required.length = r
    rw [hr, List.drop_left]
  refine ⟨?_, hkeys1, ?_, hgen1⟩
  · intro r2 hr2
    obtain ⟨t, ht1, ht2⟩ := hrefs1 r2 hr2
    refine ⟨t, ?_, ht2⟩
    rcases ht1 with ht1 | ht1
    · rw [hr] at ht1
      rcases List.mem_append.mp ht1 with ht3 | ht3
      · refine Or.inr ?_
        obtain ⟨m, hm, rfl⟩ := resolvable_exists files t (hst.2.2.1 t ht3)
        exact filesFold_visit conf files st m (mem_allMessages_deep files m hm)
          ((contains_iff_mem _ _).mpr ht3)
      · exact Or.inl (by rw [hreq]; exact ht3)
    · exact Or.inr ht1
  · intro t ht
    rw [hreq] at ht
    refine hres1 t ?_
    rw [hr]
    exact List.mem_append_right _ ht

theorem schemaLoop_inv (conf : Configuration) (files : List FileDesc)
    (HC : ∀ m ∈ allMessages files,
      formatMessageName conf m = refKey conf (fullMessageTypeName m))
    (HA : ∀ m ∈ allMessages files, ∀ fd ∈ m.fields, fieldResolvesB files fd = true) :
    ∀ (fuel : Nat) (st : GenState), StInv conf files st →
      StInv conf files (schemaLoop conf files fuel st)
  | 0, _, hst => hst
  | fuel + 1, st, hst => by
      rw [schemaLoop]
      split_ifs with hr
      · exact schemaLoop_inv conf files HC HA fuel _
          (schemaPass_inv conf files HC HA st hst)
      · exact hst

theorem docRefs_canonicalize (d : Document) :
    ∀ r ∈ docRefs (canonicalizeDocument d), r ∈ docRefs d := by
  intro r hr
  unfold docRefs at hr ⊢
  unfold canonicalizeDocument at hr
  dsimp only at hr
  rcases List.mem_append.mp hr with hr1 | hr1
  · rcases List.mem_flatten.mp hr1 with ⟨l, hl, hrl⟩
    rcases List.mem_map.mp hl with ⟨p, hp, rfl⟩
    rw [List.mem_insertionSort] at hp
    exact List.mem_append_left _
      (List.mem_flatten.mpr ⟨refsOfPathItem p.2, List.mem_map_of_mem _ hp, hrl⟩)
  · rcases List.mem_flatten.mp hr1 with ⟨l, hl, hrl⟩
    rcases List.mem_map.mp hl with ⟨p, hp, rfl⟩
    rw [List.mem_insertionSort] at hp
    exact List.mem_append_right _
      (List.mem_flatten.mpr ⟨refsOfSoR p.2, List.mem_map_of_mem _ hp, hrl⟩)

theorem schemaKeys_canonicalize (d : Document) :
    List.Perm (schemaKeys (canonicalizeDocument d)) (schemaKeys d) :=
  (List.perm_insertionSort _ d.schemas).map Prod.fst

theorem refOf_eq_key (conf : Configuration) (t : String) :
    refOf conf t = "#/components/schemas/" ++ refKey conf t := rfl

theorem c1_key (conf : Configuration) (files : List FileDesc)
    (HA : ∀ m ∈ allMessages files, ∀ fd ∈ m.fields, fieldResolvesB files fd = true)
    (HC : ∀ m ∈ allMessages files,
      formatMessageName conf m = refKey conf (fullMessageTypeName m))
    (HD : ∀ t1 ∈ (allMessages files).map fullMessageTypeName,
      ∀ t2 ∈ (allMessages files).map fullMessageTypeName,
        refKey conf t1 = refKey conf t2 → t1 = t2)
    (req1 : List String) (d1 : Document)
    (hinv : PathsInv conf files req1 d1) :
    (∀ r ∈ docRefs (canonicalizeDocument
        (schemaLoop conf files ((allMessages files).length + 2)
          { required := req1, generated := [], doc := d1 }).doc),
       ∃ k ∈ schemaKeys (canonicalizeDocument
          (schemaLoop conf files ((allMessages files).length + 2)
            { required := req1, generated := [], doc := d1 }).doc),
         r = "#/components/schemas/" ++ k) ∧
    (schemaKeys (canonicalizeDocument
        (schemaLoop conf files ((allMessages files).length + 2)
          { required := req1, generated := [], doc := d1 }).doc)).Nodup ∧
    List.Perm (schemaKeys (canonicalizeDocument
        (schemaLoop conf files ((allMessages files).length + 2)
          { required := req1, generated := [], doc := d1 }).doc))
      (((schemaLoop conf files ((allMessages files).length + 2)
          { required := req1, generated := [], doc := d1 }).generated).map
        (refKey conf)) := by
  obtain ⟨href0, hres0, hsch0⟩ := hinv
  have hstinv : StInv conf files { required := req1, generated := [], doc := d1 } := by
    refine ⟨?_, ?_, hres0, ?_⟩
    · intro r hr
      obtain ⟨t, ht1, ht2⟩ := href0 r hr
      exact ⟨t, Or.inl ht1, ht2⟩
    · show schemaKeys d1 = List.map (refKey conf) []
      rw [show schemaKeys d1 = [] from by simp [schemaKeys, hsch0]]
      rfl
    · intro t ht
      exact absurd ht (List.not_mem_nil t)
  have hloopinv := schemaLoop_inv conf files HC HA
    ((allMessages files).length + 2) _ hstinv
  have hdrain : (schemaLoop conf files ((allMessages files).length + 2)
      { required := req1, generated := [], doc := d1 }).required = [] := by
    apply schemaLoop_drains conf files _ _ List.nodup_nil
    · intro x hx
      simp at hx
    · simp
  have hnd : (schemaLoop conf files ((allMessages files).length + 2)
      { required := req1, generated := [], doc := d1 }).generated.Nodup :=
    schemaLoop_nodup conf files _ _ List.nodup_nil
  obtain ⟨hrefs, hkeys, hres, hgen⟩ := hloopinv
  have hmemnames : ∀ t ∈ (schemaLoop conf files ((allMessages files).length + 2)
      { required := req1, generated := [], doc := d1 }).generated,
      t ∈ (allMessages files).map fullMessageTypeName := by
    intro t ht
    obtain ⟨m, hm, rfl⟩ := resolvable_exists files t (hgen t ht)
    exact List.mem_map_of_mem _ hm
  refine ⟨?_, ?_, ?_⟩
  · intro r hr
    obtain ⟨t, ht1, ht2⟩ := hrefs r (docRefs_canonicalize _ r hr)
    have htg : t ∈ (schemaLoop conf files ((allMessages files).length + 2)
        { required := req1, generated := [], doc := d1 }).generated := by
      rcases ht1 with ht1 | ht1
      · rw [hdrain] at ht1
        exact absurd ht1 (List.not_mem_nil t)
      · exact ht1
    refine ⟨refKey conf t, ?_, by rw [ht2, refOf_eq_key]⟩
    rw [(schemaKeys_canonicalize _).mem_iff, hkeys]
    exact List.mem_map_of_mem _ htg
  · rw [(schemaKeys_canonicalize _).nodup_iff, hkeys]
    refine List.Nodup.map_on ?_ hnd
    intro x hx y hy hxy
    exact HD x (hmemnames x hx) y (hmemnames y hy) hxy
  · exact (schemaKeys_canonicalize _).trans (by rw [hkeys])

/-- **C1** (amended): under the hypotheses the original claim leaves
implicit — (HA) every message-typed field of a traversed message either
names a special-cased well-known type or resolves to a traversed message,
(HB) per method, its input/output types and body-selector field resolve,
(HC) the schema key `formatMessageName` agrees with the `$ref` key
`formatMessageRef ∘ lastPart` on every traversed message (this is the
hypothesis the single-character-name counterexample violates), and
(HD) distinct traversed type names keep distinct `$ref` keys — every
`$ref` in the assembled document resolves to a `components.schemas` key,
the key list is duplicate-free, and it is exactly (a permutation of) the
keys derived from the generated-schema name list, i.e. one entry per
generated type, no omissions. -/
theorem c1_refs_resolve (conf : Configuration) (files : List FileDesc)
    (HA : ∀ m ∈ allMessages files, ∀ fd ∈ m.fields, fieldResolvesB files fd = true)
    (HB : ∀ f ∈ files, ∀ s ∈ f.services, ∀ mth ∈ s.methods,
      methodOkB files mth = true)
    (HC : ∀ m ∈ allMessages files,
      formatMessageName conf m = refKey conf (fullMessageTypeName m))
    (HD : ∀ t1 ∈ (allMessages files).map fullMessageTypeName,
      ∀ t2 ∈ (allMessages files).map fullMessageTypeName,
        refKey conf t1 = refKey conf t2 → t1 = t2) :
    (∀ r ∈ docRefs (buildDocumentV3 conf files).doc,
       ∃ k ∈ schemaKeys (buildDocumentV3 conf files).doc,
         r = "#/components/schemas/" ++ k) ∧
    (schemaKeys (buildDocumentV3 conf files).doc).Nodup ∧
    List.Perm (schemaKeys (buildDocumentV3 conf files).doc)
      (((buildDocumentV3 conf files).generated).map (refKey conf)) := by
  unfold buildDocumentV3
  dsimp only
  have hinv0 : PathsInv conf files []
      { openapi := "3.0.3",
        info := { version := conf.version, title := conf.title,
                  description := conf.description },
        tags := [], paths := [], schemas := [] } := by
    refine ⟨?_, ?_, rfl⟩
    · intro r hr
      exact absurd hr (List.not_mem_nil r)
    · intro t ht
      exact absurd ht (List.not_mem_nil t)
  have hfold := pathsFilesFold_inv conf files files []
    { openapi := "3.0.3",
      info := { version := conf.version, title := conf.title,
                description := conf.description },
      tags := [], paths := [], schemas := [] } HB hinv0
  split
  · obtain ⟨h1, h2, h3⟩ := hfold
    exact c1_key conf files HA HC HD _ _ ⟨h1, h2, h3⟩
  · obtain ⟨h1, h2, h3⟩ := hfold
    exact c1_key conf files HA HC HD _ _ ⟨h1, h2, h3⟩

def c1msg : MessageDesc := MessageDesc.mk "a" none "pkg" "" none [] MessageList.nil

def c1file : FileDesc :=
  { generate := true,
    services := [{ goName := "Svc",
                   methods := [{ goName := "Get", input := c1msg, output := c1msg,
                                 httpRule := some { pattern := .get "/v1/a",
                                                    body := "" } }] }],
    messages := .cons c1msg .nil }

set_option maxHeartbeats 4000000 in
/-- **C1 counterexample**: for a message named `"a"` (one character), the
assembled document's response `$ref` is `#/components/schemas/a` — built
by `formatMessageRef`, which lowercases single-character names — while the
lone `components.schemas` entry is keyed `"A"` by `formatMessageName`,
which uppercases every non-empty name.  The `$ref` therefore resolves to
no entry, refuting the claim that every `$ref` resolves by the time
assembly finishes. -/
theorem c1_counterexample :
    "#/components/schemas/a" ∈ docRefs (buildDocumentV3 {} [c1file]).doc ∧
    schemaKeys (buildDocumentV3 {} [c1file]).doc = ["A"] ∧
    ∀ k ∈ schemaKeys (buildDocumentV3 {} [c1file]).doc,
      "#/components/schemas/" ++ k ≠ "#/components/schemas/a" := by
  decide

def c1wmsg : MessageDesc := MessageDesc.mk "Thing" none "pkg" "" none [] MessageList.nil

def c1wfile : FileDesc :=
  { generate := true,
    services := [{ goName := "Svc",
                   methods := [{ goName := "Get", input := c1wmsg, output := c1wmsg,
                                 httpRule := some { pattern := .get "/v1/thing",
                                                    body := "" } }] }],
    messages := .cons c1wmsg .nil }

set_option maxHeartbeats 4000000 in
/-- Witness for C1 at a concrete single-file descriptor set satisfying
the four hypotheses. -/
theorem c1_refs_resolve_witness :
    (∀ r ∈ docRefs (buildDocumentV3 {} [c1wfile]).doc,
       ∃ k ∈ schemaKeys (buildDocumentV3 {} [c1wfile]).doc,
         r = "#/components/schemas/" ++ k) ∧
    (schemaKeys (buildDocumentV3 {} [c1wfile]).doc).Nodup ∧
    List.Perm (schemaKeys (buildDocumentV3 {} [c1wfile]).doc)
      (((buildDocumentV3 {} [c1wfile]).generated).map (refKey {})) :=
  c1_refs_resolve {} [c1wfile] (by decide) (by decide) (by decide) (by decide)
